import Mathlib

/-!
# mdspan: extents, layout mappings and submdspan

A shallow embedding of `circle/experimental/mdspan.hpp`.

* `size_t` values are natural numbers; every `size_t` operation of the source
  is written with an explicit reduction modulo `SIZE = 2^64`.
* Parameter packs are lists; a pack index `int...` is a position in the list.
* A pointer is the position (counted in elements) it points at.
-/

namespace Mdspan

/-! ## size_t -/

/-- Number of values of `size_t` (64 bits). -/
abbrev SIZE : Nat := 18446744073709551616

/-- The constant `dynamic_extent = size_t.max` (mdspan.hpp:17). -/
abbrev dynamic_extent : Nat := 18446744073709551615

/-- Subtraction of two `size_t` values, wrapping as unsigned arithmetic does. -/
def size_sub (a b : Nat) : Nat := (a % SIZE + (SIZE - b % SIZE)) % SIZE

/-! ## extents (mdspan.hpp:36-128) -/

/-- The struct `_storage_t<Index, Extent>` (mdspan.hpp:36-48). `Extent` is the
template argument; `value` is the data member of the specialization for
`dynamic_extent` and is ignored by the primary (static) template. -/
structure _storage_t where
  Extent : Nat
  value : Nat
deriving DecidableEq

namespace _storage_t

/-- The member `extent`: the constant `Extent` in the primary template, the
stored value in the `dynamic_extent` specialization. -/
def extent (s : _storage_t) : Nat :=
  if s.Extent = dynamic_extent then s.value else s.Extent

/-- Constructor `_storage_t(size_t value)`: the primary template asserts
`value == extent` (a failed assertion is `none`), the `dynamic_extent`
specialization stores the value. -/
def ctor (Extent value : Nat) : Option _storage_t :=
  if Extent = dynamic_extent then some ⟨Extent, value⟩
  else if value = Extent then some ⟨Extent, 0⟩
  else none

end _storage_t

/-- The class `extents<Extents...>`: the member pack `m` (mdspan.hpp:127). -/
structure extents where
  m : List _storage_t
deriving DecidableEq

namespace extents

/-- Method `rank()` of the source: `sizeof... Extents`. -/
def rank (e : extents) : Nat := e.m.length

/-- The template argument pack `Extents...` of the type of `e`. -/
def Extents (e : extents) : List Nat := e.m.map _storage_t.Extent

/-- Method `extent(n)` of the source:
`n == int... ...? m.extent : 0` (mdspan.hpp:122-124). -/
def extent (e : extents) (n : Nat) : Nat :=
  match e.m.get? n with
  | some s => s.extent
  | none => 0

/-- Method `get<I>()` of the source: `m...[I].extent` (mdspan.hpp:117-120);
`I` is a compile-time index below the rank. -/
def get (e : extents) (I : Nat) : Nat := e.extent I

/-- The run-time extents of all slots, in order. -/
def values (e : extents) : List Nat := e.m.map _storage_t.extent

/-- Constructor with one index per extent, `m(exts)...` (mdspan.hpp:83-86),
for the type `extents<Exts...>`; `none` when an assertion of a static slot
fails. -/
def ctor_all : List Nat → List Nat → Option (List _storage_t)
  | [], _ => some []
  | _ :: _, [] => none
  | E :: Exts, v :: exts =>
    match _storage_t.ctor E v, ctor_all Exts exts with
    | some s, some rest => some (s :: rest)
    | _, _ => none

end extents

/-! ## layout_right (mdspan.hpp:137-245) -/

namespace layout_right

/-- The class `layout_right::mapping<Extents>`: its only member is `_extents`. -/
structure mapping where
  _extents : extents
deriving DecidableEq

namespace mapping

/-- The loop of `compute_offset` (mdspan.hpp:151-155) from step `i` on, with
the accumulator `x` and the indices not yet consumed. -/
def compute_offset_loop (e : extents) : Nat → Nat → List Nat → Nat
  | _, x, [] => x
  | i, x, idx :: rest =>
    let x1 := if i ≠ 0 then (x * e.get i) % SIZE else x
    compute_offset_loop e (i + 1) ((x1 + idx) % SIZE) rest

/-- Method `compute_offset(indices...)` (mdspan.hpp:147-157). -/
def compute_offset (self : mapping) (indices : List Nat) : Nat :=
  compute_offset_loop self._extents 0 0 indices

/-- Method `operator()(idx...)` (mdspan.hpp:209-212). -/
def call (self : mapping) (idx : List Nat) : Nat := self.compute_offset idx

/-- The loop of `stride` (mdspan.hpp:220-221): `r` counts down while `r > i`. -/
def stride_loop (e : extents) (i : Nat) : Nat → Nat → Nat
  | 0, value => value
  | r + 1, value =>
    if r + 1 > i then stride_loop e i r ((value * e.extent (r + 1)) % SIZE)
    else value

/-- Method `stride(i)` (mdspan.hpp:218-223); the loop starts at
`Extents::rank() - 1` computed in `size_t`. -/
def stride (self : mapping) (i : Nat) : Nat :=
  stride_loop self._extents i ((self._extents.rank + (SIZE - 1)) % SIZE) 1

end mapping
end layout_right

/-! ## layout_stride (mdspan.hpp:357-464) -/

namespace layout_stride

/-- The class `layout_stride::mapping<Extents>`: members `_extents` and
`_strides`, a `std::array<size_t, Extents::rank()>`. -/
structure mapping where
  _extents : extents
  _strides : List Nat
deriving DecidableEq

namespace mapping

/-- Method `stride(r)`: `_strides[r]` (mdspan.hpp:437-439). -/
def stride (self : mapping) (r : Nat) : Nat := self._strides.getD r 0

/-- The fold `(0 + ... + (indices * _strides[int...]))` of `compute_index`
(mdspan.hpp:376) from pack position `i` on, with the partial sum `acc`. -/
def compute_index_fold (self : mapping) : Nat → Nat → List Nat → Nat
  | _, acc, [] => acc
  | i, acc, idx :: rest =>
    compute_index_fold self (i + 1) ((acc + (idx * self.stride i) % SIZE) % SIZE) rest

/-- Method `compute_index(indices...)` (mdspan.hpp:374-377). -/
def compute_index (self : mapping) (indices : List Nat) : Nat :=
  compute_index_fold self 0 0 indices

/-- Method `operator()(indices...)` (mdspan.hpp:431-435). -/
def call (self : mapping) (indices : List Nat) : Nat := self.compute_index indices

end mapping
end layout_stride

/-! ## layout_left (mdspan.hpp:247-355) -/

namespace layout_left

/-- The class `layout_left::mapping<Extents>`: its only member is `_extents`. -/
structure mapping where
  _extents : extents
deriving DecidableEq

namespace mapping

/-- The loop of `compute_offset` (mdspan.hpp:260-264): the first argument is
`i + 1` for the loop variable `i`, which counts down to 0; `n` is
`sizeof... indices`. -/
def compute_offset_loop (e : extents) (indices : List Nat) (n : Nat) : Nat → Nat → Nat
  | 0, x => x
  | i + 1, x =>
    let x1 := if i ≠ n - 1 then (x * e.get i) % SIZE else x
    compute_offset_loop e indices n i ((x1 + indices.getD i 0) % SIZE)

/-- Method `compute_offset(indices...)` (mdspan.hpp:256-266). -/
def compute_offset (self : mapping) (indices : List Nat) : Nat :=
  compute_offset_loop self._extents indices indices.length indices.length 0

/-- Method `operator()(idxs...)` (mdspan.hpp:318-321). -/
def call (self : mapping) (idxs : List Nat) : Nat := self.compute_offset idxs

/-- The loop of `stride` (mdspan.hpp:329-330): `k` iterations are left and
the loop variable is `r`. -/
def stride_loop (e : extents) : Nat → Nat → Nat → Nat
  | 0, _, value => value
  | k + 1, r, value => stride_loop e k (r + 1) ((value * e.extent r) % SIZE)

/-- Method `stride(i)` (mdspan.hpp:327-332). -/
def stride (self : mapping) (i : Nat) : Nat := stride_loop self._extents i 0 1

end mapping
end layout_left

/-! ## Exceptions -/

/-- How a call of a function ends: it returns a value, an exception leaves it
and reaches the caller, or `std::terminate` is called. -/
inductive Outcome (α : Type) where
  | returned (a : α)
  | thrown (what : String)
  | terminated
deriving DecidableEq

/-- A function declared `noexcept`: an exception that would leave its body
calls `std::terminate` instead of reaching the caller. -/
def noexcept_call {α : Type} (body : Except String α) : Outcome α :=
  match body with
  | .ok a => .returned a
  | .error _ => .terminated

/-- A function that is not declared `noexcept`: an exception that leaves its
body reaches the caller. -/
def throwing_call {α : Type} (body : Except String α) : Outcome α :=
  match body with
  | .ok a => .returned a
  | .error what => .thrown what

/-! ## Conversions from layout_stride (mdspan.hpp:190-207, 299-316) -/

namespace layout_right
namespace mapping

/-- The loop of the converting constructor (mdspan.hpp:201-206): the first
argument is the loop variable `r`, which counts down while `r > 0`. -/
def from_stride_loop (e : extents) (other : layout_stride.mapping) :
    Nat → Nat → Except String Unit
  | 0, _ => .ok ()
  | r + 1, stride =>
    if stride ≠ other.stride r then
      .error "Assigning layout_stride to layout_right with invalid strides."
    else from_stride_loop e other r ((stride * e.extent r) % SIZE)

/-- The body of the constructor `mapping(const OtherMapping& other)` from a
`layout_stride` mapping (mdspan.hpp:197-207), with `throw` as `Except.error`. -/
def from_stride_body (other : layout_stride.mapping) : Except String mapping :=
  let _extents := other._extents
  match from_stride_loop _extents other _extents.rank 1 with
  | .ok () => .ok ⟨_extents⟩
  | .error what => .error what

/-- The constructor `mapping(const OtherMapping& other) noexcept` from a
`layout_stride` mapping, as its caller sees it. -/
def from_stride (other : layout_stride.mapping) : Outcome mapping :=
  noexcept_call (from_stride_body other)

end mapping
end layout_right

namespace layout_left
namespace mapping

/-- The loop of the converting constructor (mdspan.hpp:310-315): `k`
iterations are left and the loop variable is `r`. -/
def from_stride_loop (e : extents) (other : layout_stride.mapping) :
    Nat → Nat → Nat → Except String Unit
  | 0, _, _ => .ok ()
  | k + 1, r, stride =>
    if stride ≠ other.stride r then
      .error "Assigning layout_stride to layout_left with invalid strides."
    else from_stride_loop e other k (r + 1) ((stride * e.extent r) % SIZE)

/-- The body of the constructor `mapping(const OtherMapping& other)` from a
`layout_stride` mapping (mdspan.hpp:306-316), with `throw` as `Except.error`. -/
def from_stride_body (other : layout_stride.mapping) : Except String mapping :=
  let _extents := other._extents
  match from_stride_loop _extents other _extents.rank 0 1 with
  | .ok () => .ok ⟨_extents⟩
  | .error what => .error what

/-- The constructor `mapping(const OtherMapping& other) noexcept` from a
`layout_stride` mapping, as its caller sees it. -/
def from_stride (other : layout_stride.mapping) : Outcome mapping :=
  noexcept_call (from_stride_body other)

end mapping
end layout_left

/-! ## mdspan (mdspan.hpp:468-619) -/

/-- The three layout policies a `Layout` template argument can be. -/
inductive Layout where
  | layout_left
  | layout_right
  | layout_stride
deriving DecidableEq

/-- The member type `mapping_type = Layout::mapping<Extents>` of `mdspan`
(mdspan.hpp:506), for the three layouts. -/
inductive mapping_type where
  | layout_left (m : layout_left.mapping)
  | layout_right (m : layout_right.mapping)
  | layout_stride (m : layout_stride.mapping)
deriving DecidableEq

namespace mapping_type

/-- The member type `layout_type` of the mapping. -/
def layout_type : mapping_type → Layout
  | .layout_left _ => Layout.layout_left
  | .layout_right _ => Layout.layout_right
  | .layout_stride _ => Layout.layout_stride

/-- Method `extents()` of the mapping. -/
def extents : mapping_type → Mdspan.extents
  | .layout_left m => m._extents
  | .layout_right m => m._extents
  | .layout_stride m => m._extents

/-- Method `operator()(indices...)` of the mapping. -/
def call : mapping_type → List Nat → Nat
  | .layout_left m, idx => m.call idx
  | .layout_right m, idx => m.call idx
  | .layout_stride m, idx => m.call idx

/-- Method `stride(r)` of the mapping. -/
def stride : mapping_type → Nat → Nat
  | .layout_left m, r => m.stride r
  | .layout_right m, r => m.stride r
  | .layout_stride m, r => m.stride r

end mapping_type

namespace default_accessor

/-- Method `offset(p, i)`: `p + i` (mdspan.hpp:481-483). -/
def offset (p i : Nat) : Nat := p + i

/-- Method `access(p, i)`: the element `p[i]`, given by its position
(mdspan.hpp:485-487). -/
def access (p i : Nat) : Nat := p + i

end default_accessor

/-- The class `mdspan` with the default accessor: members `_pointer` and
`_mapping` (mdspan.hpp:613-615). -/
structure mdspan where
  _pointer : Nat
  _mapping : mapping_type
deriving DecidableEq

namespace mdspan

/-- Method `rank()` (mdspan.hpp:589). -/
def rank (self : mdspan) : Nat := self._mapping.extents.rank

/-- Method `extents()` (mdspan.hpp:593). -/
def extents (self : mdspan) : Mdspan.extents := self._mapping.extents

/-- Method `extent(r)` (mdspan.hpp:594). -/
def extent (self : mdspan) (r : Nat) : Nat := self._mapping.extents.extent r

/-- Method `data()` (mdspan.hpp:599). -/
def data (self : mdspan) : Nat := self._pointer

/-- Method `mapping()` (mdspan.hpp:605). -/
def mapping (self : mdspan) : mapping_type := self._mapping

/-- Method `stride(r)` (mdspan.hpp:609). -/
def stride (self : mdspan) (r : Nat) : Nat := self._mapping.stride r

/-- Method `operator()(indices...)`: the position of the element referred to,
`_accessor.access(_pointer, _mapping(indices...))` (mdspan.hpp:575-579). -/
def call (self : mdspan) (indices : List Nat) : Nat :=
  default_accessor.access self._pointer (self._mapping.call indices)

end mdspan

/-! ## submdspan (mdspan.hpp:642-727) -/

/-- A slice specifier, by the conversion its type admits: to `size_t`, to
`std::tuple<size_t, size_t>`, or to `full_extent_t`. -/
inductive SliceSpec where
  | index (k : Nat)
  | range (lo hi : Nat)
  | full
deriving DecidableEq

namespace SliceSpec

/-- The test `std::is_convertible_v<S, size_t>`. -/
def is_index : SliceSpec → Bool
  | .index _ => true
  | _ => false

/-- The test `std::is_convertible_v<S, full_extent_t>`. -/
def is_full : SliceSpec → Bool
  | .full => true
  | _ => false

/-- The argument a slice contributes to the offset (mdspan.hpp:668-672). -/
def offset_arg : SliceSpec → Nat
  | .index k => k
  | .range lo _ => lo
  | .full => 0

end SliceSpec

/-- The pack slice `Pack...[a:b]`: the elements at positions `a` to `b - 1`. -/
def pack_slice {α : Type} (pack : List α) (a b : Nat) : List α := (pack.take b).drop a

/-- The template arguments of `Extents` (mdspan.hpp:675-678), from the slice
types and the pack `Exts...` of the source. -/
def sub_Extents : List SliceSpec → List Nat → List Nat
  | .range _ _ :: slices, _ :: Exts => dynamic_extent :: sub_Extents slices Exts
  | .full :: slices, E :: Exts => E :: sub_Extents slices Exts
  | .index _ :: slices, _ :: Exts => sub_Extents slices Exts
  | _, _ => []

/-- The initializers of `sub_extents` (mdspan.hpp:681-686); `i` is the pack
index `int...` of the first slice of the list. -/
def sub_extents_args (src : mdspan) : Nat → List SliceSpec → List Nat
  | _, [] => []
  | i, .range lo hi :: slices => size_sub hi lo :: sub_extents_args src (i + 1) slices
  | i, .full :: slices => src.extent i :: sub_extents_args src (i + 1) slices
  | i, .index _ :: slices => sub_extents_args src (i + 1) slices

/-- The initializers of `strides` (mdspan.hpp:717-719); `i` is the pack index
`int...` of the first slice of the list. -/
def sub_strides (src : mdspan) : Nat → List SliceSpec → List Nat
  | _, [] => []
  | i, .index _ :: slices => sub_strides src (i + 1) slices
  | i, _ :: slices => src.stride i :: sub_strides src (i + 1) slices

/-- The test `std::is_convertible_v<SliceSpecs...[k], size_t>`. -/
def is_index_at (slices : List SliceSpec) (k : Nat) : Bool :=
  match slices.get? k with
  | some s => s.is_index
  | none => false

/-- The constant `is_layout_left` (mdspan.hpp:692-695). -/
def is_layout_left (LP : Layout) (slices : List SliceSpec) (rank2 : Nat) : Bool :=
  decide (LP = Layout.layout_left) && (decide (rank2 = 0) ||
    ((pack_slice slices 0 (rank2 - 1)).all SliceSpec.is_full &&
      !is_index_at slices (rank2 - 1)))

/-- The constant `is_layout_right` (mdspan.hpp:702-705). -/
def is_layout_right (LP : Layout) (slices : List SliceSpec) (rank rank2 : Nat) : Bool :=
  decide (LP = Layout.layout_right) && (decide (rank2 = 0) ||
    ((pack_slice slices (rank - rank2 + 1) rank).all SliceSpec.is_full &&
      !is_index_at slices (rank - rank2)))

/-- The function `submdspan(src, slices...)` (mdspan.hpp:656-727). The result
is `none` when an assertion of the `extents` constructor fails, and in the
branch that `if constexpr` never instantiates for `layout_stride`. -/
def submdspan (src : mdspan) (slices : List SliceSpec) : Option mdspan :=
  let rank := src.rank
  let offset := src.mapping.call (slices.map SliceSpec.offset_arg)
  let Exts2 := sub_Extents slices src.extents.Extents
  let rank2 := Exts2.length
  match extents.ctor_all Exts2 (sub_extents_args src 0 slices) with
  | none => none
  | some m2 =>
    let sub_extents : Mdspan.extents := ⟨m2⟩
    let LP := src.mapping.layout_type
    if is_layout_left LP slices rank2 || is_layout_right LP slices rank rank2 then
      match LP with
      | Layout.layout_left =>
        some ⟨src.data + offset, mapping_type.layout_left ⟨sub_extents⟩⟩
      | Layout.layout_right =>
        some ⟨src.data + offset, mapping_type.layout_right ⟨sub_extents⟩⟩
      | Layout.layout_stride => none
    else
      some ⟨src.data + offset,
        mapping_type.layout_stride ⟨sub_extents, sub_strides src 0 slices⟩⟩

/-! ## Further members of extents (mdspan.hpp:54-124) -/

namespace extents

/-- Method `rank_dynamic()` of the source: `Extents.count(dynamic_extent)`
(mdspan.hpp:55-57). -/
def rank_dynamic (e : extents) : Nat := e.Extents.count dynamic_extent

/-- Method `static_extent(n)` of the source:
`n == int... ...? Extents : 0` (mdspan.hpp:58-60). -/
def static_extent (e : extents) (n : Nat) : Nat :=
  match e.m.get? n with
  | some s => s.Extent
  | none => 0

/-- The constant `find_dynamic_index<I>` of the type `extents<Exts...>`:
`Extents...[:I].count(dynamic_extent)` (mdspan.hpp:89-91). -/
def find_dynamic_index (Exts : List Nat) (I : Nat) : Nat :=
  (Exts.take I).count dynamic_extent

/-- The member initializers of the constructor with one index per dynamic
extent (mdspan.hpp:98-102) for the slots from position `I` on: a dynamic slot
receives `exts...[find_dynamic_index<I>]`, a static slot its own `Extents`.
The result is `none` when a pack subscript is out of range or an assertion
fails. -/
def ctor_dynamic_from (Exts exts : List Nat) : Nat → List Nat → Option (List _storage_t)
  | _, [] => some []
  | I, E :: rest =>
    match (if dynamic_extent = E then exts.get? (find_dynamic_index Exts I) else some E) with
    | none => none
    | some v =>
      match _storage_t.ctor E v, ctor_dynamic_from Exts exts (I + 1) rest with
      | some s, some r => some (s :: r)
      | _, _ => none

/-- Constructor with one index per dynamic extent (mdspan.hpp:94-102) for the
type `extents<Exts...>`; its `requires` clause is
`exts.length ≠ Exts.length ∧ exts.length = Exts.count dynamic_extent`. -/
def ctor_dynamic (Exts exts : List Nat) : Option (List _storage_t) :=
  ctor_dynamic_from Exts exts 0 Exts

/-- The friend `operator==(lhs, rhs)` (mdspan.hpp:110-115):
`sizeof... Extents2 == rank() &&& (... && (lhs.get<I>() == rhs.get<I>()))`. -/
def eq (lhs rhs : extents) : Bool :=
  decide (rhs.rank = lhs.rank) &&
    (List.range lhs.rank).all fun I => decide (lhs.get I = rhs.get I)

end extents

/-! ## extent.cxx -/

namespace extent_cxx

/-- The constructors of `_storage_t` in extent.cxx (lines 10-22): the static
one ignores its argument, the dynamic one stores it. -/
def storage_ctor (Extent extent : Nat) : _storage_t :=
  if Extent = dynamic_extent then ⟨Extent, extent⟩ else ⟨Extent, 0⟩

/-- The constructor `extents(IndexTypes... indices) : m(indices)...` of
extent.cxx (lines 26-27) for the type `extents<Exts...>`; `none` when the two
packs differ in length. -/
def extents_ctor : List Nat → List Nat → Option (List _storage_t)
  | [], [] => some []
  | E :: Exts, v :: indices =>
    match extents_ctor Exts indices with
    | some rest => some (storage_ctor E v :: rest)
    | none => none
  | _, _ => none

/-- The values that `main` of extent.cxx prints (lines 38-45): `m.extent(i)`
for `i` in 0..4 of `extents<3, 4, dynamic_extent, dynamic_extent, 7> m(3, 4, 5, 6, 7)`. -/
def main_output : Option (List Nat) :=
  match extents_ctor [3, 4, dynamic_extent, dynamic_extent, 7] [3, 4, 5, 6, 7] with
  | some m => some ((List.range 5).map fun i => (extents.mk m).extent i)
  | none => none

end extent_cxx

/-! ## required_span_size (mdspan.hpp:225-227, 334-336, 445-452) -/

namespace layout_right
namespace mapping

/-- Method `required_span_size()` (mdspan.hpp:225-227): the fold
`(1 * ... * _extents.get<I>())` over `I < rank`. -/
def required_span_size (self : mapping) : Nat :=
  (List.range self._extents.rank).foldl (fun acc I => (acc * self._extents.get I) % SIZE) 1

end mapping
end layout_right

namespace layout_left
namespace mapping

/-- Method `required_span_size()` (mdspan.hpp:334-336): the fold
`(1 * ... * _extents.get<I>())` over `I < rank`. -/
def required_span_size (self : mapping) : Nat :=
  (List.range self._extents.rank).foldl (fun acc I => (acc * self._extents.get I) % SIZE) 1

end mapping
end layout_left

/-- The function `std::max(std::initializer_list<size_t>)`: the greatest
element of a non-empty list. -/
def std_max : List Nat → Nat
  | [] => 0
  | x :: xs => xs.foldl max x

namespace layout_stride
namespace mapping

/-- Method `required_span_size()` (mdspan.hpp:445-452): 0 when the fold
`(... || !_extents.get<I>())` holds, otherwise
`std::max({ 1zu, _extents.get<I>() * _strides[I] ... })`. -/
def required_span_size (self : mapping) : Nat :=
  if (List.range self._extents.rank).any (fun I => decide (self._extents.get I = 0)) then 0
  else std_max (1 :: (List.range self._extents.rank).map
    fun I => (self._extents.get I * self._strides.getD I 0) % SIZE)

end mapping
end layout_stride

/-! ## mdspan::size (mdspan.hpp:595-597) -/

namespace mdspan

/-- The operand `extents().template get<I>` of the fold in `size()`
(mdspan.hpp:596). The member function `get<I>` is named and not called (there
is no `()` after it, unlike in `required_span_size` at mdspan.hpp:226 and 335),
so the operand is not a value: the expression is ill-formed. -/
def size_operand (_self : mdspan) (_I : Nat) : Option Nat := none

/-- Method `size()` (mdspan.hpp:595-597): the fold
`(1 * ... * extents().template get<I>)` over `I < rank`; `none` when the
expression is ill-formed. For rank 0 the pack is empty and the fold is its
initial operand 1. -/
def size (self : mdspan) : Option Nat :=
  (List.range self.rank).foldl
    (fun acc I =>
      match acc, self.size_operand I with
      | some a, some v => some ((a * v) % SIZE)
      | _, _ => none)
    (some 1)

end mdspan

/-! ## Default construction of extents (mdspan.hpp:36-48, 62-63) -/

namespace _storage_t

/-- The default constructor of `_storage_t<Index, Extent>`: the default
argument is `value = Extent` in the primary template and `value = 0` in the
specialization for `dynamic_extent` (mdspan.hpp:38, 46). -/
def default_ctor (Extent : Nat) : Option _storage_t :=
  if Extent = dynamic_extent then _storage_t.ctor Extent 0 else _storage_t.ctor Extent Extent

end _storage_t

namespace extents

/-- The defaulted constructor `constexpr extents() = default;` (mdspan.hpp:63)
for the type `extents<Exts...>`: every member of the pack `m` is
default-constructed. -/
def default_ctor : List Nat → Option (List _storage_t)
  | [] => some []
  | E :: Exts =>
    match _storage_t.default_ctor E, default_ctor Exts with
    | some s, some rest => some (s :: rest)
    | _, _ => none

end extents

/-! ## Flags, equality and conversion of the mappings -/

namespace layout_right
namespace mapping

/-- Method `is_unique()` (mdspan.hpp:232). -/
def is_unique (_self : mapping) : Bool := true

/-- Method `is_contiguous()` (mdspan.hpp:233). -/
def is_contiguous (_self : mapping) : Bool := true

/-- Method `is_strided()` (mdspan.hpp:234). -/
def is_strided (_self : mapping) : Bool := true

/-- The friend `operator==(lhs, rhs)`: `lhs.extents() == rhs.extents()`
(mdspan.hpp:236-240). -/
def eq (lhs rhs : mapping) : Bool := extents.eq lhs._extents rhs._extents

end mapping
end layout_right

namespace layout_left
namespace mapping

/-- Method `is_unique()` (mdspan.hpp:342). -/
def is_unique (_self : mapping) : Bool := true

/-- Method `is_contiguous()` (mdspan.hpp:343). -/
def is_contiguous (_self : mapping) : Bool := true

/-- Method `is_strided()` (mdspan.hpp:344). -/
def is_strided (_self : mapping) : Bool := true

/-- The friend `operator==(lhs, rhs)`: `lhs.extents() == rhs.extents()`
(mdspan.hpp:346-350). -/
def eq (lhs rhs : mapping) : Bool := extents.eq lhs._extents rhs._extents

end mapping
end layout_left

namespace layout_stride
namespace mapping

/-- Method `is_unique()` (mdspan.hpp:418). -/
def is_unique (_self : mapping) : Bool := true

/-- Method `is_contiguous()` (mdspan.hpp:419-422). -/
def is_contiguous (_self : mapping) : Bool := false

/-- Method `is_strided()` (mdspan.hpp:423). -/
def is_strided (_self : mapping) : Bool := true

/-- Static method `is_always_unique()` (mdspan.hpp:425). -/
def is_always_unique : Bool := true

/-- The friend `operator==(lhs, rhs)` (mdspan.hpp:454-459): the fold
`(... && (lhs.stride(I) == rhs.stride(I)))` over `I < Extents::rank()`; its
`requires` clause is `OtherExtents::rank() == Extents::rank()`. -/
def eq (lhs rhs : mapping) : Bool :=
  (List.range lhs._extents.rank).all fun I => decide (lhs.stride I = rhs.stride I)

/-- The function `fill_storage(other)` (mdspan.hpp:379-383):
`{ other.stride(I)... }` for `I < Extents::rank()`. -/
def fill_storage (rank : Nat) (other : mapping_type) : List Nat :=
  (List.range rank).map other.stride

/-- The converting constructor `mapping(const OtherMapping& other)`
(mdspan.hpp:403-412): `_extents(other.extents())`,
`_strides(fill_storage(other))`. -/
def from_mapping (other : mapping_type) : mapping :=
  ⟨other.extents, fill_storage other.extents.rank other⟩

end mapping
end layout_stride

/-! ## Reference formulas the code is compared with -/

/-- Horner evaluation, left to right, in unbounded arithmetic: `x = i[0]`, then
`x = x * e[d] + i[d]` for `d = 1, 2, ...`; `0` for the empty index tuple. -/
def horner_left_to_right : List Nat → List Nat → Nat
  | _, [] => 0
  | es, i0 :: is => (List.zip es.tail is).foldl (fun x p => x * p.1 + p.2) i0

/-- The weighted sum `i[0] * w[0] + i[1] * w[1] + ...` in unbounded arithmetic. -/
def dot : List Nat → List Nat → Nat
  | i :: is, w :: ws => i * w + dot is ws
  | _, _ => 0

/-- Row-major weights: position `r` has the product of `e[r+1], ..., e[n-1]`. -/
def row_major_weights (es : List Nat) : List Nat :=
  (List.range es.length).map fun r => (es.drop (r + 1)).prod

/-- Column-major weights: position `r` has the product of `e[0], ..., e[r-1]`. -/
def column_major_weights (es : List Nat) : List Nat :=
  (List.range es.length).map fun r => (es.take r).prod

/-! ## Reference notions for submdspan -/

/-- The number of kept dimensions: the slices that are not single indices. -/
def kept_count (slices : List SliceSpec) : Nat :=
  slices.countP fun s => !s.is_index

/-- The positions of the kept dimensions in source order; `i` is the position
of the first slice of the list. -/
def kept_positions : Nat → List SliceSpec → List Nat
  | _, [] => []
  | i, .index _ :: slices => kept_positions (i + 1) slices
  | i, .range _ _ :: slices => i :: kept_positions (i + 1) slices
  | i, .full :: slices => i :: kept_positions (i + 1) slices

/-- The entries of `xs` at the kept dimensions, in source order. -/
def keep {α : Type} : List SliceSpec → List α → List α
  | .index _ :: slices, _ :: xs => keep slices xs
  | .range _ _ :: slices, x :: xs => x :: keep slices xs
  | .full :: slices, x :: xs => x :: keep slices xs
  | _, _ => []

/-- The source index tuple that the result index tuple `j` refers to: `k` at a
single-index dimension, `lo + j_m` at a range dimension and `j_m` at a
full-extent dimension, `j_m` being the result index of that kept dimension. -/
def source_index : List SliceSpec → List Nat → List Nat
  | [], _ => []
  | .index k :: slices, j => k :: source_index slices j
  | .range lo _ :: slices, jm :: j => (lo + jm) :: source_index slices j
  | .full :: slices, jm :: j => jm :: source_index slices j
  | _ :: _, [] => []

/-- The position of the first kept dimension, if there is one. -/
def first_kept : List SliceSpec → Option Nat
  | [] => none
  | s :: slices =>
    if s.is_index then (first_kept slices).map (fun p => p + 1) else some 0

/-- The position of the last kept dimension, if there is one. -/
def last_kept : List SliceSpec → Option Nat
  | [] => none
  | s :: slices =>
    match last_kept slices with
    | some p => some (p + 1)
    | none => if s.is_index then none else some 0

/-- The spec's condition for keeping row-major: there is a kept dimension and
every slice spec after the first kept dimension is full-extent. -/
def after_first_kept_all_full (slices : List SliceSpec) : Bool :=
  match first_kept slices with
  | some p => (slices.drop (p + 1)).all SliceSpec.is_full
  | none => false

/-- The spec's condition for keeping column-major: there is a kept dimension
and every slice spec before the last kept dimension is full-extent. -/
def before_last_kept_all_full (slices : List SliceSpec) : Bool :=
  match last_kept slices with
  | some p => (slices.take p).all SliceSpec.is_full
  | none => false

/-- The spec's extents of the result, as pairs of the slot's template argument
and its run-time extent, over the kept dimensions in source order: a dynamic
slot of length `hi - lo` for a range slice, the source's slot for a
full-extent slice. -/
def expected_sub_extents : List SliceSpec → List _storage_t → List (Nat × Nat)
  | .index _ :: slices, _ :: ms => expected_sub_extents slices ms
  | .range lo hi :: slices, _ :: ms =>
    (dynamic_extent, size_sub hi lo) :: expected_sub_extents slices ms
  | .full :: slices, m :: ms => (m.Extent, m.extent) :: expected_sub_extents slices ms
  | _, _ => []

/-- The slots that the constructor of `sub_extents` builds (closed form of
`extents.ctor_all` on the arguments `submdspan` passes). -/
def sub_slots : List SliceSpec → List _storage_t → List _storage_t
  | .index _ :: slices, _ :: ms => sub_slots slices ms
  | .range lo hi :: slices, _ :: ms => ⟨dynamic_extent, size_sub hi lo⟩ :: sub_slots slices ms
  | .full :: slices, m :: ms =>
    (if m.Extent = dynamic_extent then ⟨m.Extent, m.value⟩ else ⟨m.Extent, 0⟩) ::
      sub_slots slices ms
  | _, _ => []

/-- The unbounded weights of a mapping: its offset is the weighted sum of the
indices with these weights, reduced to `size_t`. -/
def weights : mapping_type → List Nat
  | .layout_left m => column_major_weights m._extents.values
  | .layout_right m => row_major_weights m._extents.values
  | .layout_stride m => m._strides

/-! ## Basic facts -/

theorem extent_eq_getD (e : extents) (n : Nat) : e.extent n = e.values.getD n 0 := by
  unfold extents.extent extents.values
  simp only [List.get?_eq_getElem?, List.getD_eq_getElem?_getD, List.getElem?_map]
  cases e.m[n]? <;> rfl

theorem values_length (e : extents) : e.values.length = e.rank := by
  simp [extents.values, extents.rank]

theorem drop_eq_getD_cons (es : List Nat) (i : Nat) (h : i < es.length) :
    es.drop i = es.getD i 0 :: es.drop (i + 1) := by
  rw [List.drop_eq_getElem_cons h, List.getD_eq_getElem es 0 h]

theorem foldl_horner_modEq (l : List (Nat × Nat)) (x y : Nat) (h : x ≡ y [MOD SIZE]) :
    l.foldl (fun x p => x * p.1 + p.2) x ≡ l.foldl (fun x p => x * p.1 + p.2) y [MOD SIZE] := by
  induction l generalizing x y with
  | nil => simpa using h
  | cons p l ih =>
    simp only [List.foldl_cons]
    exact ih _ _ ((h.mul_right _).add_right _)

/-! ## layout_right: offsets -/

theorem right_loop_lt (e : extents) (rest : List Nat) (i x : Nat) (hx : x < SIZE) :
    layout_right.mapping.compute_offset_loop e i x rest < SIZE := by
  induction rest generalizing i x with
  | nil => simpa [layout_right.mapping.compute_offset_loop] using hx
  | cons a rest ih =>
    simp only [layout_right.mapping.compute_offset_loop]
    exact ih _ _ (Nat.mod_lt _ (by decide))

theorem right_loop_horner (e : extents) (rest : List Nat) (i x : Nat) (hi : 1 ≤ i)
    (hlen : i + rest.length ≤ e.rank) :
    layout_right.mapping.compute_offset_loop e i x rest ≡
      (List.zip (e.values.drop i) rest).foldl (fun x p => x * p.1 + p.2) x [MOD SIZE] := by
  induction rest generalizing i x with
  | nil => simp [layout_right.mapping.compute_offset_loop, Nat.ModEq]
  | cons a rest ih =>
    have hlt : i < e.values.length := by
      rw [values_length]; simp only [List.length_cons] at hlen; omega
    have hi0 : i ≠ 0 := by omega
    simp only [layout_right.mapping.compute_offset_loop, hi0, ne_eq, not_false_eq_true,
      if_true, extents.get, extent_eq_getD]
    rw [drop_eq_getD_cons _ _ hlt]
    simp only [List.zip_cons_cons, List.foldl_cons]
    refine (ih (i + 1) _ (by omega) (by simp only [List.length_cons] at hlen; omega)).trans ?_
    apply foldl_horner_modEq
    exact (Nat.mod_modEq _ _).trans ((Nat.mod_modEq _ _).add_right _)

theorem right_call_modEq_horner (m : layout_right.mapping) (idx : List Nat)
    (h : idx.length = m._extents.rank) :
    m.call idx ≡ horner_left_to_right m._extents.values idx [MOD SIZE] := by
  cases idx with
  | nil => rfl
  | cons i0 is =>
    simp only [layout_right.mapping.call, layout_right.mapping.compute_offset,
      layout_right.mapping.compute_offset_loop, horner_left_to_right]
    simp only [ne_eq, not_true_eq_false, if_false, Nat.zero_add]
    refine (right_loop_horner _ is 1 _ (le_refl _) ?_).trans ?_
    · simp only [List.length_cons] at h; omega
    · rw [← List.drop_one]
      exact foldl_horner_modEq _ _ _ (Nat.mod_modEq _ _)

theorem right_call_lt (m : layout_right.mapping) (idx : List Nat) : m.call idx < SIZE :=
  right_loop_lt _ _ _ _ (by decide)

/-- C1: for every row-major mapping and every index tuple with one index per
dimension, `operator()` returns the left-to-right Horner value (`x = i[0]`,
then `x = x * e[d] + i[d]`; `0` for rank 0) reduced to `size_t`. -/
theorem layout_right_call_eq_horner (m : layout_right.mapping) (idx : List Nat)
    (h : idx.length = m._extents.rank) :
    m.call idx = horner_left_to_right m._extents.values idx % SIZE := by
  have h1 := right_call_modEq_horner m idx h
  unfold Nat.ModEq at h1
  rw [← h1, Nat.mod_eq_of_lt (right_call_lt m idx)]

/-- C1 at extents (2,3,4) and index (1,2,3): the offset is 23. -/
theorem layout_right_call_eq_horner_witness :
    [1, 2, 3].length = (layout_right.mapping.mk ⟨[⟨2, 0⟩, ⟨3, 0⟩, ⟨4, 0⟩]⟩)._extents.rank ∧
    (layout_right.mapping.mk ⟨[⟨2, 0⟩, ⟨3, 0⟩, ⟨4, 0⟩]⟩).call [1, 2, 3] =
      horner_left_to_right [2, 3, 4] [1, 2, 3] % SIZE ∧
    horner_left_to_right [2, 3, 4] [1, 2, 3] % SIZE = 23 :=
  ⟨by decide, layout_right_call_eq_horner _ _ (by decide), by decide⟩

/-! ## Weights -/

theorem row_major_weights_cons (e : Nat) (es : List Nat) :
    row_major_weights (e :: es) = es.prod :: row_major_weights es := by
  simp only [row_major_weights, List.length_cons, List.range_succ_eq_map, List.map_cons,
    List.map_map, List.drop_succ_cons, List.drop_zero]
  rfl

theorem column_major_weights_cons (e : Nat) (es : List Nat) :
    column_major_weights (e :: es) = 1 :: (column_major_weights es).map (fun w => e * w) := by
  simp only [column_major_weights, List.length_cons, List.range_succ_eq_map, List.map_cons,
    List.map_map, List.take_zero, List.prod_nil]
  congr 1

theorem row_major_weights_length (es : List Nat) : (row_major_weights es).length = es.length := by
  simp [row_major_weights]

theorem column_major_weights_length (es : List Nat) :
    (column_major_weights es).length = es.length := by
  simp [column_major_weights]

theorem dot_nil_left (ws : List Nat) : dot [] ws = 0 := by
  cases ws <;> rfl

theorem dot_nil_right (idx : List Nat) : dot idx [] = 0 := by
  cases idx <;> rfl

theorem dot_map_mul (e : Nat) (idx ws : List Nat) :
    dot idx (ws.map (fun w => e * w)) = e * dot idx ws := by
  induction idx generalizing ws with
  | nil => simp [dot_nil_left]
  | cons i is ih =>
    cases ws with
    | nil => simp [dot]
    | cons w ws =>
      simp only [List.map_cons, dot, ih]
      ring

theorem foldl_horner_eq_dot (E rest : List Nat) (x : Nat) (h : E.length = rest.length) :
    (List.zip E rest).foldl (fun x p => x * p.1 + p.2) x =
      x * E.prod + dot rest (row_major_weights E) := by
  induction E generalizing rest x with
  | nil =>
    cases rest with
    | nil => simp [dot]
    | cons a rest => simp at h
  | cons e E ih =>
    cases rest with
    | nil => simp at h
    | cons a rest =>
      simp only [List.zip_cons_cons, List.foldl_cons, row_major_weights_cons, dot,
        List.prod_cons]
      rw [ih rest _ (by simpa using h)]
      ring

theorem horner_eq_dot (es idx : List Nat) (h : idx.length = es.length) :
    horner_left_to_right es idx = dot idx (row_major_weights es) := by
  cases idx with
  | nil => simp [horner_left_to_right, dot_nil_left]
  | cons i0 is =>
    cases es with
    | nil => simp at h
    | cons e es =>
      simp only [horner_left_to_right, List.tail_cons, row_major_weights_cons, dot]
      rw [foldl_horner_eq_dot es is i0 (by simpa using h.symm)]

theorem right_call_modEq_dot (m : layout_right.mapping) (idx : List Nat)
    (h : idx.length = m._extents.rank) :
    m.call idx ≡ dot idx (row_major_weights m._extents.values) [MOD SIZE] := by
  have h1 := right_call_modEq_horner m idx h
  rwa [horner_eq_dot _ _ (by rw [values_length]; exact h)] at h1

/-! ## layout_left: offsets -/

theorem left_loop_lt (e : extents) (idx : List Nat) (n k x : Nat) (hx : x < SIZE) :
    layout_left.mapping.compute_offset_loop e idx n k x < SIZE := by
  induction k generalizing x with
  | zero => simpa [layout_left.mapping.compute_offset_loop] using hx
  | succ k ih =>
    simp only [layout_left.mapping.compute_offset_loop]
    exact ih _ (Nat.mod_lt _ (by decide))

theorem left_loop_modEq (e : extents) (idx : List Nat) (hlen : idx.length = e.rank)
    (k x : Nat) (hk : k ≤ idx.length) (hx0 : k = idx.length → x = 0)
    (hx : x ≡ dot (idx.drop k) (column_major_weights (e.values.drop k)) [MOD SIZE]) :
    layout_left.mapping.compute_offset_loop e idx idx.length k x ≡
      dot idx (column_major_weights e.values) [MOD SIZE] := by
  induction k generalizing x with
  | zero => simpa [layout_left.mapping.compute_offset_loop] using hx
  | succ k ih =>
    simp only [layout_left.mapping.compute_offset_loop]
    have hk1 : k < idx.length := hk
    have hk2 : k < e.values.length := by rw [values_length, ← hlen]; exact hk1
    apply ih _ (by omega) (by omega)
    rw [drop_eq_getD_cons idx k hk1, drop_eq_getD_cons e.values k hk2,
      column_major_weights_cons, dot, dot_map_mul]
    refine (Nat.mod_modEq _ _).trans ?_
    rw [Nat.mul_one, Nat.add_comm]
    apply Nat.ModEq.add_left
    by_cases hlast : k = idx.length - 1
    · have hx00 : x = 0 := hx0 (by omega)
      have hd : List.drop (k + 1) idx = [] := List.drop_eq_nil_of_le (by omega)
      rw [hd, dot_nil_left, Nat.mul_zero, hx00]
      split <;> simp [Nat.ModEq]
    · simp only [hlast, ne_eq, not_false_eq_true, if_true, extents.get, extent_eq_getD]
      refine (Nat.mod_modEq _ _).trans ?_
      rw [Nat.mul_comm]
      exact hx.mul_left _

theorem left_call_modEq_dot (m : layout_left.mapping) (idx : List Nat)
    (h : idx.length = m._extents.rank) :
    m.call idx ≡ dot idx (column_major_weights m._extents.values) [MOD SIZE] := by
  apply left_loop_modEq _ _ h _ _ (le_refl _) (fun _ => rfl)
  simp [dot_nil_left, Nat.ModEq]

theorem left_call_lt (m : layout_left.mapping) (idx : List Nat) : m.call idx < SIZE :=
  left_loop_lt _ _ _ _ _ (by decide)

/-- C2: for every column-major mapping and every index tuple with one index per
dimension, `operator()` returns `i[0] + e[0]*i[1] + e[0]*e[1]*i[2] + ...`
(index `r` weighted by the product of the extents `0..r-1`) reduced to
`size_t`. -/
theorem layout_left_call_eq_weighted_sum (m : layout_left.mapping) (idx : List Nat)
    (h : idx.length = m._extents.rank) :
    m.call idx = dot idx (column_major_weights m._extents.values) % SIZE := by
  have h1 := left_call_modEq_dot m idx h
  unfold Nat.ModEq at h1
  rw [← h1, Nat.mod_eq_of_lt (left_call_lt m idx)]

/-- C2 at extents (2,3,4) and index (1,2,3): the offset is `1 + 2*2 + 2*3*3 = 23`. -/
theorem layout_left_call_eq_weighted_sum_witness :
    [1, 2, 3].length = (layout_left.mapping.mk ⟨[⟨2, 0⟩, ⟨3, 0⟩, ⟨4, 0⟩]⟩)._extents.rank ∧
    (layout_left.mapping.mk ⟨[⟨2, 0⟩, ⟨3, 0⟩, ⟨4, 0⟩]⟩).call [1, 2, 3] =
      dot [1, 2, 3] (column_major_weights [2, 3, 4]) % SIZE ∧
    dot [1, 2, 3] (column_major_weights [2, 3, 4]) % SIZE = 1 + 2 * 2 + 2 * 3 * 3 ∧
    1 + 2 * 2 + 2 * 3 * 3 = 23 :=
  ⟨by decide, layout_left_call_eq_weighted_sum _ _ (by decide), by decide, by decide⟩

/-! ## Strides of layout_right and layout_left -/

theorem getElem?_eq_some_getD (es : List Nat) (i : Nat) (h : i < es.length) :
    es[i]? = some (es.getD i 0) := by
  rw [List.getElem?_eq_getElem h, List.getD_eq_getElem es 0 h]

theorem right_stride_loop_lt (e : extents) (i r value : Nat) (hv : value < SIZE) :
    layout_right.mapping.stride_loop e i r value < SIZE := by
  induction r generalizing value with
  | zero => simpa [layout_right.mapping.stride_loop] using hv
  | succ r ih =>
    simp only [layout_right.mapping.stride_loop]
    split
    · exact ih _ (Nat.mod_lt _ (by decide))
    · exact hv

theorem right_stride_loop_modEq (e : extents) (i r value : Nat) (hir : i ≤ r)
    (hr : r < e.rank) :
    layout_right.mapping.stride_loop e i r value ≡
      value * ((e.values.drop (i + 1)).take (r - i)).prod [MOD SIZE] := by
  induction r generalizing value with
  | zero =>
    have hi0 : i = 0 := by omega
    simp [layout_right.mapping.stride_loop, hi0, Nat.ModEq]
  | succ r ih =>
    simp only [layout_right.mapping.stride_loop]
    by_cases hgt : r + 1 > i
    · simp only [hgt, if_true]
      refine (ih _ (by omega) (by omega)).trans ?_
      have hsub : r + 1 - i = (r - i) + 1 := by omega
      have hget : (e.values.drop (i + 1))[r - i]? = some (e.values.getD (r + 1) 0) := by
        rw [List.getElem?_drop]
        have hidx : i + 1 + (r - i) = r + 1 := by omega
        rw [hidx]
        exact getElem?_eq_some_getD _ _ (by rw [values_length]; exact hr)
      rw [hsub, List.take_succ, hget, List.prod_append, extent_eq_getD]
      simp only [Option.toList, List.prod_cons, List.prod_nil, Nat.mul_one]
      have h1 : (value * e.values.getD (r + 1) 0) % SIZE ≡
          value * e.values.getD (r + 1) 0 [MOD SIZE] := Nat.mod_modEq _ _
      refine (h1.mul_right _).trans ?_
      have h2 : value * e.values.getD (r + 1) 0 *
            (List.take (r - i) (List.drop (i + 1) e.values)).prod =
          value * ((List.take (r - i) (List.drop (i + 1) e.values)).prod *
            e.values.getD (r + 1) 0) := by ring
      rw [h2]
    · have hi : i = r + 1 := by omega
      simp [hgt, hi, Nat.ModEq]

theorem right_stride_eq (m : layout_right.mapping) (i : Nat) (hrank : m._extents.rank < SIZE)
    (hi : i < m._extents.rank) :
    m.stride i = (m._extents.values.drop (i + 1)).prod % SIZE := by
  have hstart : (m._extents.rank + (SIZE - 1)) % SIZE = m._extents.rank - 1 := by
    have h1 : m._extents.rank + (SIZE - 1) = (m._extents.rank - 1) + SIZE := by omega
    rw [h1, Nat.add_mod_right, Nat.mod_eq_of_lt (by omega)]
  have h := right_stride_loop_modEq m._extents i (m._extents.rank - 1) 1 (by omega) (by omega)
  have htake : (m._extents.values.drop (i + 1)).take (m._extents.rank - 1 - i) =
      m._extents.values.drop (i + 1) := by
    apply List.take_of_length_le
    rw [List.length_drop, values_length]
    omega
  rw [htake, Nat.one_mul] at h
  unfold Nat.ModEq at h
  unfold layout_right.mapping.stride
  rw [hstart, ← h, Nat.mod_eq_of_lt (right_stride_loop_lt _ _ _ _ (by decide))]

theorem left_stride_loop_lt (e : extents) (k r value : Nat) (hv : value < SIZE) :
    layout_left.mapping.stride_loop e k r value < SIZE := by
  induction k generalizing r value with
  | zero => simpa [layout_left.mapping.stride_loop] using hv
  | succ k ih =>
    simp only [layout_left.mapping.stride_loop]
    exact ih _ _ (Nat.mod_lt _ (by decide))

theorem left_stride_loop_modEq (e : extents) (k r value : Nat) (h : r + k ≤ e.rank) :
    layout_left.mapping.stride_loop e k r value ≡
      value * ((e.values.drop r).take k).prod [MOD SIZE] := by
  induction k generalizing r value with
  | zero => simp [layout_left.mapping.stride_loop, Nat.ModEq]
  | succ k ih =>
    simp only [layout_left.mapping.stride_loop]
    refine (ih (r + 1) _ (by omega)).trans ?_
    have hr : r < e.values.length := by rw [values_length]; omega
    rw [drop_eq_getD_cons e.values r hr, List.take_succ_cons, List.prod_cons, extent_eq_getD]
    have h1 : (value * e.values.getD r 0) % SIZE ≡ value * e.values.getD r 0 [MOD SIZE] :=
      Nat.mod_modEq _ _
    refine (h1.mul_right _).trans ?_
    rw [Nat.mul_assoc]

theorem left_stride_eq (m : layout_left.mapping) (i : Nat) (hi : i ≤ m._extents.rank) :
    m.stride i = (m._extents.values.take i).prod % SIZE := by
  have h := left_stride_loop_modEq m._extents i 0 1 (by omega)
  rw [List.drop_zero, Nat.one_mul] at h
  unfold Nat.ModEq at h
  unfold layout_left.mapping.stride
  rw [← h, Nat.mod_eq_of_lt (left_stride_loop_lt _ _ _ _ (by decide))]

theorem row_major_weights_getD (es : List Nat) (r : Nat) (hr : r < es.length) :
    (row_major_weights es).getD r 0 = (es.drop (r + 1)).prod := by
  have hl : r < (row_major_weights es).length := by rw [row_major_weights_length]; exact hr
  rw [List.getD_eq_getElem _ 0 hl]
  simp [row_major_weights]

theorem column_major_weights_getD (es : List Nat) (r : Nat) (hr : r < es.length) :
    (column_major_weights es).getD r 0 = (es.take r).prod := by
  have hl : r < (column_major_weights es).length := by
    rw [column_major_weights_length]; exact hr
  rw [List.getD_eq_getElem _ 0 hl]
  simp [column_major_weights]

/-! ## layout_stride: offsets -/

theorem dot_cons_drop (a : Nat) (rest ws : List Nat) (i : Nat) :
    dot (a :: rest) (ws.drop i) = a * ws.getD i 0 + dot rest (ws.drop (i + 1)) := by
  by_cases h : i < ws.length
  · rw [drop_eq_getD_cons ws i h, dot]
  · have h1 : ws.drop i = [] := List.drop_eq_nil_of_le (by omega)
    have h2 : ws.drop (i + 1) = [] := List.drop_eq_nil_of_le (by omega)
    rw [h1, h2, List.getD_eq_default _ _ (by omega), dot_nil_right, dot_nil_right]
    simp

theorem stride_fold_lt (s : layout_stride.mapping) (rest : List Nat) (i acc : Nat)
    (h : acc < SIZE) : s.compute_index_fold i acc rest < SIZE := by
  induction rest generalizing i acc with
  | nil => simpa [layout_stride.mapping.compute_index_fold] using h
  | cons a rest ih =>
    simp only [layout_stride.mapping.compute_index_fold]
    exact ih _ _ (Nat.mod_lt _ (by decide))

theorem stride_fold_modEq (s : layout_stride.mapping) (rest : List Nat) (i acc : Nat) :
    s.compute_index_fold i acc rest ≡ acc + dot rest (s._strides.drop i) [MOD SIZE] := by
  induction rest generalizing i acc with
  | nil => simp [layout_stride.mapping.compute_index_fold, dot_nil_left, Nat.ModEq]
  | cons a rest ih =>
    simp only [layout_stride.mapping.compute_index_fold]
    refine (ih _ _).trans ?_
    rw [dot_cons_drop, ← Nat.add_assoc]
    apply Nat.ModEq.add_right
    refine (Nat.mod_modEq _ _).trans ?_
    apply Nat.ModEq.add_left
    exact Nat.mod_modEq _ _

theorem stride_call_modEq_dot (s : layout_stride.mapping) (idx : List Nat) :
    s.call idx ≡ dot idx s._strides [MOD SIZE] := by
  have h := stride_fold_modEq s idx 0 0
  simpa [layout_stride.mapping.call, layout_stride.mapping.compute_index] using h

theorem stride_call_lt (s : layout_stride.mapping) (idx : List Nat) : s.call idx < SIZE :=
  stride_fold_lt _ _ _ _ (by decide)

theorem dot_congr (idx ws ws' : List Nat)
    (h : ∀ t, t < idx.length → ws.getD t 0 ≡ ws'.getD t 0 [MOD SIZE]) :
    dot idx ws ≡ dot idx ws' [MOD SIZE] := by
  induction idx generalizing ws ws' with
  | nil => simp [dot_nil_left, Nat.ModEq]
  | cons a rest ih =>
    have h0 := h 0 (by simp)
    have ht : ∀ t, t < rest.length →
        (ws.drop 1).getD t 0 ≡ (ws'.drop 1).getD t 0 [MOD SIZE] := by
      intro t htl
      have := h (t + 1) (by simpa using htl)
      cases ws <;> cases ws' <;> simpa using this
    have e1 := dot_cons_drop a rest ws 0
    have e2 := dot_cons_drop a rest ws' 0
    simp only [List.drop_zero, Nat.zero_add] at e1 e2
    rw [e1, e2]
    exact (h0.mul_left _).add (ih _ _ ht)

/-! ## Conversions from layout_stride -/

theorem right_from_stride_loop_cases (e : extents) (other : layout_stride.mapping)
    (r stride : Nat) :
    layout_right.mapping.from_stride_loop e other r stride = Except.ok () ∨
    layout_right.mapping.from_stride_loop e other r stride =
      Except.error "Assigning layout_stride to layout_right with invalid strides." := by
  induction r generalizing stride with
  | zero => left; rfl
  | succ r ih =>
    simp only [layout_right.mapping.from_stride_loop]
    split
    · right; rfl
    · exact ih _

theorem right_from_stride_loop_iff (e : extents) (other : layout_stride.mapping) (r : Nat)
    (hr : r ≤ e.rank) :
    layout_right.mapping.from_stride_loop e other r ((e.values.drop r).prod % SIZE) =
        Except.ok () ↔
      ∀ t, t < r → other.stride t = (e.values.drop (t + 1)).prod % SIZE := by
  induction r with
  | zero => simp [layout_right.mapping.from_stride_loop]
  | succ r ih =>
    have hlt : r < e.values.length := by rw [values_length]; omega
    have hstep : ((e.values.drop (r + 1)).prod % SIZE * e.extent r) % SIZE =
        (e.values.drop r).prod % SIZE := by
      rw [drop_eq_getD_cons e.values r hlt, List.prod_cons, Nat.mod_mul_mod, extent_eq_getD,
        Nat.mul_comm]
    simp only [layout_right.mapping.from_stride_loop]
    by_cases hs : (e.values.drop (r + 1)).prod % SIZE = other.stride r
    · rw [if_neg (not_not.mpr hs), hstep, ih (by omega)]
      constructor
      · intro h t ht
        rcases Nat.lt_succ_iff_lt_or_eq.mp ht with h1 | h1
        · exact h t h1
        · rw [h1]; exact hs.symm
      · intro h t ht
        exact h t (by omega)
    · rw [if_pos hs]
      constructor
      · intro h; cases h
      · intro h; exact absurd (h r (by omega)).symm hs

theorem right_from_stride_body_ok_iff (s : layout_stride.mapping) (m : layout_right.mapping) :
    layout_right.mapping.from_stride_body s = Except.ok m ↔
      m = ⟨s._extents⟩ ∧
        ∀ t, t < s._extents.rank → s.stride t = (s._extents.values.drop (t + 1)).prod % SIZE := by
  have hstart : (s._extents.values.drop s._extents.rank).prod % SIZE = 1 := by
    rw [List.drop_eq_nil_of_le (by rw [values_length])]; rfl
  have hiff := right_from_stride_loop_iff s._extents s s._extents.rank (le_refl _)
  rw [hstart] at hiff
  unfold layout_right.mapping.from_stride_body
  rcases right_from_stride_loop_cases s._extents s s._extents.rank 1 with h | h
  · simp only [h]
    constructor
    · intro hm
      exact ⟨(Except.ok.inj hm).symm, hiff.mp h⟩
    · intro hm; rw [hm.1]
  · simp only [h]
    constructor
    · intro hm; cases hm
    · intro hm
      rw [hiff.mpr hm.2] at h
      cases h

theorem left_from_stride_loop_cases (e : extents) (other : layout_stride.mapping)
    (k r stride : Nat) :
    layout_left.mapping.from_stride_loop e other k r stride = Except.ok () ∨
    layout_left.mapping.from_stride_loop e other k r stride =
      Except.error "Assigning layout_stride to layout_left with invalid strides." := by
  induction k generalizing r stride with
  | zero => left; rfl
  | succ k ih =>
    simp only [layout_left.mapping.from_stride_loop]
    split
    · right; rfl
    · exact ih _ _

theorem left_from_stride_loop_iff (e : extents) (other : layout_stride.mapping) (k r : Nat)
    (hr : r + k ≤ e.rank) :
    layout_left.mapping.from_stride_loop e other k r ((e.values.take r).prod % SIZE) =
        Except.ok () ↔
      ∀ t, r ≤ t → t < r + k → other.stride t = (e.values.take t).prod % SIZE := by
  induction k generalizing r with
  | zero =>
    simp only [layout_left.mapping.from_stride_loop, true_iff]
    intro t h1 h2
    omega
  | succ k ih =>
    have hlt : r < e.values.length := by rw [values_length]; omega
    have hstep : ((e.values.take r).prod % SIZE * e.extent r) % SIZE =
        (e.values.take (r + 1)).prod % SIZE := by
      rw [List.take_succ, getElem?_eq_some_getD _ _ hlt, List.prod_append, Nat.mod_mul_mod,
        extent_eq_getD]
      simp [Option.toList]
    simp only [layout_left.mapping.from_stride_loop]
    by_cases hs : (e.values.take r).prod % SIZE = other.stride r
    · rw [if_neg (not_not.mpr hs), hstep, ih (r + 1) (by omega)]
      constructor
      · intro h t ht1 ht2
        rcases Nat.eq_or_lt_of_le ht1 with h1 | h1
        · rw [← h1]; exact hs.symm
        · exact h t h1 (by omega)
      · intro h t ht1 ht2
        exact h t (by omega) (by omega)
    · rw [if_pos hs]
      constructor
      · intro h; cases h
      · intro h; exact absurd (h r (le_refl _) (by omega)).symm hs

theorem left_from_stride_body_ok_iff (s : layout_stride.mapping) (m : layout_left.mapping) :
    layout_left.mapping.from_stride_body s = Except.ok m ↔
      m = ⟨s._extents⟩ ∧
        ∀ t, t < s._extents.rank → s.stride t = (s._extents.values.take t).prod % SIZE := by
  have hiff := left_from_stride_loop_iff s._extents s s._extents.rank 0 (by omega)
  have hstart : (s._extents.values.take 0).prod % SIZE = 1 := rfl
  rw [hstart] at hiff
  have hall : (∀ t, 0 ≤ t → t < 0 + s._extents.rank →
        s.stride t = (s._extents.values.take t).prod % SIZE) ↔
      ∀ t, t < s._extents.rank → s.stride t = (s._extents.values.take t).prod % SIZE := by
    constructor
    · intro h t ht; exact h t (Nat.zero_le _) (by omega)
    · intro h t _ ht; exact h t (by omega)
  rw [hall] at hiff
  unfold layout_left.mapping.from_stride_body
  rcases left_from_stride_loop_cases s._extents s s._extents.rank 0 1 with h | h
  · simp only [h]
    constructor
    · intro hm
      exact ⟨(Except.ok.inj hm).symm, hiff.mp h⟩
    · intro hm; rw [hm.1]
  · simp only [h]
    constructor
    · intro hm; cases hm
    · intro hm
      rw [hiff.mpr hm.2] at h
      cases h

theorem right_from_stride_body_cases (s : layout_stride.mapping) :
    layout_right.mapping.from_stride_body s = Except.ok ⟨s._extents⟩ ∨
    layout_right.mapping.from_stride_body s =
      Except.error "Assigning layout_stride to layout_right with invalid strides." := by
  unfold layout_right.mapping.from_stride_body
  rcases right_from_stride_loop_cases s._extents s s._extents.rank 1 with h | h
  · left; simp only [h]
  · right; simp only [h]

theorem left_from_stride_body_cases (s : layout_stride.mapping) :
    layout_left.mapping.from_stride_body s = Except.ok ⟨s._extents⟩ ∨
    layout_left.mapping.from_stride_body s =
      Except.error "Assigning layout_stride to layout_left with invalid strides." := by
  unfold layout_left.mapping.from_stride_body
  rcases left_from_stride_loop_cases s._extents s s._extents.rank 0 1 with h | h
  · left; simp only [h]
  · right; simp only [h]

theorem noexcept_call_returned_iff {α : Type} (body : Except String α) (a : α) :
    noexcept_call body = Outcome.returned a ↔ body = Except.ok a := by
  cases body with
  | ok b =>
    simp only [noexcept_call]
    constructor
    · intro h; rw [Outcome.returned.inj h]
    · intro h; rw [Except.ok.inj h]
  | error w =>
    simp only [noexcept_call]
    constructor
    · intro h; cases h
    · intro h; cases h

/-- C8: constructing a row-major (column-major) mapping from a general-strided
mapping `s` returns a mapping if and only if `s.stride(r)` is the row-major
(column-major) stride of the extents of `s`, the product of
`extent(r+1..rank-1)` (of `extent(0..r-1)`) in `size_t`, for every `r < rank`;
in every other case the constructor throws its `std::runtime_error` and no
mapping is produced. -/
theorem from_stride_succeeds_iff_strides_match (s : layout_stride.mapping) :
    ((∃ m, layout_right.mapping.from_stride s = Outcome.returned m) ↔
      ∀ r, r < s._extents.rank →
        s.stride r = (s._extents.values.drop (r + 1)).prod % SIZE) ∧
    ((∃ m, layout_left.mapping.from_stride s = Outcome.returned m) ↔
      ∀ r, r < s._extents.rank →
        s.stride r = (s._extents.values.take r).prod % SIZE) ∧
    ((¬ ∀ r, r < s._extents.rank →
        s.stride r = (s._extents.values.drop (r + 1)).prod % SIZE) →
      layout_right.mapping.from_stride_body s =
        Except.error "Assigning layout_stride to layout_right with invalid strides." ∧
      ∀ m, layout_right.mapping.from_stride s ≠ Outcome.returned m) ∧
    ((¬ ∀ r, r < s._extents.rank →
        s.stride r = (s._extents.values.take r).prod % SIZE) →
      layout_left.mapping.from_stride_body s =
        Except.error "Assigning layout_stride to layout_left with invalid strides." ∧
      ∀ m, layout_left.mapping.from_stride s ≠ Outcome.returned m) := by
  refine ⟨?_, ?_, ?_, ?_⟩
  · constructor
    · rintro ⟨m, hm⟩
      exact ((right_from_stride_body_ok_iff s m).mp
        ((noexcept_call_returned_iff _ _).mp hm)).2
    · intro h
      exact ⟨⟨s._extents⟩, (noexcept_call_returned_iff _ _).mpr
        ((right_from_stride_body_ok_iff s _).mpr ⟨rfl, h⟩)⟩
  · constructor
    · rintro ⟨m, hm⟩
      exact ((left_from_stride_body_ok_iff s m).mp
        ((noexcept_call_returned_iff _ _).mp hm)).2
    · intro h
      exact ⟨⟨s._extents⟩, (noexcept_call_returned_iff _ _).mpr
        ((left_from_stride_body_ok_iff s _).mpr ⟨rfl, h⟩)⟩
  · intro hne
    have hno : ∀ m, layout_right.mapping.from_stride_body s ≠ Except.ok m :=
      fun m hm => hne ((right_from_stride_body_ok_iff s m).mp hm).2
    refine ⟨?_, fun m hm => hno m ((noexcept_call_returned_iff _ _).mp hm)⟩
    rcases right_from_stride_body_cases s with h | h
    · exact absurd h (hno _)
    · exact h
  · intro hne
    have hno : ∀ m, layout_left.mapping.from_stride_body s ≠ Except.ok m :=
      fun m hm => hne ((left_from_stride_body_ok_iff s m).mp hm).2
    refine ⟨?_, fun m hm => hno m ((noexcept_call_returned_iff _ _).mp hm)⟩
    rcases left_from_stride_body_cases s with h | h
    · exact absurd h (hno _)
    · exact h

/-- C8 at extents (2,3,4): the strides (12,4,1) convert to row-major and not to
column-major, the strides (1,2,6) convert to column-major and not to
row-major. -/
theorem from_stride_succeeds_iff_strides_match_witness :
    layout_right.mapping.from_stride ⟨⟨[⟨2, 0⟩, ⟨3, 0⟩, ⟨4, 0⟩]⟩, [12, 4, 1]⟩ =
      Outcome.returned ⟨⟨[⟨2, 0⟩, ⟨3, 0⟩, ⟨4, 0⟩]⟩⟩ ∧
    layout_left.mapping.from_stride ⟨⟨[⟨2, 0⟩, ⟨3, 0⟩, ⟨4, 0⟩]⟩, [1, 2, 6]⟩ =
      Outcome.returned ⟨⟨[⟨2, 0⟩, ⟨3, 0⟩, ⟨4, 0⟩]⟩⟩ ∧
    (layout_left.mapping.from_stride_body ⟨⟨[⟨2, 0⟩, ⟨3, 0⟩, ⟨4, 0⟩]⟩, [12, 4, 1]⟩ =
        Except.error "Assigning layout_stride to layout_left with invalid strides." ∧
      ∀ m, layout_left.mapping.from_stride ⟨⟨[⟨2, 0⟩, ⟨3, 0⟩, ⟨4, 0⟩]⟩, [12, 4, 1]⟩ ≠
        Outcome.returned m) :=
  ⟨by decide, by decide,
    (from_stride_succeeds_iff_strides_match
      ⟨⟨[⟨2, 0⟩, ⟨3, 0⟩, ⟨4, 0⟩]⟩, [12, 4, 1]⟩).2.2.2
      (fun h => absurd (h 0 (by decide)) (by decide))⟩

theorem eq_of_modEq_of_lt {a b : Nat} (h : a ≡ b [MOD SIZE]) (ha : a < SIZE) (hb : b < SIZE) :
    a = b := by
  unfold Nat.ModEq at h
  rwa [Nat.mod_eq_of_lt ha, Nat.mod_eq_of_lt hb] at h

/-- C9: when the conversion of a general-strided mapping `s` into a row-major
or column-major mapping returns `m`, then `m` is an equal mapping: it has the
extents of `s`, `m.stride(r) == s.stride(r)` for every `r < rank`, and
`m(i...) == s(i...)` for every index tuple with one index per dimension. -/
theorem from_stride_equal_mapping (s : layout_stride.mapping)
    (hrank : s._extents.rank < SIZE) :
    (∀ m, layout_right.mapping.from_stride s = Outcome.returned m →
      m._extents = s._extents ∧
      (∀ r, r < s._extents.rank → m.stride r = s.stride r) ∧
      ∀ idx : List Nat, idx.length = s._extents.rank → m.call idx = s.call idx) ∧
    (∀ m, layout_left.mapping.from_stride s = Outcome.returned m →
      m._extents = s._extents ∧
      (∀ r, r < s._extents.rank → m.stride r = s.stride r) ∧
      ∀ idx : List Nat, idx.length = s._extents.rank → m.call idx = s.call idx) := by
  constructor
  · intro m hm
    obtain ⟨hme, hst⟩ := (right_from_stride_body_ok_iff s m).mp
      ((noexcept_call_returned_iff _ _).mp hm)
    subst hme
    refine ⟨rfl, ?_, ?_⟩
    · intro r hr
      rw [hst r hr]
      exact right_stride_eq _ r hrank hr
    · intro idx hidx
      refine eq_of_modEq_of_lt ?_ (right_call_lt _ _) (stride_call_lt _ _)
      refine (right_call_modEq_dot _ idx hidx).trans ?_
      refine (dot_congr idx _ _ ?_).trans (stride_call_modEq_dot s idx).symm
      intro t ht
      have ht2 : t < s._extents.rank := by omega
      rw [row_major_weights_getD _ _ (by rw [values_length]; exact ht2)]
      have h2 := hst t ht2
      unfold layout_stride.mapping.stride at h2
      rw [h2]
      exact (Nat.mod_modEq _ _).symm
  · intro m hm
    obtain ⟨hme, hst⟩ := (left_from_stride_body_ok_iff s m).mp
      ((noexcept_call_returned_iff _ _).mp hm)
    subst hme
    refine ⟨rfl, ?_, ?_⟩
    · intro r hr
      rw [hst r hr]
      exact left_stride_eq _ r (Nat.le_of_lt hr)
    · intro idx hidx
      refine eq_of_modEq_of_lt ?_ (left_call_lt _ _) (stride_call_lt _ _)
      refine (left_call_modEq_dot _ idx hidx).trans ?_
      refine (dot_congr idx _ _ ?_).trans (stride_call_modEq_dot s idx).symm
      intro t ht
      have ht2 : t < s._extents.rank := by omega
      rw [column_major_weights_getD _ _ (by rw [values_length]; exact ht2)]
      have h2 := hst t ht2
      unfold layout_stride.mapping.stride at h2
      rw [h2]
      exact (Nat.mod_modEq _ _).symm

/-- C9 at extents (2,3,4) with the row-major strides (12,4,1): the conversion
returns a mapping with the same extents, strides and offsets. -/
theorem from_stride_equal_mapping_witness :
    (layout_stride.mapping.mk ⟨[⟨2, 0⟩, ⟨3, 0⟩, ⟨4, 0⟩]⟩ [12, 4, 1])._extents.rank < SIZE ∧
    layout_right.mapping.from_stride ⟨⟨[⟨2, 0⟩, ⟨3, 0⟩, ⟨4, 0⟩]⟩, [12, 4, 1]⟩ =
      Outcome.returned ⟨⟨[⟨2, 0⟩, ⟨3, 0⟩, ⟨4, 0⟩]⟩⟩ ∧
    (layout_right.mapping.mk ⟨[⟨2, 0⟩, ⟨3, 0⟩, ⟨4, 0⟩]⟩).call [1, 2, 3] =
      (layout_stride.mapping.mk ⟨[⟨2, 0⟩, ⟨3, 0⟩, ⟨4, 0⟩]⟩ [12, 4, 1]).call [1, 2, 3] :=
  ⟨by decide, by decide,
    ((from_stride_equal_mapping ⟨⟨[⟨2, 0⟩, ⟨3, 0⟩, ⟨4, 0⟩]⟩, [12, 4, 1]⟩ (by decide)).1
      ⟨⟨[⟨2, 0⟩, ⟨3, 0⟩, ⟨4, 0⟩]⟩⟩ (by decide)).2.2 [1, 2, 3] (by decide)⟩

/-- C10: at extents (2,3) the strides (1,2) are not row-major and the strides
(3,1) are not column-major; the body of the converting constructor throws, and
because the constructor is declared `noexcept` the call ends in
`std::terminate`: no exception reaches the caller. Without `noexcept` the
same body would deliver the exception. -/
theorem from_stride_mismatch_terminates :
    layout_right.mapping.from_stride ⟨⟨[⟨2, 0⟩, ⟨3, 0⟩]⟩, [1, 2]⟩ = Outcome.terminated ∧
    layout_left.mapping.from_stride ⟨⟨[⟨2, 0⟩, ⟨3, 0⟩]⟩, [3, 1]⟩ = Outcome.terminated ∧
    throwing_call (layout_right.mapping.from_stride_body ⟨⟨[⟨2, 0⟩, ⟨3, 0⟩]⟩, [1, 2]⟩) =
      Outcome.thrown "Assigning layout_stride to layout_right with invalid strides." ∧
    throwing_call (layout_left.mapping.from_stride_body ⟨⟨[⟨2, 0⟩, ⟨3, 0⟩]⟩, [3, 1]⟩) =
      Outcome.thrown "Assigning layout_stride to layout_left with invalid strides." := by
  refine ⟨by decide, by decide, by decide, by decide⟩

/-! ## submdspan: the result in closed form -/

theorem drop_eq_cons_get {α : Type} (l : List α) (i : Nat) (a : α) (t : List α)
    (h : l.drop i = a :: t) : l.get? i = some a ∧ l.drop (i + 1) = t := by
  constructor
  · have h1 : (l.drop i).get? 0 = l.get? i := by
      simp only [List.get?_eq_getElem?, List.getElem?_drop, Nat.add_zero]
    rw [← h1, h]; rfl
  · rw [← List.drop_drop, h]; rfl

theorem sub_Extents_length (slices : List SliceSpec) (Exts : List Nat)
    (h : slices.length = Exts.length) :
    (sub_Extents slices Exts).length = kept_count slices := by
  induction slices generalizing Exts with
  | nil => cases Exts <;> simp [sub_Extents, kept_count]
  | cons s slices ih =>
    cases Exts with
    | nil => simp at h
    | cons E Exts =>
      have h1 : slices.length = Exts.length := by simpa using h
      have ih1 := ih Exts h1
      unfold kept_count at ih1 ⊢
      cases s <;>
        simp [sub_Extents, ih1, List.countP_cons, SliceSpec.is_index]

theorem sub_slots_length (slices : List SliceSpec) (ms : List _storage_t)
    (h : slices.length = ms.length) :
    (sub_slots slices ms).length = kept_count slices := by
  induction slices generalizing ms with
  | nil => cases ms <;> simp [sub_slots, kept_count]
  | cons s slices ih =>
    cases ms with
    | nil => simp at h
    | cons m ms =>
      have h1 : slices.length = ms.length := by simpa using h
      have ih1 := ih ms h1
      unfold kept_count at ih1 ⊢
      cases s <;>
        simp [sub_slots, ih1, List.countP_cons, SliceSpec.is_index]

theorem storage_ctor_self (m : _storage_t) :
    _storage_t.ctor m.Extent m.extent =
      some (if m.Extent = dynamic_extent then ⟨m.Extent, m.value⟩ else ⟨m.Extent, 0⟩) := by
  unfold _storage_t.ctor _storage_t.extent
  by_cases h : m.Extent = dynamic_extent
  · simp [h]
  · simp [h]

theorem ctor_all_sub (src : mdspan) (slices : List SliceSpec) (ms : List _storage_t) (i : Nat)
    (hms : src.extents.m.drop i = ms) (h : slices.length = ms.length) :
    extents.ctor_all (sub_Extents slices (ms.map _storage_t.Extent))
      (sub_extents_args src i slices) = some (sub_slots slices ms) := by
  induction slices generalizing ms i with
  | nil => cases ms <;> simp [sub_Extents, extents.ctor_all, sub_slots]
  | cons s slices ih =>
    cases ms with
    | nil => simp at h
    | cons m ms =>
      have h1 : slices.length = ms.length := by simpa using h
      obtain ⟨hget, hdrop⟩ := drop_eq_cons_get _ _ _ _ hms
      have ih1 := ih ms (i + 1) hdrop h1
      have hext : src.extent i = m.extent := by
        unfold mdspan.extent extents.extent
        unfold mdspan.extents at hget
        rw [hget]
      cases s with
      | index k => simpa [sub_Extents, sub_extents_args, sub_slots] using ih1
      | range lo hi =>
        simp only [List.map_cons, sub_Extents, sub_extents_args, sub_slots, extents.ctor_all,
          ih1, _storage_t.ctor, if_true]
      | full =>
        simp only [List.map_cons, sub_Extents, sub_extents_args, sub_slots, extents.ctor_all,
          ih1, hext, storage_ctor_self]

/-- The mapping of the result of `submdspan`, by the branch taken. -/
theorem submdspan_eq (src : mdspan) (slices : List SliceSpec)
    (h : slices.length = src.rank) :
    submdspan src slices = some ⟨src._pointer + src._mapping.call (slices.map SliceSpec.offset_arg),
      if is_layout_left src._mapping.layout_type slices (kept_count slices) = true then
        mapping_type.layout_left ⟨⟨sub_slots slices src.extents.m⟩⟩
      else if is_layout_right src._mapping.layout_type slices src.rank (kept_count slices) = true
      then mapping_type.layout_right ⟨⟨sub_slots slices src.extents.m⟩⟩
      else mapping_type.layout_stride
        ⟨⟨sub_slots slices src.extents.m⟩, sub_strides src 0 slices⟩⟩ := by
  have hlen : slices.length = src.extents.m.length := h
  have hc := ctor_all_sub src slices src.extents.m 0 (List.drop_zero _) hlen
  have hr : (sub_Extents slices (src.extents.m.map _storage_t.Extent)).length =
      kept_count slices := sub_Extents_length _ _ (by simpa using hlen)
  unfold submdspan
  simp only [extents.Extents, hc, hr, mdspan.mapping, mdspan.data]
  cases hL : src._mapping.layout_type with
  | layout_left =>
    have hR : is_layout_right Layout.layout_left slices src.rank (kept_count slices) = false := by
      simp [is_layout_right]
    simp only [hR, Bool.or_false]
    split <;> simp_all
  | layout_right =>
    have hLf : is_layout_left Layout.layout_right slices (kept_count slices) = false := by
      simp [is_layout_left]
    simp only [hLf, Bool.false_or]
    split <;> simp_all
  | layout_stride =>
    have hLf : is_layout_left Layout.layout_stride slices (kept_count slices) = false := by
      simp [is_layout_left]
    have hR : is_layout_right Layout.layout_stride slices src.rank (kept_count slices) = false := by
      simp [is_layout_right]
    simp [hLf, hR]

/-- C4: the base offset that `submdspan` adds to the source pointer is the
source mapping applied to the index tuple in which a single-index slice
contributes its value, a range slice its lower bound and a full-extent slice
0. -/
theorem submdspan_offset (src : mdspan) (slices : List SliceSpec)
    (h : slices.length = src.rank) :
    ∃ sub idx, submdspan src slices = some sub ∧
      sub.data = src.data + src.mapping.call idx ∧
      idx.length = slices.length ∧
      ∀ r, r < slices.length →
        (∀ k, slices.get? r = some (SliceSpec.index k) → idx.get? r = some k) ∧
        (∀ lo hi, slices.get? r = some (SliceSpec.range lo hi) → idx.get? r = some lo) ∧
        (slices.get? r = some SliceSpec.full → idx.get? r = some 0) := by
  refine ⟨_, slices.map SliceSpec.offset_arg, submdspan_eq src slices h, rfl, by simp, ?_⟩
  intro r _
  simp only [List.get?_eq_getElem?, List.getElem?_map]
  refine ⟨?_, ?_, ?_⟩
  · intro k hk; rw [hk]; rfl
  · intro lo hi hk; rw [hk]; rfl
  · intro hk; rw [hk]; rfl

/-- C4 at row-major extents (4,5,6) and slices (full, range(1,3), 2): the
offset is the source mapping at (0,1,2), which is 8. -/
theorem submdspan_offset_witness :
    [SliceSpec.full, SliceSpec.range 1 3, SliceSpec.index 2].length =
      (mdspan.mk 0 (mapping_type.layout_right ⟨⟨[⟨4, 0⟩, ⟨5, 0⟩, ⟨6, 0⟩]⟩⟩)).rank ∧
    (∃ sub idx, submdspan ⟨0, mapping_type.layout_right ⟨⟨[⟨4, 0⟩, ⟨5, 0⟩, ⟨6, 0⟩]⟩⟩⟩
        [SliceSpec.full, SliceSpec.range 1 3, SliceSpec.index 2] = some sub ∧
      sub.data = (mdspan.mk 0 (mapping_type.layout_right
        ⟨⟨[⟨4, 0⟩, ⟨5, 0⟩, ⟨6, 0⟩]⟩⟩)).data +
        (mdspan.mk 0 (mapping_type.layout_right
          ⟨⟨[⟨4, 0⟩, ⟨5, 0⟩, ⟨6, 0⟩]⟩⟩)).mapping.call idx ∧
      idx.length = [SliceSpec.full, SliceSpec.range 1 3, SliceSpec.index 2].length ∧
      ∀ r, r < [SliceSpec.full, SliceSpec.range 1 3, SliceSpec.index 2].length →
        (∀ k, [SliceSpec.full, SliceSpec.range 1 3, SliceSpec.index 2].get? r =
          some (SliceSpec.index k) → idx.get? r = some k) ∧
        (∀ lo hi, [SliceSpec.full, SliceSpec.range 1 3, SliceSpec.index 2].get? r =
          some (SliceSpec.range lo hi) → idx.get? r = some lo) ∧
        ([SliceSpec.full, SliceSpec.range 1 3, SliceSpec.index 2].get? r =
          some SliceSpec.full → idx.get? r = some 0)) ∧
    (submdspan ⟨0, mapping_type.layout_right ⟨⟨[⟨4, 0⟩, ⟨5, 0⟩, ⟨6, 0⟩]⟩⟩⟩
        [SliceSpec.full, SliceSpec.range 1 3, SliceSpec.index 2]).map mdspan.data = some 8 ∧
    (mapping_type.layout_right ⟨⟨[⟨4, 0⟩, ⟨5, 0⟩, ⟨6, 0⟩]⟩⟩).call [0, 1, 2] = 8 :=
  ⟨by decide, submdspan_offset _ _ (by decide), by decide, by decide⟩

theorem size_sub_eq (lo hi : Nat) (h1 : lo ≤ hi) (h2 : hi < SIZE) : size_sub hi lo = hi - lo := by
  unfold size_sub
  have hlo : lo < SIZE := by omega
  rw [Nat.mod_eq_of_lt h2, Nat.mod_eq_of_lt hlo]
  have h3 : hi + (SIZE - lo) = (hi - lo) + SIZE := by omega
  rw [h3, Nat.add_mod_right, Nat.mod_eq_of_lt (by omega)]

theorem sub_slots_expected (slices : List SliceSpec) (ms : List _storage_t) :
    (sub_slots slices ms).map (fun s => (s.Extent, s.extent)) =
      expected_sub_extents slices ms := by
  induction slices generalizing ms with
  | nil => cases ms <;> simp [sub_slots, expected_sub_extents]
  | cons s slices ih =>
    cases ms with
    | nil => cases s <;> simp [sub_slots, expected_sub_extents]
    | cons m ms =>
      cases s with
      | index k => simpa [sub_slots, expected_sub_extents] using ih ms
      | range lo hi =>
        simp only [expected_sub_extents]
        rw [← ih ms]
        simp [sub_slots, _storage_t.extent]
      | full =>
        simp only [expected_sub_extents]
        rw [← ih ms]
        by_cases hm : m.Extent = dynamic_extent
        · simp [sub_slots, _storage_t.extent, hm]
        · simp [sub_slots, _storage_t.extent, hm]

/-- C5: the result of `submdspan` has rank equal to the number of slice specs
that are not single indices, and its extents, over the kept dimensions in
source order, are a dynamic slot of value `hi - lo` (a `size_t` subtraction)
for a range slice and the source's slot, with its static or dynamic kind and
its extent, for a full-extent slice. -/
theorem submdspan_rank_extents (src : mdspan) (slices : List SliceSpec)
    (h : slices.length = src.rank) :
    ∃ sub, submdspan src slices = some sub ∧
      sub.rank = kept_count slices ∧
      sub.extents.m.map (fun s => (s.Extent, s.extent)) =
        expected_sub_extents slices src.extents.m ∧
      ∀ lo hi, lo ≤ hi → hi < SIZE → size_sub hi lo = hi - lo := by
  refine ⟨_, submdspan_eq src slices h, ?_, ?_, size_sub_eq⟩
  · have hl := sub_slots_length slices src.extents.m h
    simp only [mdspan.rank]
    split
    · exact hl
    · split
      · exact hl
      · exact hl
  · have he := sub_slots_expected slices src.extents.m
    simp only [mdspan.extents]
    split
    · exact he
    · split
      · exact he
      · exact he

/-- C5 at extents (4,5,6) with a static first slot and slices
(full, range(1,3), 2): rank 2 and extents (4,2), the first slot static and the
second dynamic. -/
theorem submdspan_rank_extents_witness :
    [SliceSpec.full, SliceSpec.range 1 3, SliceSpec.index 2].length =
      (mdspan.mk 0 (mapping_type.layout_right
        ⟨⟨[⟨4, 0⟩, ⟨dynamic_extent, 5⟩, ⟨dynamic_extent, 6⟩]⟩⟩)).rank ∧
    (∃ sub, submdspan ⟨0, mapping_type.layout_right
          ⟨⟨[⟨4, 0⟩, ⟨dynamic_extent, 5⟩, ⟨dynamic_extent, 6⟩]⟩⟩⟩
        [SliceSpec.full, SliceSpec.range 1 3, SliceSpec.index 2] = some sub ∧
      sub.rank = kept_count [SliceSpec.full, SliceSpec.range 1 3, SliceSpec.index 2] ∧
      sub.extents.m.map (fun s => (s.Extent, s.extent)) =
        expected_sub_extents [SliceSpec.full, SliceSpec.range 1 3, SliceSpec.index 2]
          (mdspan.mk 0 (mapping_type.layout_right
            ⟨⟨[⟨4, 0⟩, ⟨dynamic_extent, 5⟩, ⟨dynamic_extent, 6⟩]⟩⟩)).extents.m ∧
      ∀ lo hi, lo ≤ hi → hi < SIZE → size_sub hi lo = hi - lo) ∧
    kept_count [SliceSpec.full, SliceSpec.range 1 3, SliceSpec.index 2] = 2 ∧
    expected_sub_extents [SliceSpec.full, SliceSpec.range 1 3, SliceSpec.index 2]
      [⟨4, 0⟩, ⟨dynamic_extent, 5⟩, ⟨dynamic_extent, 6⟩] = [(4, 4), (dynamic_extent, 2)] :=
  ⟨by decide, submdspan_rank_extents _ _ (by decide), by decide, by decide⟩

theorem sub_strides_eq (src : mdspan) (slices : List SliceSpec) (i : Nat) :
    sub_strides src i slices = (kept_positions i slices).map src.stride := by
  induction slices generalizing i with
  | nil => rfl
  | cons s slices ih =>
    cases s <;> simp [sub_strides, kept_positions, ih]

theorem kept_positions_length (slices : List SliceSpec) (i : Nat) :
    (kept_positions i slices).length = kept_count slices := by
  induction slices generalizing i with
  | nil => rfl
  | cons s slices ih =>
    have ih1 := ih (i + 1)
    unfold kept_count at ih1 ⊢
    cases s <;> simp [kept_positions, ih1, List.countP_cons, SliceSpec.is_index]

/-- C7: whenever `submdspan` falls back to the general-strided layout, the
stride array of the result has one entry per kept (non-single-index)
dimension, in source order, and the entry is the source's `stride(r)` at that
kept dimension `r`. -/
theorem submdspan_fallback_strides (src : mdspan) (slices : List SliceSpec) (sub : mdspan)
    (m : layout_stride.mapping) (h : slices.length = src.rank)
    (hsub : submdspan src slices = some sub)
    (hm : sub._mapping = mapping_type.layout_stride m) :
    m._strides = (kept_positions 0 slices).map src.stride ∧
      m._strides.length = kept_count slices := by
  rw [submdspan_eq src slices h] at hsub
  have hsub1 := Option.some.inj hsub
  rw [← hsub1] at hm
  simp only at hm
  split at hm
  · cases hm
  · split at hm
    · cases hm
    · have hm1 := mapping_type.layout_stride.inj hm
      rw [← hm1]
      simp only
      rw [sub_strides_eq]
      exact ⟨rfl, by rw [List.length_map, kept_positions_length]⟩

/-- C7 at row-major extents (4,5,6) and slices (full, range(1,3), 2): the
result is general-strided with strides (30, 6). -/
theorem submdspan_fallback_strides_witness :
    [SliceSpec.full, SliceSpec.range 1 3, SliceSpec.index 2].length =
      (mdspan.mk 0 (mapping_type.layout_right ⟨⟨[⟨4, 0⟩, ⟨5, 0⟩, ⟨6, 0⟩]⟩⟩)).rank ∧
    submdspan ⟨0, mapping_type.layout_right ⟨⟨[⟨4, 0⟩, ⟨5, 0⟩, ⟨6, 0⟩]⟩⟩⟩
        [SliceSpec.full, SliceSpec.range 1 3, SliceSpec.index 2] =
      some ⟨8, mapping_type.layout_stride
        ⟨⟨[⟨4, 0⟩, ⟨dynamic_extent, 2⟩]⟩, [30, 6]⟩⟩ ∧
    ([30, 6] = (kept_positions 0 [SliceSpec.full, SliceSpec.range 1 3, SliceSpec.index 2]).map
        (mdspan.mk 0 (mapping_type.layout_right ⟨⟨[⟨4, 0⟩, ⟨5, 0⟩, ⟨6, 0⟩]⟩⟩)).stride ∧
      [30, 6].length = kept_count [SliceSpec.full, SliceSpec.range 1 3, SliceSpec.index 2]) :=
  ⟨by decide, by decide,
    submdspan_fallback_strides
      ⟨0, mapping_type.layout_right ⟨⟨[⟨4, 0⟩, ⟨5, 0⟩, ⟨6, 0⟩]⟩⟩⟩
      [SliceSpec.full, SliceSpec.range 1 3, SliceSpec.index 2]
      ⟨8, mapping_type.layout_stride ⟨⟨[⟨4, 0⟩, ⟨dynamic_extent, 2⟩]⟩, [30, 6]⟩⟩
      ⟨⟨[⟨4, 0⟩, ⟨dynamic_extent, 2⟩]⟩, [30, 6]⟩ (by decide) (by decide) rfl⟩

/-! ## submdspan: the layout of the result -/

theorem kept_count_cons (s : SliceSpec) (slices : List SliceSpec) :
    kept_count (s :: slices) = kept_count slices + if s.is_index = true then 0 else 1 := by
  unfold kept_count
  rw [List.countP_cons]
  cases s <;> simp [SliceSpec.is_index]

theorem kept_count_le (slices : List SliceSpec) : kept_count slices ≤ slices.length :=
  List.countP_le_length _

theorem is_index_at_zero (s : SliceSpec) (slices : List SliceSpec) :
    is_index_at (s :: slices) 0 = s.is_index := rfl

theorem is_index_at_succ (s : SliceSpec) (slices : List SliceSpec) (n : Nat) :
    is_index_at (s :: slices) (n + 1) = is_index_at slices n := rfl

theorem last_kept_eq_none_iff (slices : List SliceSpec) :
    last_kept slices = none ↔ kept_count slices = 0 := by
  induction slices with
  | nil => simp [last_kept, kept_count]
  | cons s slices ih =>
    rw [kept_count_cons]
    cases hl : last_kept slices with
    | none =>
      have h0 : kept_count slices = 0 := ih.mp hl
      cases hs : s.is_index <;> simp [last_kept, hl, hs, h0]
    | some p =>
      have h0 : kept_count slices ≠ 0 := fun h => by
        have := ih.mpr h
        rw [hl] at this
        cases this
      simp only [last_kept, hl]
      constructor
      · intro h; cases h
      · intro h; omega

theorem first_kept_eq_none_iff (slices : List SliceSpec) :
    first_kept slices = none ↔ kept_count slices = 0 := by
  induction slices with
  | nil => simp [first_kept, kept_count]
  | cons s slices ih =>
    rw [kept_count_cons]
    cases hs : s.is_index with
    | true => simp [first_kept, hs, ih]
    | false => simp [first_kept, hs]

/-- The position test of `is_layout_left` (mdspan.hpp:693-694) decides the
condition on the last kept dimension. -/
theorem left_test_eq (slices : List SliceSpec) (hc : kept_count slices ≠ 0) :
    ((pack_slice slices 0 (kept_count slices - 1)).all SliceSpec.is_full &&
      !is_index_at slices (kept_count slices - 1)) = before_last_kept_all_full slices := by
  induction slices with
  | nil => exact absurd rfl hc
  | cons s slices ih =>
    by_cases hc0 : kept_count slices = 0
    · have hl : last_kept slices = none := (last_kept_eq_none_iff slices).mpr hc0
      cases s with
      | index k => rw [kept_count_cons] at hc; simp [SliceSpec.is_index, hc0] at hc
      | range lo hi =>
        simp [kept_count_cons, SliceSpec.is_index, hc0, pack_slice, is_index_at_zero,
          before_last_kept_all_full, last_kept, hl]
      | full =>
        simp [kept_count_cons, SliceSpec.is_index, hc0, pack_slice, is_index_at_zero,
          before_last_kept_all_full, last_kept, hl]
    · obtain ⟨c, hcs⟩ := Nat.exists_eq_succ_of_ne_zero hc0
      have ih1 := ih hc0
      obtain ⟨p, hl⟩ : ∃ p, last_kept slices = some p := by
        cases hl : last_kept slices with
        | none => exact absurd ((last_kept_eq_none_iff slices).mp hl) hc0
        | some p => exact ⟨p, rfl⟩
      rw [hcs] at ih1
      simp only [pack_slice, List.drop_zero, Nat.succ_sub_one, before_last_kept_all_full,
        hl] at ih1
      cases s with
      | index k =>
        simp only [kept_count_cons, SliceSpec.is_index, if_true, Nat.add_zero, hcs,
          Nat.succ_sub_one, pack_slice, List.drop_zero, before_last_kept_all_full, last_kept,
          hl, List.take_succ_cons, List.all_cons, SliceSpec.is_full, Bool.false_and]
        cases c with
        | zero => simp [is_index_at_zero, SliceSpec.is_index]
        | succ c => simp [List.take_succ_cons, SliceSpec.is_full]
      | range lo hi =>
        simp [kept_count_cons, SliceSpec.is_index, hcs, pack_slice, before_last_kept_all_full,
          last_kept, hl, List.take_succ_cons, SliceSpec.is_full]
      | full =>
        simp only [kept_count_cons, SliceSpec.is_index, hcs, pack_slice, List.drop_zero,
          before_last_kept_all_full, last_kept, hl, List.take_succ_cons, List.all_cons,
          SliceSpec.is_full, Bool.true_and, is_index_at_succ, Nat.add_sub_cancel,
          Bool.false_eq_true, if_false, Nat.succ_eq_add_one]
        exact ih1

theorem all_full_kept_count (slices : List SliceSpec)
    (h : slices.all SliceSpec.is_full = true) : kept_count slices = slices.length := by
  unfold kept_count
  rw [List.countP_eq_length]
  intro a ha
  have := (List.all_eq_true.mp h) a ha
  cases a <;> simp_all [SliceSpec.is_full, SliceSpec.is_index]

theorem index_before_full_tail (slices : List SliceSpec) (d : Nat)
    (hd : d = slices.length - kept_count slices)
    (hall : (slices.drop d).all SliceSpec.is_full = true) (t : Nat) (ht : t < d) :
    is_index_at slices t = true := by
  have hle := kept_count_le slices
  have hsplit : kept_count slices =
      kept_count (slices.take d) + kept_count (slices.drop d) := by
    unfold kept_count
    rw [← List.countP_append, List.take_append_drop]
  have hdrop : kept_count (slices.drop d) = slices.length - d := by
    rw [all_full_kept_count _ hall, List.length_drop]
  have hzero : kept_count (slices.take d) = 0 := by omega
  unfold kept_count at hzero
  rw [List.countP_eq_zero] at hzero
  have htl : t < slices.length := by omega
  have hmem : slices[t] ∈ slices.take d := by
    rw [List.mem_take_iff_getElem]
    exact ⟨t, by simp only [lt_inf_iff]; exact ⟨ht, htl⟩, rfl⟩
  have := hzero _ hmem
  unfold is_index_at
  rw [List.get?_eq_getElem?, List.getElem?_eq_getElem htl]
  simpa using this

/-- The position test of `is_layout_right` (mdspan.hpp:703-704) decides the
condition on the first kept dimension. -/
theorem right_test_eq (slices : List SliceSpec) (hc : kept_count slices ≠ 0) :
    ((pack_slice slices (slices.length - kept_count slices + 1) slices.length).all
        SliceSpec.is_full &&
      !is_index_at slices (slices.length - kept_count slices)) =
      after_first_kept_all_full slices := by
  induction slices with
  | nil => exact absurd rfl hc
  | cons s slices ih =>
    have hle := kept_count_le slices
    cases hs : s.is_index with
    | true =>
      have hkc : kept_count (s :: slices) = kept_count slices := by
        rw [kept_count_cons, hs]; simp
      rw [hkc] at hc ⊢
      have ih1 := ih hc
      have hsub : (s :: slices).length - kept_count slices =
          (slices.length - kept_count slices) + 1 := by
        simp only [List.length_cons]; omega
      obtain ⟨p, hp⟩ : ∃ p, first_kept slices = some p := by
        cases hf : first_kept slices with
        | none => exact absurd ((first_kept_eq_none_iff slices).mp hf) hc
        | some p => exact ⟨p, rfl⟩
      rw [hsub, is_index_at_succ]
      simp only [pack_slice, List.take_length, List.drop_succ_cons, after_first_kept_all_full,
        first_kept, hs, if_true, hp, Option.map_some'] at ih1 ⊢
      exact ih1
    | false =>
      have hkc : kept_count (s :: slices) = kept_count slices + 1 := by
        rw [kept_count_cons, hs]; simp
      have hsub : (s :: slices).length - kept_count (s :: slices) =
          slices.length - kept_count slices := by
        rw [hkc]; simp only [List.length_cons]; omega
      rw [hsub]
      simp only [pack_slice, List.take_length, List.drop_succ_cons, after_first_kept_all_full,
        first_kept, hs, Bool.false_eq_true, if_false, List.drop_zero]
      cases hall : slices.all SliceSpec.is_full with
      | true =>
        have hk := all_full_kept_count slices hall
        rw [hk, Nat.sub_self, List.drop_zero, hall, is_index_at_zero, hs]
        rfl
      | false =>
        cases hd : slices.length - kept_count slices with
        | zero => rw [List.drop_zero, hall]; rfl
        | succ d =>
          cases hdrop : (slices.drop (d + 1)).all SliceSpec.is_full with
          | false => rfl
          | true =>
            have := index_before_full_tail slices (d + 1) hd.symm hdrop d (by omega)
            rw [is_index_at_succ, this]
            rfl

theorem is_layout_left_iff (LP : Layout) (slices : List SliceSpec) :
    is_layout_left LP slices (kept_count slices) = true ↔
      LP = Layout.layout_left ∧
        (kept_count slices = 0 ∨ before_last_kept_all_full slices = true) := by
  unfold is_layout_left
  by_cases hc : kept_count slices = 0
  · simp [hc]
  · rw [left_test_eq slices hc]
    simp [hc]

theorem is_layout_right_iff (LP : Layout) (slices : List SliceSpec) :
    is_layout_right LP slices slices.length (kept_count slices) = true ↔
      LP = Layout.layout_right ∧
        (kept_count slices = 0 ∨ after_first_kept_all_full slices = true) := by
  unfold is_layout_right
  by_cases hc : kept_count slices = 0
  · simp [hc]
  · rw [right_test_eq slices hc]
    simp [hc]

/-- The result of `submdspan` with its rank and layout. -/
theorem submdspan_cases (src : mdspan) (slices : List SliceSpec)
    (h : slices.length = src.rank) :
    ∃ M, submdspan src slices =
        some ⟨src._pointer + src._mapping.call (slices.map SliceSpec.offset_arg), M⟩ ∧
      M.extents = ⟨sub_slots slices src.extents.m⟩ ∧
      ((is_layout_left src._mapping.layout_type slices (kept_count slices) = true ∧
          M = mapping_type.layout_left ⟨⟨sub_slots slices src.extents.m⟩⟩) ∨
        (is_layout_left src._mapping.layout_type slices (kept_count slices) = false ∧
          is_layout_right src._mapping.layout_type slices slices.length (kept_count slices) =
            true ∧
          M = mapping_type.layout_right ⟨⟨sub_slots slices src.extents.m⟩⟩) ∨
        (is_layout_left src._mapping.layout_type slices (kept_count slices) = false ∧
          is_layout_right src._mapping.layout_type slices slices.length (kept_count slices) =
            false ∧
          M = mapping_type.layout_stride
            ⟨⟨sub_slots slices src.extents.m⟩, sub_strides src 0 slices⟩)) := by
  refine ⟨_, submdspan_eq src slices h, ?_, ?_⟩
  · split
    · rfl
    · split <;> rfl
  · rw [h]
    cases hL : is_layout_left src._mapping.layout_type slices (kept_count slices) with
    | true => left; simp
    | false =>
      right
      cases hR : is_layout_right src._mapping.layout_type slices src.rank
          (kept_count slices) with
      | true => left; simp
      | false => right; simp

/-- C6: the layout of the result of `submdspan` follows the spec rule. It is
column-major iff the source is column-major and the new rank is 0 or every
slice spec before the last kept dimension is full-extent; it is row-major iff
the source is row-major and the new rank is 0 or every slice spec after the
first kept dimension is full-extent; otherwise, and for every general-strided
source, it is general-strided. The position tests `is_layout_left` and
`is_layout_right` of the code decide exactly these conditions. -/
theorem submdspan_layout (src : mdspan) (slices : List SliceSpec)
    (h : slices.length = src.rank) :
    ∃ sub, submdspan src slices = some sub ∧
      (sub.mapping.layout_type = Layout.layout_left ↔
        src.mapping.layout_type = Layout.layout_left ∧
          (sub.rank = 0 ∨ before_last_kept_all_full slices = true)) ∧
      (sub.mapping.layout_type = Layout.layout_right ↔
        src.mapping.layout_type = Layout.layout_right ∧
          (sub.rank = 0 ∨ after_first_kept_all_full slices = true)) ∧
      (sub.mapping.layout_type = Layout.layout_stride ↔
        ¬ (src.mapping.layout_type = Layout.layout_left ∧
            (sub.rank = 0 ∨ before_last_kept_all_full slices = true)) ∧
        ¬ (src.mapping.layout_type = Layout.layout_right ∧
            (sub.rank = 0 ∨ after_first_kept_all_full slices = true))) ∧
      (src.mapping.layout_type = Layout.layout_stride →
        sub.mapping.layout_type = Layout.layout_stride) ∧
      (is_layout_left src.mapping.layout_type slices sub.rank = true ↔
        src.mapping.layout_type = Layout.layout_left ∧
          (sub.rank = 0 ∨ before_last_kept_all_full slices = true)) ∧
      (is_layout_right src.mapping.layout_type slices src.rank sub.rank = true ↔
        src.mapping.layout_type = Layout.layout_right ∧
          (sub.rank = 0 ∨ after_first_kept_all_full slices = true)) := by
  obtain ⟨M, hsub, hext, hcases⟩ := submdspan_cases src slices h
  have hrank : (mdspan.mk (src._pointer + src._mapping.call (slices.map SliceSpec.offset_arg))
      M).rank = kept_count slices := by
    simp only [mdspan.rank, hext, extents.rank]
    exact sub_slots_length slices src.extents.m h
  have hL := is_layout_left_iff src._mapping.layout_type slices
  have hR := is_layout_right_iff src._mapping.layout_type slices
  refine ⟨_, hsub, ?_⟩
  rw [hrank, ← h]
  simp only [mdspan.mapping]
  rw [← hL, ← hR]
  have hS : src._mapping.layout_type = Layout.layout_stride →
      is_layout_left src._mapping.layout_type slices (kept_count slices) = false ∧
      is_layout_right src._mapping.layout_type slices slices.length (kept_count slices) =
        false := by
    intro hs
    rw [hs]
    exact ⟨by simp [is_layout_left], by simp [is_layout_right]⟩
  have hLR : is_layout_left src._mapping.layout_type slices (kept_count slices) = true →
      is_layout_right src._mapping.layout_type slices slices.length (kept_count slices) =
        false := by
    intro h1
    rw [(hL.mp h1).1]
    simp [is_layout_right]
  generalize src._mapping.layout_type = LP at *
  rcases hcases with ⟨h1, hM⟩ | ⟨h1, h2, hM⟩ | ⟨h1, h2, hM⟩
  · have h2 := hLR h1
    subst hM
    refine ⟨?_, ?_, ?_, ?_, Iff.rfl, Iff.rfl⟩
    · simp [mapping_type.layout_type, h1]
    · simp [mapping_type.layout_type, h2]
    · simp [mapping_type.layout_type, h1]
    · intro hs; rw [(hS hs).1] at h1; cases h1
  · subst hM
    refine ⟨?_, ?_, ?_, ?_, Iff.rfl, Iff.rfl⟩
    · simp [mapping_type.layout_type, h1]
    · simp [mapping_type.layout_type, h2]
    · simp [mapping_type.layout_type, h2]
    · intro hs; rw [(hS hs).2] at h2; cases h2
  · subst hM
    refine ⟨?_, ?_, ?_, ?_, Iff.rfl, Iff.rfl⟩
    · simp [mapping_type.layout_type, h1]
    · simp [mapping_type.layout_type, h2]
    · simp [mapping_type.layout_type, h1, h2]
    · intro _; rfl

/-- C6 at row-major extents (4,5,6) and slices (full, range(1,3), 2): the
result is general-strided; with slices (1, range(1,3), full) it is row-major. -/
theorem submdspan_layout_witness :
    [SliceSpec.full, SliceSpec.range 1 3, SliceSpec.index 2].length =
      (mdspan.mk 0 (mapping_type.layout_right ⟨⟨[⟨4, 0⟩, ⟨5, 0⟩, ⟨6, 0⟩]⟩⟩)).rank ∧
    (submdspan ⟨0, mapping_type.layout_right ⟨⟨[⟨4, 0⟩, ⟨5, 0⟩, ⟨6, 0⟩]⟩⟩⟩
        [SliceSpec.full, SliceSpec.range 1 3, SliceSpec.index 2]).map
      (fun sub => sub.mapping.layout_type) = some Layout.layout_stride ∧
    (submdspan ⟨0, mapping_type.layout_right ⟨⟨[⟨4, 0⟩, ⟨5, 0⟩, ⟨6, 0⟩]⟩⟩⟩
        [SliceSpec.index 1, SliceSpec.range 1 3, SliceSpec.full]).map
      (fun sub => sub.mapping.layout_type) = some Layout.layout_right ∧
    after_first_kept_all_full [SliceSpec.full, SliceSpec.range 1 3, SliceSpec.index 2] = false ∧
    after_first_kept_all_full [SliceSpec.index 1, SliceSpec.range 1 3, SliceSpec.full] = true ∧
    ∃ sub, submdspan ⟨0, mapping_type.layout_right ⟨⟨[⟨4, 0⟩, ⟨5, 0⟩, ⟨6, 0⟩]⟩⟩⟩
        [SliceSpec.full, SliceSpec.range 1 3, SliceSpec.index 2] = some sub ∧
      (sub.mapping.layout_type = Layout.layout_right ↔
        (mdspan.mk 0 (mapping_type.layout_right
          ⟨⟨[⟨4, 0⟩, ⟨5, 0⟩, ⟨6, 0⟩]⟩⟩)).mapping.layout_type = Layout.layout_right ∧
          (sub.rank = 0 ∨ after_first_kept_all_full
            [SliceSpec.full, SliceSpec.range 1 3, SliceSpec.index 2] = true)) :=
  ⟨by decide, by decide, by decide, by decide, by decide,
    (submdspan_layout ⟨0, mapping_type.layout_right ⟨⟨[⟨4, 0⟩, ⟨5, 0⟩, ⟨6, 0⟩]⟩⟩⟩
      [SliceSpec.full, SliceSpec.range 1 3, SliceSpec.index 2] (by decide)).imp
      (fun _ hs => ⟨hs.1, hs.2.2.1⟩)⟩

/-! ## submdspan: the weights of the result -/

theorem keep_of_no_kept {α : Type} (slices : List SliceSpec) (xs : List α)
    (h : kept_count slices = 0) : keep slices xs = [] := by
  induction slices generalizing xs with
  | nil => cases xs <;> rfl
  | cons s slices ih =>
    rw [kept_count_cons] at h
    cases xs with
    | nil => cases s <;> rfl
    | cons x xs =>
      cases s with
      | index k => exact ih xs (by simpa [SliceSpec.is_index] using h)
      | range lo hi => simp [SliceSpec.is_index] at h
      | full => simp [SliceSpec.is_index] at h

theorem sub_slots_of_no_kept (slices : List SliceSpec) (ms : List _storage_t)
    (h : kept_count slices = 0) : sub_slots slices ms = [] := by
  induction slices generalizing ms with
  | nil => cases ms <;> rfl
  | cons s slices ih =>
    rw [kept_count_cons] at h
    cases ms with
    | nil => cases s <;> rfl
    | cons m ms =>
      cases s with
      | index k => exact ih ms (by simpa [SliceSpec.is_index] using h)
      | range lo hi => simp [SliceSpec.is_index] at h
      | full => simp [SliceSpec.is_index] at h

theorem keep_of_all_full {α : Type} (slices : List SliceSpec) (xs : List α)
    (h : slices.all SliceSpec.is_full = true) (hl : slices.length = xs.length) :
    keep slices xs = xs := by
  induction slices generalizing xs with
  | nil => cases xs with
    | nil => rfl
    | cons x xs => simp at hl
  | cons s slices ih =>
    cases xs with
    | nil => simp at hl
    | cons x xs =>
      rw [List.all_cons, Bool.and_eq_true] at h
      cases s with
      | index k => simp [SliceSpec.is_full] at h
      | range lo hi => simp [SliceSpec.is_full] at h
      | full =>
        simp only [keep]
        rw [ih xs h.2 (by simpa using hl)]

theorem keep_of_all_full_cons {α : Type} (s : SliceSpec) (slices : List SliceSpec) (x : α)
    (xs : List α) (hs : s.is_index = false) (h : slices.all SliceSpec.is_full = true)
    (hl : slices.length = xs.length) : keep (s :: slices) (x :: xs) = x :: xs := by
  cases s with
  | index k => simp [SliceSpec.is_index] at hs
  | range lo hi => simp only [keep]; rw [keep_of_all_full slices xs h hl]
  | full => simp only [keep]; rw [keep_of_all_full slices xs h hl]

theorem sub_slots_values_all_full (slices : List SliceSpec) (ms : List _storage_t)
    (h : slices.all SliceSpec.is_full = true) (hl : slices.length = ms.length) :
    (sub_slots slices ms).map _storage_t.extent = ms.map _storage_t.extent := by
  induction slices generalizing ms with
  | nil => cases ms with
    | nil => rfl
    | cons x xs => simp at hl
  | cons s slices ih =>
    cases ms with
    | nil => simp at hl
    | cons m ms =>
      rw [List.all_cons, Bool.and_eq_true] at h
      cases s with
      | index k => simp [SliceSpec.is_full] at h
      | range lo hi => simp [SliceSpec.is_full] at h
      | full =>
        simp only [sub_slots, List.map_cons]
        rw [ih ms h.2 (by simpa using hl)]
        congr 1
        by_cases hm : m.Extent = dynamic_extent
        · simp [_storage_t.extent, hm]
        · simp [_storage_t.extent, hm]

theorem keep_map {α β : Type} (f : α → β) (slices : List SliceSpec) (xs : List α) :
    keep slices (xs.map f) = (keep slices xs).map f := by
  induction slices generalizing xs with
  | nil => cases xs <;> rfl
  | cons s slices ih =>
    cases xs with
    | nil => cases s <;> rfl
    | cons x xs => cases s <;> simp [keep, ih]

theorem after_first_kept_index (k : Nat) (slices : List SliceSpec) :
    after_first_kept_all_full (SliceSpec.index k :: slices) =
      after_first_kept_all_full slices := by
  unfold after_first_kept_all_full
  cases hf : first_kept slices <;> simp [first_kept, SliceSpec.is_index, hf]

theorem after_first_kept_kept (s : SliceSpec) (slices : List SliceSpec)
    (hs : s.is_index = false) :
    after_first_kept_all_full (s :: slices) = slices.all SliceSpec.is_full := by
  simp [after_first_kept_all_full, first_kept, hs]

theorem right_weights_keep (slices : List SliceSpec) (ms : List _storage_t)
    (h : slices.length = ms.length)
    (hc : kept_count slices = 0 ∨ after_first_kept_all_full slices = true) :
    row_major_weights ((sub_slots slices ms).map _storage_t.extent) =
      keep slices (row_major_weights (ms.map _storage_t.extent)) := by
  induction slices generalizing ms with
  | nil => cases ms <;> rfl
  | cons s slices ih =>
    cases ms with
    | nil => simp at h
    | cons m ms =>
      have h1 : slices.length = ms.length := by simpa using h
      rw [List.map_cons, row_major_weights_cons]
      cases hs : s.is_index with
      | true =>
        obtain ⟨k, rfl⟩ : ∃ k, s = SliceSpec.index k := by
          cases s with
          | index k => exact ⟨k, rfl⟩
          | range lo hi => simp [SliceSpec.is_index] at hs
          | full => simp [SliceSpec.is_index] at hs
        rw [kept_count_cons, after_first_kept_index] at hc
        simp only [SliceSpec.is_index, if_true, Nat.add_zero] at hc
        simp only [sub_slots, keep]
        exact ih ms h1 hc
      | false =>
        have hall : slices.all SliceSpec.is_full = true := by
          rw [kept_count_cons, hs, after_first_kept_kept s slices hs] at hc
          rcases hc with hc | hc
          · simp at hc
          · exact hc
        have hk : keep (s :: slices)
            ((List.map _storage_t.extent ms).prod ::
              row_major_weights (List.map _storage_t.extent ms)) =
            (List.map _storage_t.extent ms).prod ::
              row_major_weights (List.map _storage_t.extent ms) :=
          keep_of_all_full_cons s slices _ _ hs hall
            (by rw [row_major_weights_length, List.length_map]; exact h1)
        rw [hk]
        cases s with
        | index k => simp [SliceSpec.is_index] at hs
        | range lo hi =>
          simp only [sub_slots, List.map_cons, row_major_weights_cons,
            sub_slots_values_all_full slices ms hall h1]
        | full =>
          simp only [sub_slots, List.map_cons, row_major_weights_cons,
            sub_slots_values_all_full slices ms hall h1]

theorem before_last_kept_index (k : Nat) (slices : List SliceSpec) :
    before_last_kept_all_full (SliceSpec.index k :: slices) = false := by
  unfold before_last_kept_all_full
  cases hl : last_kept slices <;>
    simp [last_kept, SliceSpec.is_index, SliceSpec.is_full, hl, List.take_succ_cons]

theorem before_last_kept_range (lo hi : Nat) (slices : List SliceSpec)
    (h : before_last_kept_all_full (SliceSpec.range lo hi :: slices) = true) :
    kept_count slices = 0 := by
  unfold before_last_kept_all_full at h
  cases hl : last_kept slices with
  | none => exact (last_kept_eq_none_iff slices).mp hl
  | some p => simp [last_kept, SliceSpec.is_full, hl, List.take_succ_cons] at h

theorem before_last_kept_full (slices : List SliceSpec)
    (h : before_last_kept_all_full (SliceSpec.full :: slices) = true) :
    kept_count slices = 0 ∨ before_last_kept_all_full slices = true := by
  unfold before_last_kept_all_full at h ⊢
  cases hl : last_kept slices with
  | none => left; exact (last_kept_eq_none_iff slices).mp hl
  | some p =>
    right
    simpa [last_kept, SliceSpec.is_full, hl, List.take_succ_cons] using h

theorem left_weights_keep (slices : List SliceSpec) (ms : List _storage_t)
    (h : slices.length = ms.length)
    (hc : kept_count slices = 0 ∨ before_last_kept_all_full slices = true) :
    column_major_weights ((sub_slots slices ms).map _storage_t.extent) =
      keep slices (column_major_weights (ms.map _storage_t.extent)) := by
  induction slices generalizing ms with
  | nil => cases ms <;> rfl
  | cons s slices ih =>
    cases ms with
    | nil => simp at h
    | cons m ms =>
      have h1 : slices.length = ms.length := by simpa using h
      rw [List.map_cons, column_major_weights_cons]
      cases s with
      | index k =>
        have h0 : kept_count slices = 0 := by
          rcases hc with hc | hc
          · rw [kept_count_cons] at hc; simpa [SliceSpec.is_index] using hc
          · rw [before_last_kept_index] at hc; cases hc
        simp only [sub_slots, keep]
        rw [sub_slots_of_no_kept slices ms h0, keep_of_no_kept slices _ h0]
        rfl
      | range lo hi =>
        have h0 : kept_count slices = 0 := by
          rcases hc with hc | hc
          · rw [kept_count_cons] at hc; simp [SliceSpec.is_index] at hc
          · exact before_last_kept_range lo hi slices hc
        simp only [sub_slots, keep]
        rw [sub_slots_of_no_kept slices ms h0, keep_of_no_kept slices _ h0]
        rfl
      | full =>
        have hc1 : kept_count slices = 0 ∨ before_last_kept_all_full slices = true := by
          rcases hc with hc | hc
          · rw [kept_count_cons] at hc; simp [SliceSpec.is_index] at hc
          · exact before_last_kept_full slices hc
        have hext : _storage_t.extent
            (if m.Extent = dynamic_extent then ⟨m.Extent, m.value⟩ else ⟨m.Extent, 0⟩) =
            m.extent := by
          by_cases hm : m.Extent = dynamic_extent
          · simp [_storage_t.extent, hm]
          · simp [_storage_t.extent, hm]
        simp only [sub_slots, keep, List.map_cons, column_major_weights_cons, hext]
        rw [ih ms h1 hc1, keep_map]

/-! ## submdspan: element addressing -/

theorem source_index_length (slices : List SliceSpec) (j : List Nat)
    (hj : j.length = kept_count slices) :
    (source_index slices j).length = slices.length := by
  induction slices generalizing j with
  | nil => rfl
  | cons s slices ih =>
    rw [kept_count_cons] at hj
    cases s with
    | index k =>
      simp only [source_index, List.length_cons]
      rw [ih j (by simpa [SliceSpec.is_index] using hj)]
    | range lo hi =>
      cases j with
      | nil => simp [SliceSpec.is_index] at hj
      | cons jm j =>
        simp only [source_index, List.length_cons]
        rw [ih j (by simpa [SliceSpec.is_index] using hj)]
    | full =>
      cases j with
      | nil => simp [SliceSpec.is_index] at hj
      | cons jm j =>
        simp only [source_index, List.length_cons]
        rw [ih j (by simpa [SliceSpec.is_index] using hj)]

theorem dot_split (slices : List SliceSpec) (W j : List Nat)
    (hl : slices.length = W.length) (hj : j.length = kept_count slices) :
    dot (source_index slices j) W =
      dot (slices.map SliceSpec.offset_arg) W + dot j (keep slices W) := by
  induction slices generalizing W j with
  | nil =>
    cases W with
    | nil => simp [source_index, dot, keep, dot_nil_right]
    | cons w W => simp at hl
  | cons s slices ih =>
    cases W with
    | nil => simp at hl
    | cons w W =>
      have hl1 : slices.length = W.length := by simpa using hl
      rw [kept_count_cons] at hj
      cases s with
      | index k =>
        simp only [source_index, List.map_cons, SliceSpec.offset_arg, dot, keep]
        rw [ih W j hl1 (by simpa [SliceSpec.is_index] using hj)]
        ring
      | range lo hi =>
        cases j with
        | nil => simp [SliceSpec.is_index] at hj
        | cons jm j =>
          simp only [source_index, List.map_cons, SliceSpec.offset_arg, dot, keep]
          rw [ih W j hl1 (by simpa [SliceSpec.is_index] using hj)]
          ring
      | full =>
        cases j with
        | nil => simp [SliceSpec.is_index] at hj
        | cons jm j =>
          simp only [source_index, List.map_cons, SliceSpec.offset_arg, dot, keep]
          rw [ih W j hl1 (by simpa [SliceSpec.is_index] using hj)]
          ring

theorem strides_dot (src : mdspan) (W : List Nat)
    (hW : ∀ r, r < W.length → src.stride r ≡ W.getD r 0 [MOD SIZE])
    (slices : List SliceSpec) (i : Nat) (Wt : List Nat) (hd : W.drop i = Wt)
    (hl : slices.length = Wt.length) (j : List Nat) :
    dot j (sub_strides src i slices) ≡ dot j (keep slices Wt) [MOD SIZE] := by
  induction slices generalizing i Wt j with
  | nil => cases Wt <;> exact Nat.ModEq.refl _
  | cons s slices ih =>
    cases Wt with
    | nil => simp at hl
    | cons w Wt =>
      have hl1 : slices.length = Wt.length := by simpa using hl
      obtain ⟨hget, hdrop⟩ := drop_eq_cons_get _ _ _ _ hd
      have hi : i < W.length := by
        by_contra hcon
        rw [List.drop_eq_nil_of_le (by omega)] at hd
        cases hd
      have hw : W.getD i 0 = w := by
        rw [List.getD_eq_getElem?_getD, ← List.get?_eq_getElem?, hget]
        rfl
      have hs : src.stride i ≡ w [MOD SIZE] := by
        have := hW i hi
        rwa [hw] at this
      cases s with
      | index k =>
        simp only [sub_strides, keep]
        exact ih (i + 1) Wt hdrop hl1 j
      | range lo hi =>
        simp only [sub_strides, keep]
        cases j with
        | nil => simp [dot_nil_left, Nat.ModEq]
        | cons jm j =>
          simp only [dot]
          exact (hs.mul_left jm).add (ih (i + 1) Wt hdrop hl1 j)
      | full =>
        simp only [sub_strides, keep]
        cases j with
        | nil => simp [dot_nil_left, Nat.ModEq]
        | cons jm j =>
          simp only [dot]
          exact (hs.mul_left jm).add (ih (i + 1) Wt hdrop hl1 j)

theorem mapping_call_modEq_dot (M : mapping_type) (idx : List Nat)
    (h : idx.length = M.extents.rank) : M.call idx ≡ dot idx (weights M) [MOD SIZE] := by
  cases M with
  | layout_left m => exact left_call_modEq_dot m idx h
  | layout_right m => exact right_call_modEq_dot m idx h
  | layout_stride m => exact stride_call_modEq_dot m idx

theorem mapping_call_lt (M : mapping_type) (idx : List Nat) : M.call idx < SIZE := by
  cases M with
  | layout_left m => exact left_call_lt m idx
  | layout_right m => exact right_call_lt m idx
  | layout_stride m => exact stride_call_lt m idx

theorem weights_length (M : mapping_type)
    (hwf : ∀ m, M = mapping_type.layout_stride m → m._strides.length = m._extents.rank) :
    (weights M).length = M.extents.rank := by
  cases M with
  | layout_left m =>
    simp only [weights, column_major_weights_length, values_length, mapping_type.extents]
  | layout_right m =>
    simp only [weights, row_major_weights_length, values_length, mapping_type.extents]
  | layout_stride m => exact hwf m rfl

theorem stride_modEq_weights (M : mapping_type) (hrank : M.extents.rank < SIZE) (r : Nat)
    (hr : r < M.extents.rank) : M.stride r ≡ (weights M).getD r 0 [MOD SIZE] := by
  cases M with
  | layout_left m =>
    simp only [weights, mapping_type.stride]
    rw [column_major_weights_getD _ _ (by rw [values_length]; exact hr),
      left_stride_eq m r (Nat.le_of_lt hr)]
    exact Nat.mod_modEq _ _
  | layout_right m =>
    simp only [weights, mapping_type.stride]
    rw [row_major_weights_getD _ _ (by rw [values_length]; exact hr),
      right_stride_eq m r hrank hr]
    exact Nat.mod_modEq _ _
  | layout_stride m => exact Nat.ModEq.refl _

theorem sub_call_modEq (src : mdspan) (slices : List SliceSpec) (j : List Nat)
    (M : mapping_type) (h : slices.length = src.rank) (hrank : src.rank < SIZE)
    (hwf : ∀ m, src._mapping = mapping_type.layout_stride m →
      m._strides.length = m._extents.rank)
    (hj : j.length = kept_count slices)
    (hcases :
      (is_layout_left src._mapping.layout_type slices (kept_count slices) = true ∧
          M = mapping_type.layout_left ⟨⟨sub_slots slices src.extents.m⟩⟩) ∨
        (is_layout_left src._mapping.layout_type slices (kept_count slices) = false ∧
          is_layout_right src._mapping.layout_type slices slices.length (kept_count slices) =
            true ∧
          M = mapping_type.layout_right ⟨⟨sub_slots slices src.extents.m⟩⟩) ∨
        (is_layout_left src._mapping.layout_type slices (kept_count slices) = false ∧
          is_layout_right src._mapping.layout_type slices slices.length (kept_count slices) =
            false ∧
          M = mapping_type.layout_stride
            ⟨⟨sub_slots slices src.extents.m⟩, sub_strides src 0 slices⟩)) :
    M.call j ≡ dot j (keep slices (weights src._mapping)) [MOD SIZE] := by
  have hlen : (sub_slots slices src.extents.m).length = kept_count slices :=
    sub_slots_length slices src.extents.m h
  rcases hcases with ⟨h1, hM⟩ | ⟨_, h2, hM⟩ | ⟨_, _, hM⟩
  · obtain ⟨hsl, hc⟩ := (is_layout_left_iff _ slices).mp h1
    subst hM
    obtain ⟨ptr, SM⟩ := src
    cases SM with
    | layout_left m =>
      have hcall := left_call_modEq_dot ⟨⟨sub_slots slices m._extents.m⟩⟩ j
        (by rw [hj]; exact hlen.symm)
      have hk := left_weights_keep slices m._extents.m h hc
      simp only [mapping_type.call, weights, extents.values] at hcall ⊢
      rw [← hk]
      exact hcall
    | layout_right m => cases hsl
    | layout_stride m => cases hsl
  · obtain ⟨hsl, hc⟩ := (is_layout_right_iff _ slices).mp h2
    subst hM
    obtain ⟨ptr, SM⟩ := src
    cases SM with
    | layout_left m => cases hsl
    | layout_right m =>
      have hcall := right_call_modEq_dot ⟨⟨sub_slots slices m._extents.m⟩⟩ j
        (by rw [hj]; exact hlen.symm)
      have hk := right_weights_keep slices m._extents.m h hc
      simp only [mapping_type.call, weights, extents.values] at hcall ⊢
      rw [← hk]
      exact hcall
    | layout_stride m => cases hsl
  · subst hM
    have hWl : (weights src._mapping).length = src.rank := weights_length _ hwf
    have hW : ∀ r, r < (weights src._mapping).length →
        src.stride r ≡ (weights src._mapping).getD r 0 [MOD SIZE] := by
      intro r hr
      rw [hWl] at hr
      exact stride_modEq_weights src._mapping hrank r hr
    refine (stride_call_modEq_dot _ j).trans ?_
    exact strides_dot src _ hW slices 0 _ (List.drop_zero _) (by rw [hWl]; exact h) j

/-- C3: `submdspan` preserves element addressing. For a source with any of the
three layouts, one slice spec per source dimension and a result index tuple
`j` with one index per kept dimension, the result data offset from the source
base plus the result mapping at `j` equals, in `size_t`, the source mapping at
the source index tuple (`k` at a single-index dimension, `lo + j_m` at a range
dimension, `j_m` at a full-extent dimension); when that sum does not overflow
`size_t` the two are equal and both views refer to the same element. -/
theorem submdspan_preserves_addressing (src : mdspan) (slices : List SliceSpec)
    (j : List Nat) (h : slices.length = src.rank) (hrank : src.rank < SIZE)
    (hwf : ∀ m, src._mapping = mapping_type.layout_stride m →
      m._strides.length = m._extents.rank)
    (hj : j.length = kept_count slices) :
    ∃ sub, submdspan src slices = some sub ∧ sub.rank = j.length ∧
      ((sub.data - src.data) + sub.mapping.call j) % SIZE =
        src.mapping.call (source_index slices j) ∧
      ((sub.data - src.data) + sub.mapping.call j < SIZE →
        (sub.data - src.data) + sub.mapping.call j =
          src.mapping.call (source_index slices j) ∧
        sub.call j = src.call (source_index slices j)) := by
  obtain ⟨M, hsub, hext, hcases⟩ := submdspan_cases src slices h
  have hM := sub_call_modEq src slices j M h hrank hwf hj hcases
  have hWl : (weights src._mapping).length = src.rank := weights_length _ hwf
  have hoff := mapping_call_modEq_dot src._mapping (slices.map SliceSpec.offset_arg)
    (by rw [List.length_map]; exact h)
  have hsi := mapping_call_modEq_dot src._mapping (source_index slices j)
    (by rw [source_index_length slices j hj]; exact h)
  have hsplit := dot_split slices (weights src._mapping) j (by rw [hWl]; exact h) hj
  have hkey : src._mapping.call (slices.map SliceSpec.offset_arg) + M.call j ≡
      src._mapping.call (source_index slices j) [MOD SIZE] := by
    refine (hoff.add hM).trans ?_
    rw [← hsplit]
    exact hsi.symm
  have hmod : (src._mapping.call (slices.map SliceSpec.offset_arg) + M.call j) % SIZE =
      src._mapping.call (source_index slices j) := by
    unfold Nat.ModEq at hkey
    rw [hkey, Nat.mod_eq_of_lt (mapping_call_lt _ _)]
  refine ⟨_, hsub, ?_, ?_, ?_⟩
  · simp only [mdspan.rank, hext, extents.rank]
    rw [hj]
    exact sub_slots_length slices src.extents.m h
  · simp only [mdspan.data, mdspan.mapping, Nat.add_sub_cancel_left]
    exact hmod
  · simp only [mdspan.data, mdspan.mapping, Nat.add_sub_cancel_left]
    intro hlt
    have heq : src._mapping.call (slices.map SliceSpec.offset_arg) + M.call j =
        src._mapping.call (source_index slices j) := by
      rw [← hmod, Nat.mod_eq_of_lt hlt]
    refine ⟨heq, ?_⟩
    simp only [mdspan.call, default_accessor.access]
    rw [← heq, Nat.add_assoc]

/-- C3 at a general-strided source with extents (4,5,6) and strides
(100,10,1), slices (full, range(1,3), 2) and result index (3,1): the result
and the source at (3,2,2) refer to the same element, at offset 322 from the
source base. -/
theorem submdspan_preserves_addressing_witness :
    [SliceSpec.full, SliceSpec.range 1 3, SliceSpec.index 2].length =
      (mdspan.mk 1000 (mapping_type.layout_stride
        ⟨⟨[⟨4, 0⟩, ⟨5, 0⟩, ⟨6, 0⟩]⟩, [100, 10, 1]⟩)).rank ∧
    (mdspan.mk 1000 (mapping_type.layout_stride
      ⟨⟨[⟨4, 0⟩, ⟨5, 0⟩, ⟨6, 0⟩]⟩, [100, 10, 1]⟩)).rank < SIZE ∧
    (∀ m, (mdspan.mk 1000 (mapping_type.layout_stride
        ⟨⟨[⟨4, 0⟩, ⟨5, 0⟩, ⟨6, 0⟩]⟩, [100, 10, 1]⟩))._mapping =
        mapping_type.layout_stride m →
      m._strides.length = m._extents.rank) ∧
    [3, 1].length = kept_count [SliceSpec.full, SliceSpec.range 1 3, SliceSpec.index 2] ∧
    source_index [SliceSpec.full, SliceSpec.range 1 3, SliceSpec.index 2] [3, 1] = [3, 2, 2] ∧
    (mdspan.mk 1000 (mapping_type.layout_stride
      ⟨⟨[⟨4, 0⟩, ⟨5, 0⟩, ⟨6, 0⟩]⟩, [100, 10, 1]⟩)).call [3, 2, 2] = 1322 ∧
    ∃ sub, submdspan (mdspan.mk 1000 (mapping_type.layout_stride
          ⟨⟨[⟨4, 0⟩, ⟨5, 0⟩, ⟨6, 0⟩]⟩, [100, 10, 1]⟩))
        [SliceSpec.full, SliceSpec.range 1 3, SliceSpec.index 2] = some sub ∧
      sub.call [3, 1] = (mdspan.mk 1000 (mapping_type.layout_stride
          ⟨⟨[⟨4, 0⟩, ⟨5, 0⟩, ⟨6, 0⟩]⟩, [100, 10, 1]⟩)).call
        (source_index [SliceSpec.full, SliceSpec.range 1 3, SliceSpec.index 2] [3, 1]) := by
  have hwf : ∀ m, (mdspan.mk 1000 (mapping_type.layout_stride
        ⟨⟨[⟨4, 0⟩, ⟨5, 0⟩, ⟨6, 0⟩]⟩, [100, 10, 1]⟩))._mapping =
        mapping_type.layout_stride m →
      m._strides.length = m._extents.rank := by
    intro m hm
    have hm1 := mapping_type.layout_stride.inj hm
    rw [← hm1]
    decide
  refine ⟨by decide, by decide, hwf, by decide, by decide, by decide, ?_⟩
  obtain ⟨sub, hsub, _, _, hex⟩ := submdspan_preserves_addressing
    (mdspan.mk 1000 (mapping_type.layout_stride
      ⟨⟨[⟨4, 0⟩, ⟨5, 0⟩, ⟨6, 0⟩]⟩, [100, 10, 1]⟩))
    [SliceSpec.full, SliceSpec.range 1 3, SliceSpec.index 2] [3, 1]
    (by decide) (by decide) hwf (by decide)
  have hc : submdspan (mdspan.mk 1000 (mapping_type.layout_stride
        ⟨⟨[⟨4, 0⟩, ⟨5, 0⟩, ⟨6, 0⟩]⟩, [100, 10, 1]⟩))
      [SliceSpec.full, SliceSpec.range 1 3, SliceSpec.index 2] =
      some ⟨1012, mapping_type.layout_stride
        ⟨⟨[⟨4, 0⟩, ⟨dynamic_extent, 2⟩]⟩, [100, 10]⟩⟩ := by decide
  rw [hc] at hsub
  have hs := Option.some.inj hsub
  subst hs
  exact ⟨_, hc, (hex (by decide)).2⟩

/-! ## Meaning of the reference notions for submdspan -/

theorem first_kept_eq_some_iff (slices : List SliceSpec) (p : Nat) :
    first_kept slices = some p ↔
      p < slices.length ∧ is_index_at slices p = false ∧
        ∀ q, q < p → is_index_at slices q = true := by
  induction slices generalizing p with
  | nil => simp [first_kept]
  | cons s slices ih =>
    cases hs : s.is_index with
    | true =>
      cases p with
      | zero =>
        simp only [first_kept, hs, if_true, is_index_at_zero]
        constructor
        · intro h
          cases hf : first_kept slices <;> simp [hf] at h
        · intro h; simp at h
      | succ p =>
        simp only [first_kept, hs, if_true, is_index_at_succ, List.length_cons,
          Nat.add_lt_add_iff_right]
        have hmap : Option.map (fun p => p + 1) (first_kept slices) = some (p + 1) ↔
            first_kept slices = some p := by
          cases hf : first_kept slices <;> simp
        rw [hmap, ih p]
        constructor
        · rintro ⟨h1, h2, h3⟩
          refine ⟨h1, h2, ?_⟩
          intro q hq
          cases q with
          | zero => rw [is_index_at_zero]; exact hs
          | succ q => rw [is_index_at_succ]; exact h3 q (by omega)
        · rintro ⟨h1, h2, h3⟩
          refine ⟨h1, h2, ?_⟩
          intro q hq
          have := h3 (q + 1) (by omega)
          rwa [is_index_at_succ] at this
    | false =>
      simp only [first_kept, hs, Bool.false_eq_true, if_false, Option.some.injEq]
      constructor
      · intro h
        subst h
        exact ⟨by simp, by rw [is_index_at_zero]; exact hs, fun q hq => absurd hq (by omega)⟩
      · rintro ⟨_, _, h3⟩
        cases p with
        | zero => rfl
        | succ p =>
          have := h3 0 (by omega)
          rw [is_index_at_zero, hs] at this
          cases this

theorem all_index_of_no_kept (slices : List SliceSpec) (h : kept_count slices = 0) (q : Nat)
    (hq : q < slices.length) : is_index_at slices q = true := by
  induction slices generalizing q with
  | nil => simp at hq
  | cons s slices ih =>
    rw [kept_count_cons] at h
    cases hs : s.is_index with
    | false => rw [hs] at h; simp at h
    | true =>
      rw [hs] at h
      cases q with
      | zero => rw [is_index_at_zero]; exact hs
      | succ q =>
        rw [is_index_at_succ]
        exact ih (by simpa using h) q (by simpa using hq)

theorem last_kept_eq_some_iff (slices : List SliceSpec) (p : Nat) :
    last_kept slices = some p ↔
      p < slices.length ∧ is_index_at slices p = false ∧
        ∀ q, p < q → q < slices.length → is_index_at slices q = true := by
  induction slices generalizing p with
  | nil => simp [last_kept]
  | cons s slices ih =>
    cases hl : last_kept slices with
    | some r =>
      obtain ⟨hr1, hr2, hr3⟩ := (ih r).mp hl
      simp only [last_kept, hl, Option.some.injEq, List.length_cons]
      cases p with
      | zero =>
        constructor
        · intro h; omega
        · rintro ⟨_, _, h3⟩
          have := h3 (r + 1) (by omega) (by omega)
          rw [is_index_at_succ, hr2] at this
          cases this
      | succ p =>
        rw [is_index_at_succ]
        constructor
        · intro h
          have hpr : p = r := by omega
          subst hpr
          refine ⟨by omega, hr2, ?_⟩
          intro q hq1 hq2
          cases q with
          | zero => omega
          | succ q => rw [is_index_at_succ]; exact hr3 q (by omega) (by omega)
        · rintro ⟨h1, h2, h3⟩
          have : last_kept slices = some p := by
            rw [ih p]
            refine ⟨by omega, h2, ?_⟩
            intro q hq1 hq2
            have := h3 (q + 1) (by omega) (by omega)
            rwa [is_index_at_succ] at this
          rw [hl] at this
          have := Option.some.inj this
          omega
    | none =>
      have h0 := (last_kept_eq_none_iff slices).mp hl
      have hall := all_index_of_no_kept slices h0
      simp only [last_kept, hl, List.length_cons]
      cases p with
      | zero =>
        rw [is_index_at_zero]
        cases hs : s.is_index with
        | true => simp
        | false =>
          simp only [Bool.false_eq_true, if_false, true_iff]
          refine ⟨by omega, trivial, ?_⟩
          intro q hq1 hq2
          cases q with
          | zero => omega
          | succ q => rw [is_index_at_succ]; exact hall q (by omega)
      | succ p =>
        rw [is_index_at_succ]
        constructor
        · intro h
          cases hs : s.is_index <;> simp [hs] at h
        · rintro ⟨h1, h2, _⟩
          rw [hall p (by omega)] at h2
          cases h2

theorem mem_kept_positions (slices : List SliceSpec) (i r : Nat) :
    r ∈ kept_positions i slices ↔
      i ≤ r ∧ r < i + slices.length ∧ is_index_at slices (r - i) = false := by
  induction slices generalizing i with
  | nil =>
    simp only [kept_positions, List.not_mem_nil, List.length_nil, Nat.add_zero, false_iff]
    rintro ⟨h1, h2, _⟩
    omega
  | cons s slices ih =>
    have hstep : ∀ (hs : Bool), s.is_index = hs →
        ((hs = false ∧ r = i) ∨ r ∈ kept_positions (i + 1) slices ↔
          i ≤ r ∧ r < i + (s :: slices).length ∧ is_index_at (s :: slices) (r - i) = false) := by
      intro hs hsi
      rw [ih (i + 1)]
      simp only [List.length_cons]
      constructor
      · rintro (⟨h1, h2⟩ | ⟨h1, h2, h3⟩)
        · subst h2
          refine ⟨le_refl _, by omega, ?_⟩
          rw [Nat.sub_self, is_index_at_zero, hsi, h1]
        · refine ⟨by omega, by omega, ?_⟩
          have : r - i = (r - (i + 1)) + 1 := by omega
          rw [this, is_index_at_succ]
          exact h3
      · rintro ⟨h1, h2, h3⟩
        rcases Nat.eq_or_lt_of_le h1 with h4 | h4
        · left
          subst h4
          rw [Nat.sub_self, is_index_at_zero, hsi] at h3
          exact ⟨h3, rfl⟩
        · right
          refine ⟨by omega, by omega, ?_⟩
          have : r - i = (r - (i + 1)) + 1 := by omega
          rw [this, is_index_at_succ] at h3
          exact h3
    cases s with
    | index k =>
      have := hstep true rfl
      simp only [kept_positions]
      rw [← this]
      simp
    | range lo hi =>
      have := hstep false rfl
      simp only [kept_positions, List.mem_cons]
      rw [← this]
      simp
    | full =>
      have := hstep false rfl
      simp only [kept_positions, List.mem_cons]
      rw [← this]
      simp

theorem kept_positions_sorted (slices : List SliceSpec) (i : Nat) :
    (kept_positions i slices).Pairwise (fun a b => a < b) := by
  induction slices generalizing i with
  | nil => exact List.Pairwise.nil
  | cons s slices ih =>
    have hgt : ∀ b, b ∈ kept_positions (i + 1) slices → i < b := by
      intro b hb
      have := ((mem_kept_positions slices (i + 1) b).mp hb).1
      omega
    cases s with
    | index k => exact ih (i + 1)
    | range lo hi => exact List.Pairwise.cons hgt (ih (i + 1))
    | full => exact List.Pairwise.cons hgt (ih (i + 1))

/-! ## required_span_size of layout_right and layout_left -/

theorem foldl_range_prod (e : extents) (n : Nat) (hn : n ≤ e.rank) :
    (List.range n).foldl (fun acc I => (acc * e.get I) % SIZE) 1 =
      (e.values.take n).prod % SIZE := by
  induction n with
  | zero => rfl
  | succ n ih =>
    have hlt : n < e.values.length := by rw [values_length]; omega
    rw [List.range_succ, List.foldl_append, ih (by omega)]
    simp only [List.foldl_cons, List.foldl_nil, extents.get, extent_eq_getD]
    rw [List.take_succ, getElem?_eq_some_getD _ _ hlt, List.prod_append, Nat.mod_mul_mod]
    simp [Option.toList]

/-- C11: for every row-major and every column-major mapping,
`required_span_size()` is the product of all extents in `size_t`; it is 1 for
rank 0, and it is the exact product when the product fits `size_t`. -/
theorem required_span_size_eq_prod (e : extents) :
    (layout_right.mapping.mk e).required_span_size = e.values.prod % SIZE ∧
    (layout_left.mapping.mk e).required_span_size = e.values.prod % SIZE ∧
    (e.rank = 0 → (layout_right.mapping.mk e).required_span_size = 1 ∧
      (layout_left.mapping.mk e).required_span_size = 1) ∧
    (e.values.prod < SIZE → (layout_right.mapping.mk e).required_span_size = e.values.prod ∧
      (layout_left.mapping.mk e).required_span_size = e.values.prod) := by
  have h := foldl_range_prod e e.rank (le_refl _)
  rw [List.take_of_length_le (by rw [values_length])] at h
  have hr : (layout_right.mapping.mk e).required_span_size = e.values.prod % SIZE := h
  have hl : (layout_left.mapping.mk e).required_span_size = e.values.prod % SIZE := h
  refine ⟨hr, hl, ?_, ?_⟩
  · intro h0
    have hnil : e.values = [] := List.eq_nil_of_length_eq_zero (by rw [values_length]; exact h0)
    rw [hr, hl, hnil]
    exact ⟨rfl, rfl⟩
  · intro hlt
    rw [hr, hl, Nat.mod_eq_of_lt hlt]
    exact ⟨rfl, rfl⟩

/-- C11 at extents (2,3,4) the required span size is 24, and at rank 0 it
is 1. -/
theorem required_span_size_eq_prod_witness :
    (layout_right.mapping.mk ⟨[⟨2, 0⟩, ⟨3, 0⟩, ⟨4, 0⟩]⟩).required_span_size = 24 ∧
    (layout_left.mapping.mk ⟨[⟨2, 0⟩, ⟨dynamic_extent, 3⟩, ⟨4, 0⟩]⟩).required_span_size = 24 ∧
    (layout_right.mapping.mk ⟨[]⟩).required_span_size = 1 ∧
    (layout_left.mapping.mk ⟨[]⟩).required_span_size = 1 :=
  ⟨((required_span_size_eq_prod ⟨[⟨2, 0⟩, ⟨3, 0⟩, ⟨4, 0⟩]⟩).2.2.2 (by decide)).1,
    by decide,
    ((required_span_size_eq_prod ⟨[]⟩).2.2.1 rfl).1,
    ((required_span_size_eq_prod ⟨[]⟩).2.2.1 rfl).2⟩

/-! ## required_span_size of layout_stride -/

theorem foldl_max_ge_init (xs : List Nat) (x : Nat) : x ≤ xs.foldl max x := by
  induction xs generalizing x with
  | nil => exact le_refl _
  | cons y ys ih =>
    simp only [List.foldl_cons]
    exact le_trans (le_max_left x y) (ih _)

theorem foldl_max_ge_mem (xs : List Nat) (x y : Nat) (hy : y ∈ xs) : y ≤ xs.foldl max x := by
  induction xs generalizing x with
  | nil => simp at hy
  | cons z zs ih =>
    simp only [List.foldl_cons]
    rcases List.mem_cons.mp hy with h | h
    · rw [h]
      exact le_trans (le_max_right x z) (foldl_max_ge_init zs _)
    · exact ih _ h

theorem foldl_max_mem (xs : List Nat) (x : Nat) : xs.foldl max x = x ∨ xs.foldl max x ∈ xs := by
  induction xs generalizing x with
  | nil => left; rfl
  | cons z zs ih =>
    simp only [List.foldl_cons]
    rcases ih (max x z) with h | h
    · rcases max_choice x z with h1 | h1
      · left; rw [h, h1]
      · right; rw [h, h1]; exact List.mem_cons_self _ _
    · right; exact List.mem_cons_of_mem _ h

theorem stride_required_span_size_zero (s : layout_stride.mapping)
    (h : ∃ r, r < s._extents.rank ∧ s._extents.extent r = 0) : s.required_span_size = 0 := by
  obtain ⟨r, hr, h0⟩ := h
  unfold layout_stride.mapping.required_span_size
  rw [if_pos]
  rw [List.any_eq_true]
  exact ⟨r, List.mem_range.mpr hr, by simpa [extents.get] using h0⟩

theorem stride_required_span_size_pos (s : layout_stride.mapping)
    (h : ∀ r, r < s._extents.rank → s._extents.extent r ≠ 0) :
    s.required_span_size = std_max (1 :: (List.range s._extents.rank).map
      fun I => (s._extents.extent I * s.stride I) % SIZE) := by
  unfold layout_stride.mapping.required_span_size
  rw [if_neg]
  · rfl
  · rw [List.any_eq_true]
    rintro ⟨r, hr, h0⟩
    exact h r (List.mem_range.mp hr) (by simpa [extents.get] using h0)

theorem stride_required_span_size_max (s : layout_stride.mapping)
    (h : ∀ r, r < s._extents.rank → s._extents.extent r ≠ 0) :
    1 ≤ s.required_span_size ∧
    (∀ r, r < s._extents.rank →
      (s._extents.extent r * s.stride r) % SIZE ≤ s.required_span_size) ∧
    (s.required_span_size = 1 ∨
      ∃ r, r < s._extents.rank ∧
        s.required_span_size = (s._extents.extent r * s.stride r) % SIZE) := by
  rw [stride_required_span_size_pos s h]
  simp only [std_max]
  refine ⟨foldl_max_ge_init _ _, ?_, ?_⟩
  · intro r hr
    apply foldl_max_ge_mem
    exact List.mem_map.mpr ⟨r, List.mem_range.mpr hr, rfl⟩
  · rcases foldl_max_mem ((List.range s._extents.rank).map
        fun I => (s._extents.extent I * s.stride I) % SIZE) 1 with h1 | h1
    · left; exact h1
    · right
      obtain ⟨r, hr, hrv⟩ := List.mem_map.mp h1
      exact ⟨r, List.mem_range.mp hr, hrv.symm⟩

/-- C12: for every general-strided mapping, `required_span_size()` is 0 if any
extent is 0; otherwise it is the maximum of 1 and of the `size_t` products
`extent(r) * stride(r)` over all dimensions `r`: it is at least 1 and at least
every product, and it is 1 or one of the products; so it is 1 for rank 0. -/
theorem stride_required_span_size_spec (s : layout_stride.mapping) :
    ((∃ r, r < s._extents.rank ∧ s._extents.extent r = 0) → s.required_span_size = 0) ∧
    ((∀ r, r < s._extents.rank → s._extents.extent r ≠ 0) →
      1 ≤ s.required_span_size ∧
      (∀ r, r < s._extents.rank →
        (s._extents.extent r * s.stride r) % SIZE ≤ s.required_span_size) ∧
      (s.required_span_size = 1 ∨
        ∃ r, r < s._extents.rank ∧
          s.required_span_size = (s._extents.extent r * s.stride r) % SIZE)) ∧
    (s._extents.rank = 0 → s.required_span_size = 1) := by
  refine ⟨stride_required_span_size_zero s, stride_required_span_size_max s, ?_⟩
  · intro h0
    rw [stride_required_span_size_pos s (fun r hr => absurd hr (by omega)), h0]
    rfl

/-- C12 at extents (2,3): with strides (3,1) the value is 6, with an extent
0 it is 0, and with rank 0 it is 1. -/
theorem stride_required_span_size_spec_witness :
    (layout_stride.mapping.mk ⟨[⟨2, 0⟩, ⟨3, 0⟩]⟩ [3, 1]).required_span_size = 6 ∧
    1 ≤ (layout_stride.mapping.mk ⟨[⟨2, 0⟩, ⟨3, 0⟩]⟩ [3, 1]).required_span_size ∧
    (layout_stride.mapping.mk ⟨[⟨2, 0⟩, ⟨0, 0⟩]⟩ [3, 1]).required_span_size = 0 ∧
    (layout_stride.mapping.mk ⟨[]⟩ []).required_span_size = 1 :=
  ⟨by decide,
    ((stride_required_span_size_spec ⟨⟨[⟨2, 0⟩, ⟨3, 0⟩]⟩, [3, 1]⟩).2.1 (by decide)).1,
    (stride_required_span_size_spec ⟨⟨[⟨2, 0⟩, ⟨0, 0⟩]⟩, [3, 1]⟩).1 ⟨1, by decide, by decide⟩,
    (stride_required_span_size_spec ⟨⟨[]⟩, []⟩).2.2 rfl⟩

/-! ## layout_stride: offsets against required_span_size -/

/-- C13, as stated, fails: the general-strided mapping with extents (2,3) and
strides (3,2) maps the in-bounds index (1,2) to offset 7, and its
`required_span_size()` is 6; nothing overflows. -/
theorem stride_call_not_lt_required_span_size :
    (∀ r, r < 2 → [1, 2].getD r 0 <
      (layout_stride.mapping.mk ⟨[⟨2, 0⟩, ⟨3, 0⟩]⟩ [3, 2])._extents.extent r) ∧
    (∀ r, r < 2 →
      (layout_stride.mapping.mk ⟨[⟨2, 0⟩, ⟨3, 0⟩]⟩ [3, 2])._extents.extent r *
        (layout_stride.mapping.mk ⟨[⟨2, 0⟩, ⟨3, 0⟩]⟩ [3, 2]).stride r < SIZE) ∧
    (layout_stride.mapping.mk ⟨[⟨2, 0⟩, ⟨3, 0⟩]⟩ [3, 2]).call [1, 2] = 7 ∧
    (layout_stride.mapping.mk ⟨[⟨2, 0⟩, ⟨3, 0⟩]⟩ [3, 2]).required_span_size = 6 ∧
    ¬ ((layout_stride.mapping.mk ⟨[⟨2, 0⟩, ⟨3, 0⟩]⟩ [3, 2]).call [1, 2] <
      (layout_stride.mapping.mk ⟨[⟨2, 0⟩, ⟨3, 0⟩]⟩ [3, 2]).required_span_size) := by
  refine ⟨by decide, by decide, by decide, by decide, by decide⟩

theorem chain_sum_lt (i e s : Nat → Nat) (a : Nat) (rest : List Nat)
    (hc : (a :: rest).Chain' (fun x y => e y * s y ≤ s x))
    (hin : ∀ x, x ∈ a :: rest → i x < e x) :
    ((a :: rest).map fun r => i r * s r).sum < max 1 (e a * s a) := by
  induction rest generalizing a with
  | nil =>
    have hia := hin a (List.mem_cons_self _ _)
    simp only [List.map_cons, List.map_nil, List.sum_cons, List.sum_nil, Nat.add_zero]
    rcases Nat.eq_zero_or_pos (s a) with h0 | hpos
    · rw [h0]; simp
    · exact lt_of_lt_of_le (Nat.mul_lt_mul_of_pos_right hia hpos) (le_max_right _ _)
  | cons b rest ih =>
    have hia := hin a (List.mem_cons_self _ _)
    obtain ⟨hab, hc1⟩ := List.chain'_cons.mp hc
    have ih1 := ih b hc1 (fun x hx => hin x (List.mem_cons_of_mem _ hx))
    rw [List.map_cons, List.sum_cons]
    rcases Nat.eq_zero_or_pos (s a) with h0 | hpos
    · rw [h0] at hab
      have hb0 : e b * s b = 0 := Nat.le_zero.mp hab
      rw [hb0] at ih1
      have hz : ((b :: rest).map fun r => i r * s r).sum = 0 := by
        have : max 1 0 = 1 := rfl
        rw [this] at ih1
        omega
      rw [hz, h0]
      simp
    · have hlt : ((b :: rest).map fun r => i r * s r).sum < s a := by
        refine lt_of_lt_of_le ih1 ?_
        exact max_le hpos hab
      have hle : (i a + 1) * s a ≤ e a * s a := Nat.mul_le_mul_right _ hia
      have hexp : (i a + 1) * s a = i a * s a + s a := by ring
      refine lt_of_lt_of_le ?_ (le_max_right _ _)
      omega

theorem dot_eq_sum_range (idx ws : List Nat) :
    dot idx ws = ((List.range idx.length).map fun r => idx.getD r 0 * ws.getD r 0).sum := by
  induction idx generalizing ws with
  | nil => simp [dot_nil_left]
  | cons a rest ih =>
    have e1 := dot_cons_drop a rest ws 0
    simp only [List.drop_zero, Nat.zero_add] at e1
    rw [e1, ih, List.length_cons, List.range_succ_eq_map, List.map_cons, List.sum_cons,
      List.map_map]
    congr 2
    apply List.map_congr_left
    intro r _
    cases ws with
    | nil => simp
    | cons w ws => simp

/-- C13 as amended: for every general-strided mapping whose dimensions can be
ordered so that each stride is at least `extent * stride` of the next
dimension in the order, and every in-bounds index tuple, the offset is
strictly less than `required_span_size()`, provided no product
`extent(r) * stride(r)` overflows `size_t`. -/
theorem stride_call_lt_required_span_size (s : layout_stride.mapping) (idx order : List Nat)
    (hlen : idx.length = s._extents.rank)
    (hin : ∀ r, r < s._extents.rank → idx.getD r 0 < s._extents.extent r)
    (hperm : order.Perm (List.range s._extents.rank))
    (hnest : order.Chain' (fun a b => s._extents.extent b * s.stride b ≤ s.stride a))
    (hno : ∀ r, r < s._extents.rank → s._extents.extent r * s.stride r < SIZE) :
    s.call idx < s.required_span_size := by
  have hne : ∀ r, r < s._extents.rank → s._extents.extent r ≠ 0 := by
    intro r hr
    have := hin r hr
    omega
  obtain ⟨h1, hge, hmem⟩ := stride_required_span_size_max s hne
  have hmemo : ∀ x, x ∈ order → x < s._extents.rank := by
    intro x hx
    exact List.mem_range.mp (hperm.mem_iff.mp hx)
  have hdot : dot idx s._strides =
      (order.map fun r => idx.getD r 0 * s.stride r).sum := by
    rw [dot_eq_sum_range, hlen]
    exact ((hperm.map _).sum_eq).symm
  have hbound : dot idx s._strides < s.required_span_size := by
    rw [hdot]
    cases order with
    | nil => simpa using h1
    | cons a rest =>
      have ha := hmemo a (List.mem_cons_self _ _)
      refine lt_of_lt_of_le
        (chain_sum_lt (fun r => idx.getD r 0) s._extents.extent s.stride a rest hnest
          (fun x hx => hin x (hmemo x hx))) ?_
      refine max_le h1 ?_
      have := hge a ha
      rwa [Nat.mod_eq_of_lt (hno a ha)] at this
  have hrss : s.required_span_size < SIZE := by
    rcases hmem with h | ⟨r, _, h⟩
    · rw [h]; decide
    · rw [h]; exact Nat.mod_lt _ (by decide)
  have hcall : s.call idx = dot idx s._strides :=
    eq_of_modEq_of_lt (stride_call_modEq_dot s idx) (stride_call_lt s idx) (by omega)
  rw [hcall]
  exact hbound

/-- C13 as amended, at extents (2,3) with the column-major strides (1,2), the
order (1,0) of the dimensions and the index (1,2): offset 5 is below the
required span size 6. -/
theorem stride_call_lt_required_span_size_witness :
    [1, 2].length = (layout_stride.mapping.mk ⟨[⟨2, 0⟩, ⟨3, 0⟩]⟩ [1, 2])._extents.rank ∧
    (∀ r, r < (layout_stride.mapping.mk ⟨[⟨2, 0⟩, ⟨3, 0⟩]⟩ [1, 2])._extents.rank →
      [1, 2].getD r 0 <
        (layout_stride.mapping.mk ⟨[⟨2, 0⟩, ⟨3, 0⟩]⟩ [1, 2])._extents.extent r) ∧
    [1, 0].Perm (List.range
      (layout_stride.mapping.mk ⟨[⟨2, 0⟩, ⟨3, 0⟩]⟩ [1, 2])._extents.rank) ∧
    (layout_stride.mapping.mk ⟨[⟨2, 0⟩, ⟨3, 0⟩]⟩ [1, 2]).call [1, 2] = 5 ∧
    (layout_stride.mapping.mk ⟨[⟨2, 0⟩, ⟨3, 0⟩]⟩ [1, 2]).required_span_size = 6 ∧
    (layout_stride.mapping.mk ⟨[⟨2, 0⟩, ⟨3, 0⟩]⟩ [1, 2]).call [1, 2] <
      (layout_stride.mapping.mk ⟨[⟨2, 0⟩, ⟨3, 0⟩]⟩ [1, 2]).required_span_size :=
  ⟨by decide, by decide, List.Perm.swap 0 1 [], by decide, by decide,
    stride_call_lt_required_span_size ⟨⟨[⟨2, 0⟩, ⟨3, 0⟩]⟩, [1, 2]⟩ [1, 2] [1, 0]
      (by decide) (by decide) (List.Perm.swap 0 1 [])
      (List.chain'_cons.mpr ⟨by decide, List.chain'_singleton _⟩) (by decide)⟩

/-! ## Strides as distances -/

theorem dot_set_succ (idx ws : List Nat) (r : Nat) (hr : r < idx.length) :
    dot (idx.set r (idx.getD r 0 + 1)) ws = dot idx ws + ws.getD r 0 := by
  induction idx generalizing ws r with
  | nil => simp at hr
  | cons a rest ih =>
    have e1 := dot_cons_drop a rest ws 0
    simp only [List.drop_zero, Nat.zero_add] at e1
    cases r with
    | zero =>
      have e2 := dot_cons_drop (a + 1) rest ws 0
      simp only [List.drop_zero, Nat.zero_add] at e2
      simp only [List.set_cons_zero, List.getD_cons_zero]
      rw [e1, e2]
      ring
    | succ r =>
      have e2 := dot_cons_drop a (rest.set r (rest.getD r 0 + 1)) ws 0
      simp only [List.drop_zero, Nat.zero_add] at e2
      have hg : (ws.drop 1).getD r 0 = ws.getD (r + 1) 0 := by
        cases ws <;> simp
      simp only [List.set_cons_succ, List.getD_cons_succ]
      rw [e1, e2, ih (ws.drop 1) r (by simpa using hr), hg]
      ring

theorem call_set_succ (M : mapping_type) (hrank : M.extents.rank < SIZE) (r : Nat)
    (hr : r < M.extents.rank) (idx : List Nat) (hlen : idx.length = M.extents.rank) :
    M.call (idx.set r (idx.getD r 0 + 1)) = (M.call idx + M.stride r) % SIZE := by
  have h1 := mapping_call_modEq_dot M (idx.set r (idx.getD r 0 + 1))
    (by rw [List.length_set]; exact hlen)
  rw [dot_set_succ idx (weights M) r (by rw [hlen]; exact hr)] at h1
  have h2 := (mapping_call_modEq_dot M idx hlen).add (stride_modEq_weights M hrank r hr)
  have h3 := h1.trans h2.symm
  unfold Nat.ModEq at h3
  rw [← h3, Nat.mod_eq_of_lt (mapping_call_lt _ _)]

/-- C14: for every row-major mapping and every `r < rank`, `stride(r)` is the
product of `extent(r+1), ..., extent(rank-1)` in `size_t` (the exact product
when it fits, 1 for `r = rank-1`), and replacing `i[r]` by `i[r] + 1` in any
index tuple adds `stride(r)` to the offset in `size_t`, exactly when the sum
does not overflow. -/
theorem layout_right_stride_spec (m : layout_right.mapping) (r : Nat)
    (hrank : m._extents.rank < SIZE) (hr : r < m._extents.rank) :
    m.stride r = (m._extents.values.drop (r + 1)).prod % SIZE ∧
    ((m._extents.values.drop (r + 1)).prod < SIZE →
      m.stride r = (m._extents.values.drop (r + 1)).prod) ∧
    (r + 1 = m._extents.rank → m.stride r = 1) ∧
    ∀ idx : List Nat, idx.length = m._extents.rank →
      m.call (idx.set r (idx.getD r 0 + 1)) = (m.call idx + m.stride r) % SIZE ∧
      (m.call idx + m.stride r < SIZE →
        m.call (idx.set r (idx.getD r 0 + 1)) = m.call idx + m.stride r) := by
  have hs := right_stride_eq m r hrank hr
  refine ⟨hs, ?_, ?_, ?_⟩
  · intro hlt
    rw [hs, Nat.mod_eq_of_lt hlt]
  · intro hlast
    rw [hs, List.drop_eq_nil_of_le (by rw [values_length]; omega)]
    rfl
  · intro idx hlen
    have h := call_set_succ (mapping_type.layout_right m) hrank r hr idx hlen
    have h1 : m.call (idx.set r (idx.getD r 0 + 1)) = (m.call idx + m.stride r) % SIZE := h
    refine ⟨h1, ?_⟩
    intro hlt
    rw [h1, Nat.mod_eq_of_lt hlt]

/-- C14 at extents (2,3,4) and `r = 0`: the stride is 12, and the offsets of
(0,2,3) and (1,2,3) are 11 and 23. -/
theorem layout_right_stride_spec_witness :
    (layout_right.mapping.mk ⟨[⟨2, 0⟩, ⟨3, 0⟩, ⟨4, 0⟩]⟩)._extents.rank < SIZE ∧
    0 < (layout_right.mapping.mk ⟨[⟨2, 0⟩, ⟨3, 0⟩, ⟨4, 0⟩]⟩)._extents.rank ∧
    (layout_right.mapping.mk ⟨[⟨2, 0⟩, ⟨3, 0⟩, ⟨4, 0⟩]⟩).stride 0 = 12 ∧
    (layout_right.mapping.mk ⟨[⟨2, 0⟩, ⟨3, 0⟩, ⟨4, 0⟩]⟩).call [0, 2, 3] = 11 ∧
    (layout_right.mapping.mk ⟨[⟨2, 0⟩, ⟨3, 0⟩, ⟨4, 0⟩]⟩).call
        ([0, 2, 3].set 0 (([0, 2, 3] : List Nat).getD 0 0 + 1)) =
      (layout_right.mapping.mk ⟨[⟨2, 0⟩, ⟨3, 0⟩, ⟨4, 0⟩]⟩).call [0, 2, 3] +
        (layout_right.mapping.mk ⟨[⟨2, 0⟩, ⟨3, 0⟩, ⟨4, 0⟩]⟩).stride 0 :=
  ⟨by decide, by decide, by decide, by decide,
    ((layout_right_stride_spec ⟨⟨[⟨2, 0⟩, ⟨3, 0⟩, ⟨4, 0⟩]⟩⟩ 0 (by decide) (by decide)).2.2.2
      [0, 2, 3] (by decide)).2 (by decide)⟩

/-- C15: for every column-major mapping and every `r < rank`, `stride(r)` is
the product of `extent(0), ..., extent(r-1)` in `size_t` (the exact product
when it fits, 1 for `r = 0`), and replacing `i[r]` by `i[r] + 1` in any index
tuple adds `stride(r)` to the offset in `size_t`, exactly when the sum does
not overflow. -/
theorem layout_left_stride_spec (m : layout_left.mapping) (r : Nat)
    (hrank : m._extents.rank < SIZE) (hr : r < m._extents.rank) :
    m.stride r = (m._extents.values.take r).prod % SIZE ∧
    ((m._extents.values.take r).prod < SIZE →
      m.stride r = (m._extents.values.take r).prod) ∧
    (r = 0 → m.stride r = 1) ∧
    ∀ idx : List Nat, idx.length = m._extents.rank →
      m.call (idx.set r (idx.getD r 0 + 1)) = (m.call idx + m.stride r) % SIZE ∧
      (m.call idx + m.stride r < SIZE →
        m.call (idx.set r (idx.getD r 0 + 1)) = m.call idx + m.stride r) := by
  have hs := left_stride_eq m r (Nat.le_of_lt hr)
  refine ⟨hs, ?_, ?_, ?_⟩
  · intro hlt
    rw [hs, Nat.mod_eq_of_lt hlt]
  · intro h0
    rw [hs, h0]
    rfl
  · intro idx hlen
    have h := call_set_succ (mapping_type.layout_left m) hrank r hr idx hlen
    have h1 : m.call (idx.set r (idx.getD r 0 + 1)) = (m.call idx + m.stride r) % SIZE := h
    refine ⟨h1, ?_⟩
    intro hlt
    rw [h1, Nat.mod_eq_of_lt hlt]

/-- C15 at extents (2,3,4) and `r = 2`: the stride is 6, and the offsets of
(1,2,2) and (1,2,3) are 17 and 23. -/
theorem layout_left_stride_spec_witness :
    (layout_left.mapping.mk ⟨[⟨2, 0⟩, ⟨3, 0⟩, ⟨4, 0⟩]⟩)._extents.rank < SIZE ∧
    2 < (layout_left.mapping.mk ⟨[⟨2, 0⟩, ⟨3, 0⟩, ⟨4, 0⟩]⟩)._extents.rank ∧
    (layout_left.mapping.mk ⟨[⟨2, 0⟩, ⟨3, 0⟩, ⟨4, 0⟩]⟩).stride 2 = 6 ∧
    (layout_left.mapping.mk ⟨[⟨2, 0⟩, ⟨3, 0⟩, ⟨4, 0⟩]⟩).call [1, 2, 2] = 17 ∧
    (layout_left.mapping.mk ⟨[⟨2, 0⟩, ⟨3, 0⟩, ⟨4, 0⟩]⟩).call
        ([1, 2, 2].set 2 (([1, 2, 2] : List Nat).getD 2 0 + 1)) =
      (layout_left.mapping.mk ⟨[⟨2, 0⟩, ⟨3, 0⟩, ⟨4, 0⟩]⟩).call [1, 2, 2] +
        (layout_left.mapping.mk ⟨[⟨2, 0⟩, ⟨3, 0⟩, ⟨4, 0⟩]⟩).stride 2 :=
  ⟨by decide, by decide, by decide, by decide,
    ((layout_left_stride_spec ⟨⟨[⟨2, 0⟩, ⟨3, 0⟩, ⟨4, 0⟩]⟩⟩ 2 (by decide) (by decide)).2.2.2
      [1, 2, 2] (by decide)).2 (by decide)⟩

/-! ## extents: constructors and queries -/

theorem storage_ctor_ok (E v : Nat) (h : E ≠ dynamic_extent → v = E) :
    ∃ st, _storage_t.ctor E v = some st ∧ st.Extent = E ∧ st.extent = v := by
  unfold _storage_t.ctor
  by_cases hE : E = dynamic_extent
  · exact ⟨⟨E, v⟩, by simp [hE], rfl, by simp [_storage_t.extent, hE]⟩
  · have hv := h hE
    exact ⟨⟨E, 0⟩, by simp [hE, hv], rfl, by simp [_storage_t.extent, hE, hv]⟩

theorem ctor_all_values (Exts a : List Nat) (hlen : a.length = Exts.length)
    (hstatic : ∀ r, r < Exts.length → Exts.getD r 0 ≠ dynamic_extent →
      a.getD r 0 = Exts.getD r 0) :
    ∃ m, extents.ctor_all Exts a = some m ∧ m.map _storage_t.Extent = Exts ∧
      m.map _storage_t.extent = a := by
  induction Exts generalizing a with
  | nil =>
    cases a with
    | nil => exact ⟨[], rfl, rfl, rfl⟩
    | cons v a => simp at hlen
  | cons E Exts ih =>
    cases a with
    | nil => simp at hlen
    | cons v a =>
      obtain ⟨st, hst, hE, hv⟩ := storage_ctor_ok E v (hstatic 0 (by simp))
      obtain ⟨m, hm, hmE, hmv⟩ := ih a (by simpa using hlen)
        (fun r hr hne => hstatic (r + 1) (by simpa using hr) hne)
      refine ⟨st :: m, ?_, ?_, ?_⟩
      · simp only [extents.ctor_all, hst, hm]
      · simp only [List.map_cons, hE, hmE]
      · simp only [List.map_cons, hv, hmv]

theorem extent_cxx_ctor_values (Exts a : List Nat) (hlen : a.length = Exts.length)
    (hstatic : ∀ r, r < Exts.length → Exts.getD r 0 ≠ dynamic_extent →
      a.getD r 0 = Exts.getD r 0) :
    ∃ m, extent_cxx.extents_ctor Exts a = some m ∧ m.map _storage_t.Extent = Exts ∧
      m.map _storage_t.extent = a := by
  induction Exts generalizing a with
  | nil =>
    cases a with
    | nil => exact ⟨[], rfl, rfl, rfl⟩
    | cons v a => simp at hlen
  | cons E Exts ih =>
    cases a with
    | nil => simp at hlen
    | cons v a =>
      obtain ⟨m, hm, hmE, hmv⟩ := ih a (by simpa using hlen)
        (fun r hr hne => hstatic (r + 1) (by simpa using hr) hne)
      have h0 := hstatic 0 (by simp)
      simp only [List.getD_cons_zero] at h0
      refine ⟨extent_cxx.storage_ctor E v :: m, ?_, ?_, ?_⟩
      · simp only [extent_cxx.extents_ctor, hm]
      · simp only [List.map_cons, hmE]
        congr 1
        unfold extent_cxx.storage_ctor
        split <;> rfl
      · simp only [List.map_cons, hmv]
        congr 1
        unfold extent_cxx.storage_ctor _storage_t.extent
        by_cases hE : E = dynamic_extent
        · simp [hE]
        · simp [hE, h0 hE]

/-- C17: for every pattern `Exts` of rank `n` and every argument list `a` of
length `n` in which the argument of each static slot is the slot's constant,
the constructor with one index per extent builds an `extents<Exts...>` with
`extent(r) == a[r]` for every `r < n`; the constructor of extent.cxx does the
same. -/
theorem extents_ctor_all_extent (Exts a : List Nat) (hlen : a.length = Exts.length)
    (hstatic : ∀ r, r < Exts.length → Exts.getD r 0 ≠ dynamic_extent →
      a.getD r 0 = Exts.getD r 0) :
    (∃ m, extents.ctor_all Exts a = some m ∧ (extents.mk m).Extents = Exts ∧
      (extents.mk m).rank = Exts.length ∧
      ∀ r, r < Exts.length → (extents.mk m).extent r = a.getD r 0) ∧
    (∃ m, extent_cxx.extents_ctor Exts a = some m ∧ (extents.mk m).Extents = Exts ∧
      (extents.mk m).rank = Exts.length ∧
      ∀ r, r < Exts.length → (extents.mk m).extent r = a.getD r 0) := by
  constructor
  · obtain ⟨m, hm, hmE, hmv⟩ := ctor_all_values Exts a hlen hstatic
    refine ⟨m, hm, hmE, ?_, ?_⟩
    · rw [← hmE]; simp [extents.rank]
    · intro r _
      rw [extent_eq_getD]
      simp only [extents.values, hmv]
  · obtain ⟨m, hm, hmE, hmv⟩ := extent_cxx_ctor_values Exts a hlen hstatic
    refine ⟨m, hm, hmE, ?_, ?_⟩
    · rw [← hmE]; simp [extents.rank]
    · intro r _
      rw [extent_eq_getD]
      simp only [extents.values, hmv]

/-- C17 at `extents<3, 4, dynamic_extent, dynamic_extent, 7>(3, 4, 5, 6, 7)`:
both constructors succeed, and `main` of extent.cxx prints 3, 4, 5, 6, 7. -/
theorem extents_ctor_all_extent_witness :
    [3, 4, 5, 6, 7].length = [3, 4, dynamic_extent, dynamic_extent, 7].length ∧
    (∀ r, r < [3, 4, dynamic_extent, dynamic_extent, 7].length →
      [3, 4, dynamic_extent, dynamic_extent, 7].getD r 0 ≠ dynamic_extent →
      [3, 4, 5, 6, 7].getD r 0 = [3, 4, dynamic_extent, dynamic_extent, 7].getD r 0) ∧
    (∃ m, extents.ctor_all [3, 4, dynamic_extent, dynamic_extent, 7] [3, 4, 5, 6, 7] = some m ∧
      (extents.mk m).Extents = [3, 4, dynamic_extent, dynamic_extent, 7] ∧
      (extents.mk m).rank = [3, 4, dynamic_extent, dynamic_extent, 7].length ∧
      ∀ r, r < [3, 4, dynamic_extent, dynamic_extent, 7].length →
        (extents.mk m).extent r = [3, 4, 5, 6, 7].getD r 0) ∧
    extent_cxx.main_output = some [3, 4, 5, 6, 7] :=
  ⟨by decide, by decide,
    (extents_ctor_all_extent [3, 4, dynamic_extent, dynamic_extent, 7] [3, 4, 5, 6, 7]
      (by decide) (by decide)).1,
    by decide⟩

/-- C18, as stated, fails: for the dynamic slot 0 of `extents<dynamic_extent>`
the method `static_extent(0)` returns `dynamic_extent`, which is not 0. -/
theorem static_extent_dynamic_not_zero :
    0 < (extents.mk [⟨dynamic_extent, 5⟩]).rank ∧
    (extents.mk [⟨dynamic_extent, 5⟩]).Extents.getD 0 0 = dynamic_extent ∧
    (extents.mk [⟨dynamic_extent, 5⟩]).static_extent 0 = 18446744073709551615 ∧
    (extents.mk [⟨dynamic_extent, 5⟩]).static_extent 0 ≠ 0 := by
  refine ⟨by decide, by decide, by decide, by decide⟩

/-- C18 as amended: for every extents and every `n < rank`, `static_extent(n)`
returns the template argument of slot `n`: the compile-time value of the slot
when it is static, and `dynamic_extent` when it is dynamic; it returns 0 only
for `n` outside the rank. -/
theorem static_extent_spec (e : extents) (n : Nat) :
    (n < e.rank → e.static_extent n = e.Extents.getD n 0 ∧
      (e.Extents.getD n 0 ≠ dynamic_extent → e.static_extent n = e.extent n) ∧
      (e.Extents.getD n 0 = dynamic_extent → e.static_extent n = dynamic_extent)) ∧
    (e.rank ≤ n → e.static_extent n = 0) := by
  constructor
  · intro hn
    have hlt : n < e.m.length := hn
    have hE : e.Extents.getD n 0 = (e.m[n]).Extent := by
      unfold extents.Extents
      rw [List.getD_eq_getElem _ 0 (by rw [List.length_map]; exact hlt), List.getElem_map]
    have hs : e.static_extent n = (e.m[n]).Extent := by
      unfold extents.static_extent
      rw [List.get?_eq_getElem?, List.getElem?_eq_getElem hlt]
    have hx : e.extent n = (e.m[n]).extent := by
      unfold extents.extent
      rw [List.get?_eq_getElem?, List.getElem?_eq_getElem hlt]
    refine ⟨by rw [hs, hE], ?_, ?_⟩
    · intro hne
      rw [hE] at hne
      rw [hs, hx]
      unfold _storage_t.extent
      rw [if_neg hne]
    · intro heq
      rw [hs, ← hE, heq]
  · intro hn
    unfold extents.static_extent
    rw [List.get?_eq_getElem?, List.getElem?_eq_none (by exact hn)]

/-- C18 as amended, at `extents<3, dynamic_extent>` holding (3, 5):
`static_extent` returns 3, `dynamic_extent` and, outside the rank, 0. -/
theorem static_extent_spec_witness :
    0 < (extents.mk [⟨3, 0⟩, ⟨dynamic_extent, 5⟩]).rank ∧
    (extents.mk [⟨3, 0⟩, ⟨dynamic_extent, 5⟩]).static_extent 0 = 3 ∧
    (extents.mk [⟨3, 0⟩, ⟨dynamic_extent, 5⟩]).static_extent 1 = dynamic_extent ∧
    (extents.mk [⟨3, 0⟩, ⟨dynamic_extent, 5⟩]).static_extent 2 = 0 ∧
    (extents.mk [⟨3, 0⟩, ⟨dynamic_extent, 5⟩]).static_extent 0 =
      (extents.mk [⟨3, 0⟩, ⟨dynamic_extent, 5⟩]).extent 0 :=
  ⟨by decide, by decide, by decide, by decide,
    ((static_extent_spec ⟨[⟨3, 0⟩, ⟨dynamic_extent, 5⟩]⟩ 0).1 (by decide)).2.1 (by decide)⟩

/-- C19: `operator==` on two extents objects returns true if and only if they
have the same rank and `extent(r)` is the same in both for every `r` below
that rank; it depends on the run-time extents only, not on which slots are
static or dynamic. -/
theorem extents_eq_iff (lhs rhs : extents) :
    (extents.eq lhs rhs = true ↔
      lhs.rank = rhs.rank ∧ ∀ r, r < lhs.rank → lhs.extent r = rhs.extent r) ∧
    (extents.eq lhs rhs = true ↔ lhs.values = rhs.values) := by
  have h1 : extents.eq lhs rhs = true ↔
      lhs.rank = rhs.rank ∧ ∀ r, r < lhs.rank → lhs.extent r = rhs.extent r := by
    unfold extents.eq
    rw [Bool.and_eq_true, decide_eq_true_eq, List.all_eq_true]
    constructor
    · rintro ⟨hr, hall⟩
      refine ⟨hr.symm, fun r hlt => ?_⟩
      have := hall r (List.mem_range.mpr hlt)
      simpa [extents.get] using this
    · rintro ⟨hr, hall⟩
      refine ⟨hr.symm, fun r hmem => ?_⟩
      have := hall r (List.mem_range.mp hmem)
      simpa [extents.get] using this
  refine ⟨h1, ?_⟩
  rw [h1]
  constructor
  · rintro ⟨hr, hall⟩
    apply List.ext_getElem
    · rw [values_length, values_length]; exact hr
    · intro n hn1 hn2
      have := hall n (by rw [values_length] at hn1; exact hn1)
      rw [extent_eq_getD, extent_eq_getD, List.getD_eq_getElem _ 0 hn1,
        List.getD_eq_getElem _ 0 hn2] at this
      exact this
  · intro hv
    refine ⟨by rw [← values_length, ← values_length, hv], fun r _ => ?_⟩
    rw [extent_eq_getD, extent_eq_getD, hv]

/-- C19 at `extents<dynamic_extent, 3>` holding (5, 3): it is equal to
`extents<5, dynamic_extent>` holding (5, 3), and not equal to extents of
another rank or with another extent. -/
theorem extents_eq_iff_witness :
    extents.eq ⟨[⟨dynamic_extent, 5⟩, ⟨3, 0⟩]⟩ ⟨[⟨5, 0⟩, ⟨dynamic_extent, 3⟩]⟩ = true ∧
    extents.eq ⟨[⟨dynamic_extent, 5⟩, ⟨3, 0⟩]⟩ ⟨[⟨5, 0⟩]⟩ = false ∧
    extents.eq ⟨[⟨dynamic_extent, 5⟩, ⟨3, 0⟩]⟩ ⟨[⟨5, 0⟩, ⟨dynamic_extent, 4⟩]⟩ = false :=
  ⟨(extents_eq_iff ⟨[⟨dynamic_extent, 5⟩, ⟨3, 0⟩]⟩ ⟨[⟨5, 0⟩, ⟨dynamic_extent, 3⟩]⟩).2.mpr
      (by decide),
    by decide, by decide⟩

theorem ctor_dynamic_from_spec (Exts exts : List Nat)
    (hk : exts.length = Exts.count dynamic_extent) (rest pre : List Nat)
    (hsplit : Exts = pre ++ rest) :
    ∃ m, extents.ctor_dynamic_from Exts exts pre.length rest = some m ∧
      m.map _storage_t.Extent = rest ∧
      (∀ t, t < rest.length →
        (rest.getD t 0 = dynamic_extent →
          (m.map _storage_t.extent).getD t 0 =
            exts.getD ((Exts.take (pre.length + t)).count dynamic_extent) 0) ∧
        (rest.getD t 0 ≠ dynamic_extent →
          (m.map _storage_t.extent).getD t 0 = rest.getD t 0)) ∧
      (m.filter fun s => decide (s.Extent = dynamic_extent)).map _storage_t.extent =
        exts.drop (pre.count dynamic_extent) := by
  induction rest generalizing pre with
  | nil =>
    refine ⟨[], rfl, rfl, fun t ht => absurd ht (by simp), ?_⟩
    rw [List.append_nil] at hsplit
    rw [← hsplit, ← hk, List.drop_length]
    rfl
  | cons E rest ih =>
    have hfi : extents.find_dynamic_index Exts pre.length = pre.count dynamic_extent := by
      unfold extents.find_dynamic_index
      rw [hsplit, List.take_left]
    have hsplit1 : Exts = (pre ++ [E]) ++ rest := by rw [hsplit]; simp
    obtain ⟨m, hm, hmE, hmv, hmf⟩ := ih (pre ++ [E]) hsplit1
    have hlen1 : (pre ++ [E]).length = pre.length + 1 := by simp
    rw [hlen1] at hm
    have htake0 : (Exts.take (pre.length + 0)).count dynamic_extent =
        pre.count dynamic_extent := by
      rw [Nat.add_zero, hsplit, List.take_left]
    have hpoint : ∀ (st : _storage_t), ∀ t, t < (E :: rest).length →
        st.Extent = E →
        (E = dynamic_extent → st.extent = exts.getD (pre.count dynamic_extent) 0) →
        (E ≠ dynamic_extent → st.extent = E) →
        (((E :: rest).getD t 0 = dynamic_extent →
          ((st :: m).map _storage_t.extent).getD t 0 =
            exts.getD ((Exts.take (pre.length + t)).count dynamic_extent) 0) ∧
        ((E :: rest).getD t 0 ≠ dynamic_extent →
          ((st :: m).map _storage_t.extent).getD t 0 = (E :: rest).getD t 0)) := by
      intro st t ht _ hd hs
      cases t with
      | zero =>
        simp only [List.getD_cons_zero, List.map_cons]
        rw [htake0]
        exact ⟨hd, hs⟩
      | succ t =>
        have := hmv t (by simpa using ht)
        simp only [List.getD_cons_succ, List.map_cons]
        rw [hlen1] at this
        have hidx : pre.length + (t + 1) = pre.length + 1 + t := by omega
        rw [hidx]
        exact this
    by_cases hE : E = dynamic_extent
    · have hcount : Exts.count dynamic_extent =
          pre.count dynamic_extent + (rest.count dynamic_extent + 1) := by
        rw [hsplit, List.count_append, hE, List.count_cons_self]
      have hlt : pre.count dynamic_extent < exts.length := by omega
      have hget : exts.get? (pre.count dynamic_extent) =
          some (exts.getD (pre.count dynamic_extent) 0) := by
        rw [List.get?_eq_getElem?]
        exact getElem?_eq_some_getD _ _ hlt
      refine ⟨⟨E, exts.getD (pre.count dynamic_extent) 0⟩ :: m, ?_, ?_, ?_, ?_⟩
      · simp only [extents.ctor_dynamic_from, hfi, hE, if_true, hget, _storage_t.ctor]
        simp only [hm]
      · simp only [List.map_cons, hmE]
      · intro t ht
        exact hpoint _ t ht rfl (fun _ => by simp [_storage_t.extent, hE])
          (fun hne => absurd hE hne)
      · have hc1 : (pre ++ [E]).count dynamic_extent = pre.count dynamic_extent + 1 := by
          rw [List.count_append, hE]; simp
        rw [hc1] at hmf
        rw [List.filter_cons]
        simp only [hE, decide_True, if_true, List.map_cons]
        rw [hmf, drop_eq_getD_cons exts _ hlt]
        simp [_storage_t.extent]
    · have hne : dynamic_extent ≠ E := fun h => hE h.symm
      refine ⟨⟨E, 0⟩ :: m, ?_, ?_, ?_, ?_⟩
      · simp only [extents.ctor_dynamic_from, hne, if_false, _storage_t.ctor, hE, hm]
        simp
      · simp only [List.map_cons, hmE]
      · intro t ht
        exact hpoint _ t ht rfl (fun h => absurd h hE)
          (fun _ => by simp [_storage_t.extent, hE])
      · have hc1 : (pre ++ [E]).count dynamic_extent = pre.count dynamic_extent := by
          rw [List.count_append, List.count_singleton]
          have : (E == dynamic_extent) = false := by simpa using hE
          rw [this]; simp
        rw [hc1] at hmf
        rw [List.filter_cons]
        simp only [hE, decide_False, Bool.false_eq_true, if_false]
        exact hmf

/-- C16: round trip of the constructor with one index per dynamic extent. For
every pattern `Exts` with `k` dynamic slots and every list `d` of `k` values,
the constructed extents has the pattern `Exts`, `extent(r) == d[j]` when slot
`r` is dynamic, `j` being the number of dynamic slots before `r`, and
`extent(r)` equal to the compile-time constant when slot `r` is static;
reading the dynamic slots back in order returns `d`. -/
theorem extents_ctor_dynamic_round_trip (Exts d : List Nat)
    (hk : d.length = Exts.count dynamic_extent) :
    ∃ m, extents.ctor_dynamic Exts d = some m ∧ (extents.mk m).Extents = Exts ∧
      (∀ r, r < Exts.length →
        (Exts.getD r 0 = dynamic_extent →
          (extents.mk m).extent r = d.getD ((Exts.take r).count dynamic_extent) 0) ∧
        (Exts.getD r 0 ≠ dynamic_extent → (extents.mk m).extent r = Exts.getD r 0)) ∧
      (m.filter fun s => decide (s.Extent = dynamic_extent)).map _storage_t.extent = d := by
  obtain ⟨m, hm, hmE, hmv, hmf⟩ := ctor_dynamic_from_spec Exts d hk Exts [] rfl
  refine ⟨m, hm, hmE, ?_, ?_⟩
  · intro r hr
    have := hmv r hr
    simp only [List.length_nil, Nat.zero_add] at this
    rw [extent_eq_getD]
    exact this
  · simpa using hmf

/-- C16 at `extents<3, dynamic_extent, 4, dynamic_extent>` constructed from
(5, 6): the extents are (3, 5, 4, 6) and the dynamic slots read back (5, 6). -/
theorem extents_ctor_dynamic_round_trip_witness :
    [5, 6].length = [3, dynamic_extent, 4, dynamic_extent].count dynamic_extent ∧
    [5, 6].length ≠ [3, dynamic_extent, 4, dynamic_extent].length ∧
    (extents.ctor_dynamic [3, dynamic_extent, 4, dynamic_extent] [5, 6]).map
      (fun m => (extents.mk m).values) = some [3, 5, 4, 6] ∧
    ∃ m, extents.ctor_dynamic [3, dynamic_extent, 4, dynamic_extent] [5, 6] = some m ∧
      (m.filter fun s => decide (s.Extent = dynamic_extent)).map _storage_t.extent = [5, 6] :=
  ⟨by decide, by decide, by decide,
    (extents_ctor_dynamic_round_trip [3, dynamic_extent, 4, dynamic_extent] [5, 6]
      (by decide)).imp (fun _ h => ⟨h.1, h.2.2.2⟩)⟩

/-! ## mdspan::size -/

theorem size_fold_none (self : mdspan) (l : List Nat) :
    l.foldl
      (fun acc I =>
        match acc, self.size_operand I with
        | some a, some v => some ((a * v) % SIZE)
        | _, _ => none)
      none = none := by
  induction l with
  | nil => rfl
  | cons I l ih => simpa [List.foldl_cons] using ih

theorem size_of_rank_pos (self : mdspan) (h : self.rank ≠ 0) : self.size = none := by
  obtain ⟨n, hn⟩ := Nat.exists_eq_succ_of_ne_zero h
  unfold mdspan.size
  rw [hn, List.range_succ_eq_map, List.foldl_cons]
  exact size_fold_none self _

/-- C20: for the row-major mdspan with extents (2,3), whose product of extents
is 6, `size()` has no value: its fold names `get<I>` without calling it, so
the body is ill-formed for every rank above 0. Only for rank 0, where the fold
is empty, `size()` is 1. The sibling `required_span_size()`, which calls
`get<I>()`, returns 6. -/
theorem mdspan_size_ill_formed :
    (mdspan.mk 0 (mapping_type.layout_right ⟨⟨[⟨2, 0⟩, ⟨3, 0⟩]⟩⟩)).size = none ∧
    (mdspan.mk 0 (mapping_type.layout_right ⟨⟨[⟨2, 0⟩, ⟨3, 0⟩]⟩⟩)).extents.values.prod = 6 ∧
    (layout_right.mapping.mk ⟨[⟨2, 0⟩, ⟨3, 0⟩]⟩).required_span_size = 6 ∧
    (mdspan.mk 0 (mapping_type.layout_right ⟨⟨[]⟩⟩)).size = some 1 ∧
    (mdspan.mk 0 (mapping_type.layout_stride ⟨⟨[⟨2, 0⟩, ⟨0, 0⟩]⟩, [1, 2]⟩)).size = none := by
  refine ⟨size_of_rank_pos _ (by decide), by decide, by decide, by decide,
    size_of_rank_pos _ (by decide)⟩

/-! ## layout_stride constructed from another mapping -/

theorem fill_storage_getD (rank : Nat) (other : mapping_type) (r : Nat) (hr : r < rank) :
    (layout_stride.mapping.fill_storage rank other).getD r 0 = other.stride r := by
  unfold layout_stride.mapping.fill_storage
  have hl : r < ((List.range rank).map other.stride).length := by simpa using hr
  rw [List.getD_eq_getElem _ 0 hl]
  simp

theorem from_mapping_call (M : mapping_type) (hrank : M.extents.rank < SIZE) (idx : List Nat)
    (hlen : idx.length = M.extents.rank) :
    (layout_stride.mapping.from_mapping M).call idx = M.call idx := by
  refine eq_of_modEq_of_lt ?_ (stride_call_lt _ _) (mapping_call_lt _ _)
  refine (stride_call_modEq_dot _ idx).trans ?_
  refine (dot_congr idx _ (weights M) ?_).trans (mapping_call_modEq_dot M idx hlen).symm
  intro t ht
  have ht2 : t < M.extents.rank := by omega
  have h1 : (layout_stride.mapping.from_mapping M)._strides.getD t 0 = M.stride t :=
    fill_storage_getD _ M t ht2
  rw [h1]
  exact stride_modEq_weights M hrank t ht2

/-- C21: for every row-major and every column-major mapping `m`, the
general-strided mapping `s` constructed from `m` has the extents of `m`,
`s.stride(r) == m.stride(r)` for every `r < rank`, and `s(i...) == m(i...)`
for every index tuple with one index per dimension. -/
theorem stride_from_mapping_equal (e : extents) (hrank : e.rank < SIZE) :
    ((layout_stride.mapping.from_mapping (mapping_type.layout_right ⟨e⟩))._extents = e ∧
      (∀ r, r < e.rank →
        (layout_stride.mapping.from_mapping (mapping_type.layout_right ⟨e⟩)).stride r =
          (layout_right.mapping.mk e).stride r) ∧
      ∀ idx : List Nat, idx.length = e.rank →
        (layout_stride.mapping.from_mapping (mapping_type.layout_right ⟨e⟩)).call idx =
          (layout_right.mapping.mk e).call idx) ∧
    ((layout_stride.mapping.from_mapping (mapping_type.layout_left ⟨e⟩))._extents = e ∧
      (∀ r, r < e.rank →
        (layout_stride.mapping.from_mapping (mapping_type.layout_left ⟨e⟩)).stride r =
          (layout_left.mapping.mk e).stride r) ∧
      ∀ idx : List Nat, idx.length = e.rank →
        (layout_stride.mapping.from_mapping (mapping_type.layout_left ⟨e⟩)).call idx =
          (layout_left.mapping.mk e).call idx) := by
  refine ⟨⟨rfl, ?_, ?_⟩, ⟨rfl, ?_, ?_⟩⟩
  · intro r hr
    exact fill_storage_getD _ (mapping_type.layout_right ⟨e⟩) r hr
  · intro idx hlen
    exact from_mapping_call (mapping_type.layout_right ⟨e⟩) hrank idx hlen
  · intro r hr
    exact fill_storage_getD _ (mapping_type.layout_left ⟨e⟩) r hr
  · intro idx hlen
    exact from_mapping_call (mapping_type.layout_left ⟨e⟩) hrank idx hlen

/-- C21 at extents (2,3,4): the strided mapping built from the row-major one
has strides (12,4,1), the one built from the column-major one (1,2,6), and
both give offset 23 at (1,2,3). -/
theorem stride_from_mapping_equal_witness :
    (extents.mk [⟨2, 0⟩, ⟨3, 0⟩, ⟨4, 0⟩]).rank < SIZE ∧
    (layout_stride.mapping.from_mapping
      (mapping_type.layout_right ⟨⟨[⟨2, 0⟩, ⟨3, 0⟩, ⟨4, 0⟩]⟩⟩))._strides = [12, 4, 1] ∧
    (layout_stride.mapping.from_mapping
      (mapping_type.layout_left ⟨⟨[⟨2, 0⟩, ⟨3, 0⟩, ⟨4, 0⟩]⟩⟩))._strides = [1, 2, 6] ∧
    (layout_right.mapping.mk ⟨[⟨2, 0⟩, ⟨3, 0⟩, ⟨4, 0⟩]⟩).call [1, 2, 3] = 23 ∧
    (layout_stride.mapping.from_mapping
        (mapping_type.layout_right ⟨⟨[⟨2, 0⟩, ⟨3, 0⟩, ⟨4, 0⟩]⟩⟩)).call [1, 2, 3] =
      (layout_right.mapping.mk ⟨[⟨2, 0⟩, ⟨3, 0⟩, ⟨4, 0⟩]⟩).call [1, 2, 3] ∧
    (layout_stride.mapping.from_mapping
        (mapping_type.layout_left ⟨⟨[⟨2, 0⟩, ⟨3, 0⟩, ⟨4, 0⟩]⟩⟩)).call [1, 2, 3] =
      (layout_left.mapping.mk ⟨[⟨2, 0⟩, ⟨3, 0⟩, ⟨4, 0⟩]⟩).call [1, 2, 3] :=
  ⟨by decide, by decide, by decide, by decide,
    (stride_from_mapping_equal ⟨[⟨2, 0⟩, ⟨3, 0⟩, ⟨4, 0⟩]⟩ (by decide)).1.2.2 [1, 2, 3]
      (by decide),
    (stride_from_mapping_equal ⟨[⟨2, 0⟩, ⟨3, 0⟩, ⟨4, 0⟩]⟩ (by decide)).2.2.2 [1, 2, 3]
      (by decide)⟩

/-! ## Default construction of extents -/

theorem default_ctor_spec (Exts : List Nat) :
    ∃ m, extents.default_ctor Exts = some m ∧ m.map _storage_t.Extent = Exts ∧
      m.map _storage_t.extent = Exts.map fun E => if E = dynamic_extent then 0 else E := by
  induction Exts with
  | nil => exact ⟨[], rfl, rfl, rfl⟩
  | cons E Exts ih =>
    obtain ⟨m, hm, hmE, hmv⟩ := ih
    by_cases hE : E = dynamic_extent
    · refine ⟨⟨E, 0⟩ :: m, ?_, ?_, ?_⟩
      · simp [extents.default_ctor, _storage_t.default_ctor, _storage_t.ctor, hE, hm]
      · simp [hmE]
      · simp [hmv, _storage_t.extent, hE]
    · refine ⟨⟨E, 0⟩ :: m, ?_, ?_, ?_⟩
      · simp [extents.default_ctor, _storage_t.default_ctor, _storage_t.ctor, hE, hm]
      · simp [hmE]
      · simp [hmv, _storage_t.extent, hE]

/-- C24: a default-constructed `extents<dynamic_extent>` has `extent(0) == 0`,
not 1, and a default-constructed `extents<3, dynamic_extent, 4>` has the
extents (3, 0, 4): the default argument of the dynamic `_storage_t` is 0,
while the comment on the constructor says the run-time extents are set to 1. -/
theorem extents_default_ctor_dynamic_zero :
    extents.default_ctor [dynamic_extent] = some [⟨dynamic_extent, 0⟩] ∧
    (extents.mk [⟨dynamic_extent, 0⟩]).extent 0 = 0 ∧
    (extents.mk [⟨dynamic_extent, 0⟩]).extent 0 ≠ 1 ∧
    (extents.default_ctor [3, dynamic_extent, 4]).map (fun m => (extents.mk m).values) =
      some [3, 0, 4] := by
  refine ⟨by decide, by decide, by decide, by decide⟩

/-! ## Equality of mappings -/

theorem extents_eq_true_iff (lhs rhs : extents) :
    extents.eq lhs rhs = true ↔
      lhs.rank = rhs.rank ∧ ∀ r, r < lhs.rank → lhs.extent r = rhs.extent r := by
  unfold extents.eq
  rw [Bool.and_eq_true, decide_eq_true_eq, List.all_eq_true]
  constructor
  · rintro ⟨hr, hall⟩
    refine ⟨hr.symm, fun r hlt => ?_⟩
    have := hall r (List.mem_range.mpr hlt)
    simpa [extents.get] using this
  · rintro ⟨hr, hall⟩
    refine ⟨hr.symm, fun r hmem => ?_⟩
    have := hall r (List.mem_range.mp hmem)
    simpa [extents.get] using this

theorem stride_eq_true_iff (lhs rhs : layout_stride.mapping) :
    lhs.eq rhs = true ↔ ∀ r, r < lhs._extents.rank → lhs.stride r = rhs.stride r := by
  unfold layout_stride.mapping.eq
  rw [List.all_eq_true]
  constructor
  · intro hall r hr
    simpa using hall r (List.mem_range.mpr hr)
  · intro hall r hr
    simpa using hall r (List.mem_range.mp hr)

/-- C25: `operator==` on two general-strided mappings returns true if and only
if `stride(r)` is the same in both for every `r < rank`; mappings with equal
stride arrays compare equal whatever their extents are. `operator==` on two
row-major or two column-major mappings is `operator==` on their extents: equal
rank and equal `extent(r)` for every `r` below it. -/
theorem mapping_eq_spec :
    (∀ lhs rhs : layout_stride.mapping,
      (lhs.eq rhs = true ↔ ∀ r, r < lhs._extents.rank → lhs.stride r = rhs.stride r) ∧
      (lhs._strides = rhs._strides → lhs.eq rhs = true)) ∧
    (∀ lhs rhs : layout_right.mapping,
      lhs.eq rhs = extents.eq lhs._extents rhs._extents ∧
      (lhs.eq rhs = true ↔ lhs._extents.rank = rhs._extents.rank ∧
        ∀ r, r < lhs._extents.rank → lhs._extents.extent r = rhs._extents.extent r)) ∧
    (∀ lhs rhs : layout_left.mapping,
      lhs.eq rhs = extents.eq lhs._extents rhs._extents ∧
      (lhs.eq rhs = true ↔ lhs._extents.rank = rhs._extents.rank ∧
        ∀ r, r < lhs._extents.rank → lhs._extents.extent r = rhs._extents.extent r)) := by
  refine ⟨?_, ?_, ?_⟩
  · intro lhs rhs
    refine ⟨stride_eq_true_iff lhs rhs, ?_⟩
    intro h
    rw [stride_eq_true_iff]
    intro r _
    unfold layout_stride.mapping.stride
    rw [h]
  · intro lhs rhs
    exact ⟨rfl, extents_eq_true_iff _ _⟩
  · intro lhs rhs
    exact ⟨rfl, extents_eq_true_iff _ _⟩

/-- C25 at the strides (3,1): the general-strided mappings over the extents
(2,3) and (4,5) compare equal, the row-major and the column-major mappings
over these extents do not, and general-strided mappings over the same
extents with the strides (3,1) and (1,2) do not. -/
theorem mapping_eq_spec_witness :
    layout_stride.mapping.eq ⟨⟨[⟨2, 0⟩, ⟨3, 0⟩]⟩, [3, 1]⟩ ⟨⟨[⟨4, 0⟩, ⟨5, 0⟩]⟩, [3, 1]⟩ = true ∧
    layout_right.mapping.eq ⟨⟨[⟨2, 0⟩, ⟨3, 0⟩]⟩⟩ ⟨⟨[⟨4, 0⟩, ⟨5, 0⟩]⟩⟩ = false ∧
    layout_left.mapping.eq ⟨⟨[⟨2, 0⟩, ⟨3, 0⟩]⟩⟩ ⟨⟨[⟨4, 0⟩, ⟨5, 0⟩]⟩⟩ = false ∧
    layout_stride.mapping.eq ⟨⟨[⟨2, 0⟩, ⟨3, 0⟩]⟩, [3, 1]⟩ ⟨⟨[⟨2, 0⟩, ⟨3, 0⟩]⟩, [1, 2]⟩ = false ∧
    layout_right.mapping.eq ⟨⟨[⟨2, 0⟩, ⟨dynamic_extent, 3⟩]⟩⟩ ⟨⟨[⟨2, 0⟩, ⟨3, 0⟩]⟩⟩ = true :=
  ⟨(mapping_eq_spec.1 ⟨⟨[⟨2, 0⟩, ⟨3, 0⟩]⟩, [3, 1]⟩ ⟨⟨[⟨4, 0⟩, ⟨5, 0⟩]⟩, [3, 1]⟩).2 rfl,
    by decide, by decide, by decide, by decide⟩

/-! ## layout_stride: uniqueness -/

/-- C22, as stated, fails: the general-strided mapping with extents (2,2) and
strides (1,1) reports `is_unique()` and maps the two distinct in-bounds index
tuples (0,1) and (1,0) to the same offset 1. -/
theorem stride_mapping_not_unique :
    (layout_stride.mapping.mk ⟨[⟨2, 0⟩, ⟨2, 0⟩]⟩ [1, 1]).is_unique = true ∧
    (∀ r, r < 2 → [0, 1].getD r 0 <
      (layout_stride.mapping.mk ⟨[⟨2, 0⟩, ⟨2, 0⟩]⟩ [1, 1])._extents.extent r) ∧
    (∀ r, r < 2 → [1, 0].getD r 0 <
      (layout_stride.mapping.mk ⟨[⟨2, 0⟩, ⟨2, 0⟩]⟩ [1, 1])._extents.extent r) ∧
    ([0, 1] : List Nat) ≠ [1, 0] ∧
    (layout_stride.mapping.mk ⟨[⟨2, 0⟩, ⟨2, 0⟩]⟩ [1, 1]).call [0, 1] = 1 ∧
    (layout_stride.mapping.mk ⟨[⟨2, 0⟩, ⟨2, 0⟩]⟩ [1, 1]).call [1, 0] = 1 := by
  refine ⟨rfl, by decide, by decide, by decide, by decide, by decide⟩

theorem chain_sum_inj (i j e s : Nat → Nat) (order : List Nat)
    (hc : order.Chain' (fun x y => e y * s y ≤ s x))
    (hi : ∀ x, x ∈ order → i x < e x) (hj : ∀ x, x ∈ order → j x < e x)
    (hpos : ∀ x, x ∈ order → 0 < s x)
    (heq : (order.map fun r => i r * s r).sum = (order.map fun r => j r * s r).sum) :
    ∀ x, x ∈ order → i x = j x := by
  induction order with
  | nil => intro x hx; simp at hx
  | cons a rest ih =>
    have hsa := hpos a (List.mem_cons_self _ _)
    have hrest : ∀ (k : Nat → Nat), (∀ x, x ∈ a :: rest → k x < e x) →
        (rest.map fun r => k r * s r).sum < s a := by
      intro k hk
      cases rest with
      | nil => simpa using hsa
      | cons b rest1 =>
        obtain ⟨hab, hc1⟩ := List.chain'_cons.mp hc
        refine lt_of_lt_of_le
          (chain_sum_lt k e s b rest1 hc1 (fun x hx => hk x (List.mem_cons_of_mem _ hx))) ?_
        exact max_le hsa hab
    have hRi := hrest i hi
    have hRj := hrest j hj
    simp only [List.map_cons, List.sum_cons] at heq
    have hdiv : ∀ (q R : Nat), R < s a → (q * s a + R) / s a = q := by
      intro q R hR
      rw [Nat.add_comm, Nat.add_mul_div_right _ _ hsa, Nat.div_eq_of_lt hR, Nat.zero_add]
    have hia : i a = j a := by
      have h1 := hdiv (i a) _ hRi
      have h2 := hdiv (j a) _ hRj
      rw [heq] at h1
      rw [← h1, h2]
    have hR : (rest.map fun r => i r * s r).sum = (rest.map fun r => j r * s r).sum := by
      rw [hia] at heq
      exact Nat.add_left_cancel heq
    have ih1 := ih hc.tail (fun x hx => hi x (List.mem_cons_of_mem _ hx))
      (fun x hx => hj x (List.mem_cons_of_mem _ hx))
      (fun x hx => hpos x (List.mem_cons_of_mem _ hx)) hR
    intro x hx
    rcases List.mem_cons.mp hx with h | h
    · rw [h]; exact hia
    · exact ih1 x h

theorem nested_call_eq_sum (s : layout_stride.mapping) (idx order : List Nat)
    (hlen : idx.length = s._extents.rank)
    (hin : ∀ r, r < s._extents.rank → idx.getD r 0 < s._extents.extent r)
    (hperm : order.Perm (List.range s._extents.rank))
    (hnest : order.Chain' (fun a b => s._extents.extent b * s.stride b ≤ s.stride a))
    (hno : ∀ r, r < s._extents.rank → s._extents.extent r * s.stride r < SIZE) :
    s.call idx = (order.map fun r => idx.getD r 0 * s.stride r).sum := by
  have hne : ∀ r, r < s._extents.rank → s._extents.extent r ≠ 0 := by
    intro r hr
    have := hin r hr
    omega
  obtain ⟨h1, hge, hmem⟩ := stride_required_span_size_max s hne
  have hmemo : ∀ x, x ∈ order → x < s._extents.rank := by
    intro x hx
    exact List.mem_range.mp (hperm.mem_iff.mp hx)
  have hdot : dot idx s._strides =
      (order.map fun r => idx.getD r 0 * s.stride r).sum := by
    rw [dot_eq_sum_range, hlen]
    exact ((hperm.map _).sum_eq).symm
  have hbound : dot idx s._strides < s.required_span_size := by
    rw [hdot]
    cases order with
    | nil => simpa using h1
    | cons a rest =>
      have ha := hmemo a (List.mem_cons_self _ _)
      refine lt_of_lt_of_le
        (chain_sum_lt (fun r => idx.getD r 0) s._extents.extent s.stride a rest hnest
          (fun x hx => hin x (hmemo x hx))) ?_
      refine max_le h1 ?_
      have := hge a ha
      rwa [Nat.mod_eq_of_lt (hno a ha)] at this
  have hrss : s.required_span_size < SIZE := by
    rcases hmem with h | ⟨r, _, h⟩
    · rw [h]; decide
    · rw [h]; exact Nat.mod_lt _ (by decide)
  rw [← hdot]
  exact eq_of_modEq_of_lt (stride_call_modEq_dot s idx) (stride_call_lt s idx) (by omega)

/-- C22 as amended: `is_unique()` returns true for every general-strided
mapping, and the mapping is unique in fact when its strides are positive and
its dimensions can be ordered so that each stride is at least
`extent * stride` of the next dimension in the order: two in-bounds index
tuples with the same offset are equal, provided no product
`extent(r) * stride(r)` overflows `size_t`. -/
theorem stride_mapping_unique_of_nested (s : layout_stride.mapping)
    (idx idx2 order : List Nat)
    (hlen : idx.length = s._extents.rank) (hlen2 : idx2.length = s._extents.rank)
    (hin : ∀ r, r < s._extents.rank → idx.getD r 0 < s._extents.extent r)
    (hin2 : ∀ r, r < s._extents.rank → idx2.getD r 0 < s._extents.extent r)
    (hperm : order.Perm (List.range s._extents.rank))
    (hnest : order.Chain' (fun a b => s._extents.extent b * s.stride b ≤ s.stride a))
    (hpos : ∀ r, r < s._extents.rank → 0 < s.stride r)
    (hno : ∀ r, r < s._extents.rank → s._extents.extent r * s.stride r < SIZE)
    (heq : s.call idx = s.call idx2) :
    s.is_unique = true ∧ idx = idx2 := by
  refine ⟨rfl, ?_⟩
  have hmemo : ∀ x, x ∈ order → x < s._extents.rank := by
    intro x hx
    exact List.mem_range.mp (hperm.mem_iff.mp hx)
  rw [nested_call_eq_sum s idx order hlen hin hperm hnest hno,
    nested_call_eq_sum s idx2 order hlen2 hin2 hperm hnest hno] at heq
  have hall := chain_sum_inj (fun r => idx.getD r 0) (fun r => idx2.getD r 0)
    s._extents.extent s.stride order hnest (fun x hx => hin x (hmemo x hx))
    (fun x hx => hin2 x (hmemo x hx)) (fun x hx => hpos x (hmemo x hx)) heq
  apply List.ext_getElem
  · rw [hlen, hlen2]
  · intro n hn1 hn2
    have hn : n < s._extents.rank := by omega
    have := hall n (hperm.mem_iff.mpr (List.mem_range.mpr hn))
    simp only at this
    rwa [List.getD_eq_getElem _ 0 hn1, List.getD_eq_getElem _ 0 hn2] at this

/-- C22 as amended, at extents (2,3) with the column-major strides (1,2) and
the order (1,0) of the dimensions: the in-bounds tuples (1,2) and (1,2) with
the same offset 5 are equal, and `is_unique()` is true. -/
theorem stride_mapping_unique_of_nested_witness :
    [1, 2].length = (layout_stride.mapping.mk ⟨[⟨2, 0⟩, ⟨3, 0⟩]⟩ [1, 2])._extents.rank ∧
    (∀ r, r < (layout_stride.mapping.mk ⟨[⟨2, 0⟩, ⟨3, 0⟩]⟩ [1, 2])._extents.rank →
      [1, 2].getD r 0 <
        (layout_stride.mapping.mk ⟨[⟨2, 0⟩, ⟨3, 0⟩]⟩ [1, 2])._extents.extent r) ∧
    (∀ r, r < (layout_stride.mapping.mk ⟨[⟨2, 0⟩, ⟨3, 0⟩]⟩ [1, 2])._extents.rank →
      0 < (layout_stride.mapping.mk ⟨[⟨2, 0⟩, ⟨3, 0⟩]⟩ [1, 2]).stride r) ∧
    (layout_stride.mapping.mk ⟨[⟨2, 0⟩, ⟨3, 0⟩]⟩ [1, 2]).call [1, 2] = 5 ∧
    ((layout_stride.mapping.mk ⟨[⟨2, 0⟩, ⟨3, 0⟩]⟩ [1, 2]).is_unique = true ∧
      ([1, 2] : List Nat) = [1, 2]) :=
  ⟨by decide, by decide, by decide, by decide,
    stride_mapping_unique_of_nested ⟨⟨[⟨2, 0⟩, ⟨3, 0⟩]⟩, [1, 2]⟩ [1, 2] [1, 2] [1, 0]
      (by decide) (by decide) (by decide) (by decide) (List.Perm.swap 0 1 [])
      (List.chain'_cons.mpr ⟨by decide, List.chain'_singleton _⟩) (by decide) (by decide)
      rfl⟩

/-! ## layout_right and layout_left: bijection onto the span -/

theorem forall2_of_getD (idx es : List Nat) (hlen : idx.length = es.length)
    (h : ∀ r, r < es.length → idx.getD r 0 < es.getD r 0) :
    List.Forall₂ (fun i e => i < e) idx es := by
  induction es generalizing idx with
  | nil =>
    cases idx with
    | nil => exact List.Forall₂.nil
    | cons i idx => simp at hlen
  | cons e es ih =>
    cases idx with
    | nil => simp at hlen
    | cons i idx =>
      refine List.Forall₂.cons ?_ (ih idx (by simpa using hlen) ?_)
      · simpa using h 0 (by simp)
      · intro r hr
        simpa using h (r + 1) (by simpa using hr)

theorem getD_of_forall2 (idx es : List Nat) (h : List.Forall₂ (fun i e => i < e) idx es) :
    idx.length = es.length ∧ ∀ r, r < es.length → idx.getD r 0 < es.getD r 0 := by
  induction h with
  | nil => exact ⟨rfl, fun r hr => absurd hr (by simp)⟩
  | cons hie _ ih =>
    refine ⟨by simp [ih.1], ?_⟩
    intro r hr
    cases r with
    | zero => simpa using hie
    | succ r => simpa using ih.2 r (by simpa using hr)

theorem right_dot_lt (idx es : List Nat) (h : List.Forall₂ (fun i e => i < e) idx es) :
    dot idx (row_major_weights es) < es.prod := by
  induction h with
  | nil => simp [dot_nil_left]
  | @cons i e I E hie _ ih =>
    rw [row_major_weights_cons, dot, List.prod_cons]
    have h1 : (i + 1) * E.prod ≤ e * E.prod := Nat.mul_le_mul_right _ hie
    have h2 : (i + 1) * E.prod = i * E.prod + E.prod := by ring
    omega

theorem right_dot_inj (es idx idx2 : List Nat)
    (h : List.Forall₂ (fun i e => i < e) idx es)
    (h2 : List.Forall₂ (fun i e => i < e) idx2 es)
    (heq : dot idx (row_major_weights es) = dot idx2 (row_major_weights es)) : idx = idx2 := by
  induction h generalizing idx2 with
  | nil => cases h2; rfl
  | @cons i e I E hie hI ih =>
    cases h2 with
    | @cons i2 _ I2 _ hie2 hI2 =>
      rw [row_major_weights_cons, dot, dot] at heq
      have hR := right_dot_lt I E hI
      have hR2 := right_dot_lt I2 E hI2
      have hP : 0 < E.prod := by omega
      have hdiv : ∀ (q R : Nat), R < E.prod → (q * E.prod + R) / E.prod = q := by
        intro q R hRlt
        rw [Nat.add_comm, Nat.add_mul_div_right _ _ hP, Nat.div_eq_of_lt hRlt, Nat.zero_add]
      have hi : i = i2 := by
        have e1 := hdiv i _ hR
        have e2 := hdiv i2 _ hR2
        rw [heq] at e1
        rw [← e1, e2]
      rw [hi] at heq
      rw [hi, ih I2 hI2 (Nat.add_left_cancel heq)]

theorem right_dot_surj (es : List Nat) (k : Nat) (hk : k < es.prod) :
    ∃ idx, List.Forall₂ (fun i e => i < e) idx es ∧ dot idx (row_major_weights es) = k := by
  induction es generalizing k with
  | nil =>
    refine ⟨[], List.Forall₂.nil, ?_⟩
    simp only [List.prod_nil] at hk
    rw [dot_nil_left]
    omega
  | cons e E ih =>
    rw [List.prod_cons] at hk
    have hP : 0 < E.prod := by
      rcases Nat.eq_zero_or_pos E.prod with h0 | h0
      · rw [h0] at hk; simp at hk
      · exact h0
    obtain ⟨I, hI, hd⟩ := ih (k % E.prod) (Nat.mod_lt _ hP)
    refine ⟨(k / E.prod) :: I, List.Forall₂.cons ((Nat.div_lt_iff_lt_mul hP).mpr hk) hI, ?_⟩
    rw [row_major_weights_cons, dot, hd, Nat.mul_comm]
    exact Nat.div_add_mod k E.prod

theorem left_dot_cons (i e : Nat) (I E : List Nat) :
    dot (i :: I) (column_major_weights (e :: E)) = i + e * dot I (column_major_weights E) := by
  rw [column_major_weights_cons, dot, dot_map_mul, Nat.mul_one]

theorem left_dot_lt (idx es : List Nat) (h : List.Forall₂ (fun i e => i < e) idx es) :
    dot idx (column_major_weights es) < es.prod := by
  induction h with
  | nil => simp [dot_nil_left]
  | @cons i e I E hie _ ih =>
    rw [left_dot_cons, List.prod_cons]
    have h1 : e * (dot I (column_major_weights E) + 1) ≤ e * E.prod :=
      Nat.mul_le_mul_left _ ih
    have h2 : e * (dot I (column_major_weights E) + 1) =
        e * dot I (column_major_weights E) + e := by ring
    omega

theorem left_dot_inj (es idx idx2 : List Nat)
    (h : List.Forall₂ (fun i e => i < e) idx es)
    (h2 : List.Forall₂ (fun i e => i < e) idx2 es)
    (heq : dot idx (column_major_weights es) = dot idx2 (column_major_weights es)) :
    idx = idx2 := by
  induction h generalizing idx2 with
  | nil => cases h2; rfl
  | @cons i e I E hie hI ih =>
    cases h2 with
    | @cons i2 _ I2 _ hie2 hI2 =>
      rw [left_dot_cons, left_dot_cons] at heq
      have he : 0 < e := by omega
      have hmod : ∀ (q R : Nat), q < e → (q + e * R) % e = q := by
        intro q R hq
        rw [Nat.add_mul_mod_self_left, Nat.mod_eq_of_lt hq]
      have hi : i = i2 := by
        have e1 := hmod i (dot I (column_major_weights E)) hie
        have e2 := hmod i2 (dot I2 (column_major_weights E)) hie2
        rw [heq] at e1
        rw [← e1, e2]
      rw [hi] at heq
      have hd := Nat.eq_of_mul_eq_mul_left he (Nat.add_left_cancel heq)
      rw [hi, ih I2 hI2 hd]

theorem left_dot_surj (es : List Nat) (k : Nat) (hk : k < es.prod) :
    ∃ idx, List.Forall₂ (fun i e => i < e) idx es ∧
      dot idx (column_major_weights es) = k := by
  induction es generalizing k with
  | nil =>
    refine ⟨[], List.Forall₂.nil, ?_⟩
    simp only [List.prod_nil] at hk
    rw [dot_nil_left]
    omega
  | cons e E ih =>
    rw [List.prod_cons] at hk
    have he : 0 < e := by
      rcases Nat.eq_zero_or_pos e with h0 | h0
      · rw [h0] at hk; simp at hk
      · exact h0
    have hq : k / e < E.prod := by
      rw [Nat.div_lt_iff_lt_mul he, Nat.mul_comm]
      exact hk
    obtain ⟨I, hI, hd⟩ := ih (k / e) hq
    refine ⟨(k % e) :: I, List.Forall₂.cons (Nat.mod_lt _ he) hI, ?_⟩
    rw [left_dot_cons, hd]
    exact Nat.mod_add_div k e

theorem bijection_of_weights (e : extents) (hprod : e.values.prod < SIZE)
    (call : List Nat → Nat) (W : List Nat) (rss : Nat)
    (hcall : ∀ idx : List Nat, idx.length = e.rank → call idx ≡ dot idx W [MOD SIZE])
    (hlt : ∀ idx, call idx < SIZE)
    (hb : ∀ idx, List.Forall₂ (fun i x => i < x) idx e.values → dot idx W < e.values.prod)
    (hi : ∀ idx idx2, List.Forall₂ (fun i x => i < x) idx e.values →
      List.Forall₂ (fun i x => i < x) idx2 e.values → dot idx W = dot idx2 W → idx = idx2)
    (hs : ∀ k, k < e.values.prod →
      ∃ idx, List.Forall₂ (fun i x => i < x) idx e.values ∧ dot idx W = k)
    (hrss : rss = e.values.prod) :
    (∀ idx : List Nat, idx.length = e.rank →
      (∀ r, r < e.rank → idx.getD r 0 < e.extent r) → call idx < rss) ∧
    (∀ idx idx2 : List Nat, idx.length = e.rank → idx2.length = e.rank →
      (∀ r, r < e.rank → idx.getD r 0 < e.extent r) →
      (∀ r, r < e.rank → idx2.getD r 0 < e.extent r) →
      call idx = call idx2 → idx = idx2) ∧
    (∀ k, k < rss →
      ∃ idx : List Nat, idx.length = e.rank ∧
        (∀ r, r < e.rank → idx.getD r 0 < e.extent r) ∧ call idx = k) := by
  have hF : ∀ idx : List Nat, idx.length = e.rank →
      (∀ r, r < e.rank → idx.getD r 0 < e.extent r) →
      List.Forall₂ (fun i x => i < x) idx e.values := by
    intro idx hlen hin
    apply forall2_of_getD idx e.values (by rw [values_length]; exact hlen)
    intro r hr
    rw [values_length] at hr
    have := hin r hr
    rwa [extent_eq_getD] at this
  have hC : ∀ idx : List Nat, idx.length = e.rank →
      List.Forall₂ (fun i x => i < x) idx e.values → call idx = dot idx W := by
    intro idx hlen hf
    exact eq_of_modEq_of_lt (hcall idx hlen) (hlt idx) (lt_trans (hb idx hf) hprod)
  refine ⟨?_, ?_, ?_⟩
  · intro idx hlen hin
    have hf := hF idx hlen hin
    rw [hC idx hlen hf, hrss]
    exact hb idx hf
  · intro idx idx2 hlen hlen2 hin hin2 heq
    have hf := hF idx hlen hin
    have hf2 := hF idx2 hlen2 hin2
    rw [hC idx hlen hf, hC idx2 hlen2 hf2] at heq
    exact hi idx idx2 hf hf2 heq
  · intro k hk
    rw [hrss] at hk
    obtain ⟨idx, hf, hd⟩ := hs k hk
    obtain ⟨hl, hg⟩ := getD_of_forall2 idx e.values hf
    have hlen : idx.length = e.rank := by rw [hl, values_length]
    refine ⟨idx, hlen, ?_, ?_⟩
    · intro r hr
      rw [extent_eq_getD]
      exact hg r (by rw [values_length]; exact hr)
    · rw [hC idx hlen hf, hd]

theorem span_eq_prod (e : extents) (hprod : e.values.prod < SIZE) :
    (List.range e.rank).foldl (fun acc I => (acc * e.get I) % SIZE) 1 = e.values.prod := by
  have h := foldl_range_prod e e.rank (le_refl _)
  rw [List.take_of_length_le (by rw [values_length]), Nat.mod_eq_of_lt hprod] at h
  exact h

/-- C23: row-major and column-major mappings report `is_unique()` and
`is_contiguous()`, and when the product of the extents does not overflow
`size_t`, `operator()` restricted to the in-bounds index tuples is a bijection
onto `[0, required_span_size())`: every in-bounds tuple maps below
`required_span_size()`, in-bounds tuples with the same offset are equal, and
every offset below `required_span_size()` is the offset of an in-bounds
tuple. -/
theorem contiguous_layout_bijection (e : extents) (hprod : e.values.prod < SIZE) :
    ((layout_right.mapping.mk e).is_unique = true ∧
      (layout_right.mapping.mk e).is_contiguous = true ∧
      (∀ idx : List Nat, idx.length = e.rank →
        (∀ r, r < e.rank → idx.getD r 0 < e.extent r) →
        (layout_right.mapping.mk e).call idx < (layout_right.mapping.mk e).required_span_size) ∧
      (∀ idx idx2 : List Nat, idx.length = e.rank → idx2.length = e.rank →
        (∀ r, r < e.rank → idx.getD r 0 < e.extent r) →
        (∀ r, r < e.rank → idx2.getD r 0 < e.extent r) →
        (layout_right.mapping.mk e).call idx = (layout_right.mapping.mk e).call idx2 →
        idx = idx2) ∧
      (∀ k, k < (layout_right.mapping.mk e).required_span_size →
        ∃ idx : List Nat, idx.length = e.rank ∧
          (∀ r, r < e.rank → idx.getD r 0 < e.extent r) ∧
          (layout_right.mapping.mk e).call idx = k)) ∧
    ((layout_left.mapping.mk e).is_unique = true ∧
      (layout_left.mapping.mk e).is_contiguous = true ∧
      (∀ idx : List Nat, idx.length = e.rank →
        (∀ r, r < e.rank → idx.getD r 0 < e.extent r) →
        (layout_left.mapping.mk e).call idx < (layout_left.mapping.mk e).required_span_size) ∧
      (∀ idx idx2 : List Nat, idx.length = e.rank → idx2.length = e.rank →
        (∀ r, r < e.rank → idx.getD r 0 < e.extent r) →
        (∀ r, r < e.rank → idx2.getD r 0 < e.extent r) →
        (layout_left.mapping.mk e).call idx = (layout_left.mapping.mk e).call idx2 →
        idx = idx2) ∧
      (∀ k, k < (layout_left.mapping.mk e).required_span_size →
        ∃ idx : List Nat, idx.length = e.rank ∧
          (∀ r, r < e.rank → idx.getD r 0 < e.extent r) ∧
          (layout_left.mapping.mk e).call idx = k)) := by
  constructor
  · refine ⟨rfl, rfl, ?_⟩
    exact bijection_of_weights e hprod (layout_right.mapping.mk e).call
      (row_major_weights e.values) _
      (fun idx hlen => right_call_modEq_dot ⟨e⟩ idx hlen)
      (fun idx => right_call_lt ⟨e⟩ idx)
      (fun idx hf => right_dot_lt idx e.values hf)
      (fun idx idx2 hf hf2 heq => right_dot_inj e.values idx idx2 hf hf2 heq)
      (fun k hk => right_dot_surj e.values k hk)
      (span_eq_prod e hprod)
  · refine ⟨rfl, rfl, ?_⟩
    exact bijection_of_weights e hprod (layout_left.mapping.mk e).call
      (column_major_weights e.values) _
      (fun idx hlen => left_call_modEq_dot ⟨e⟩ idx hlen)
      (fun idx => left_call_lt ⟨e⟩ idx)
      (fun idx hf => left_dot_lt idx e.values hf)
      (fun idx idx2 hf hf2 heq => left_dot_inj e.values idx idx2 hf hf2 heq)
      (fun k hk => left_dot_surj e.values k hk)
      (span_eq_prod e hprod)

/-- C23 at extents (2,3): the required span size is 6, the in-bounds tuple
(1,2) maps to 5 in row-major and in column-major, and offset 4 is the image of
an in-bounds tuple in both. -/
theorem contiguous_layout_bijection_witness :
    (extents.mk [⟨2, 0⟩, ⟨3, 0⟩]).values.prod < SIZE ∧
    (layout_right.mapping.mk ⟨[⟨2, 0⟩, ⟨3, 0⟩]⟩).required_span_size = 6 ∧
    (layout_right.mapping.mk ⟨[⟨2, 0⟩, ⟨3, 0⟩]⟩).call [1, 2] = 5 ∧
    (layout_left.mapping.mk ⟨[⟨2, 0⟩, ⟨3, 0⟩]⟩).call [1, 2] = 5 ∧
    (layout_right.mapping.mk ⟨[⟨2, 0⟩, ⟨3, 0⟩]⟩).call [1, 2] <
      (layout_right.mapping.mk ⟨[⟨2, 0⟩, ⟨3, 0⟩]⟩).required_span_size ∧
    (∃ idx : List Nat, idx.length = (extents.mk [⟨2, 0⟩, ⟨3, 0⟩]).rank ∧
      (∀ r, r < (extents.mk [⟨2, 0⟩, ⟨3, 0⟩]).rank →
        idx.getD r 0 < (extents.mk [⟨2, 0⟩, ⟨3, 0⟩]).extent r) ∧
      (layout_right.mapping.mk ⟨[⟨2, 0⟩, ⟨3, 0⟩]⟩).call idx = 4) ∧
    (∃ idx : List Nat, idx.length = (extents.mk [⟨2, 0⟩, ⟨3, 0⟩]).rank ∧
      (∀ r, r < (extents.mk [⟨2, 0⟩, ⟨3, 0⟩]).rank →
        idx.getD r 0 < (extents.mk [⟨2, 0⟩, ⟨3, 0⟩]).extent r) ∧
      (layout_left.mapping.mk ⟨[⟨2, 0⟩, ⟨3, 0⟩]⟩).call idx = 4) :=
  ⟨by decide, by decide, by decide, by decide,
    (contiguous_layout_bijection ⟨[⟨2, 0⟩, ⟨3, 0⟩]⟩ (by decide)).1.2.2.1 [1, 2]
      (by decide) (by decide),
    (contiguous_layout_bijection ⟨[⟨2, 0⟩, ⟨3, 0⟩]⟩ (by decide)).1.2.2.2.2 4 (by decide),
    (contiguous_layout_bijection ⟨[⟨2, 0⟩, ⟨3, 0⟩]⟩ (by decide)).2.2.2.2.2 4 (by decide)⟩

end Mdspan
